import Mathlib

/-! # Linalg promotion (`mlir/lib/Dialect/Linalg/Transforms/Promotion.cpp`)

A shallow embedding of the promotion transformation together with the properties of its
specification.

* SSA values are terms that carry the operation defining them.  Values whose identity matters
  (allocations, subviews, values defined outside the transformation) carry an identifier.
* The builder records every created operation together with the insertion point in use.
* The strategy callbacks (allocation, deallocation, copy-in, copy-out) are arbitrary functions
  on the builder.  A separate log records, in order, every strategy invocation and every action
  taken by the transformation itself; callbacks have no access to that log.
-/

namespace Linalg

/-! ## Types and attributes -/

/-- Element types.  `other` stands for every type that is neither `index`, a float, an integer
nor a complex type (vectors, memrefs, ...).  MLIR only admits float and integer elements in a
complex type. -/
inductive MType where
  | index
  | float (width : Nat)
  | integer (width : Nat)
  | complexOfFloat (width : Nat)
  | complexOfInteger (width : Nat)
  | other (id : Nat)
deriving DecidableEq, Repr

/-- Constant attributes: `IntegerAttr::get(t, v)` and `FloatAttr::get(t, v)`. -/
inductive Attribute where
  | integer (type : MType) (value : Int)
  | float (type : MType) (value : Rat)
deriving DecidableEq

/-- The enumeration `gpu::AddressSpace`. -/
inductive AddressSpace where
  | global
  | workgroup
  | privateSpace
deriving DecidableEq, Repr

/-- Memory space attribute of a memref type. -/
inductive MemorySpace where
  | gpu (space : AddressSpace)
  | generic (n : Nat)
deriving DecidableEq

/-- A `MemRefType`: shape (`none` is `ShapedType::kDynamic`), element type, memory space. -/
structure MemRefType where
  shape : List (Option Int)
  elementType : MType
  memorySpace : Option MemorySpace
deriving DecidableEq

/-! ## SSA values -/

mutual
/-- An SSA `Value`, given by the operation that defines it.

* `external id`: a block argument or the result of an operation that the transformation never
  inspects (for instance a dynamic size computed earlier in the program);
* `constant a`: result of `arith.constant`;
* `muli`, `complexCreate`, `dim`: results of `arith.muli`, `complex.create`, `memref.dim`;
* `alloc`, `alloca`: results of `memref.alloc` and `memref.alloca`;
* `view`: result of `memref.view`;
* `subview`: result of `memref.subview` with its mixed offsets, sizes and strides, the bit
  vector of its dropped dimensions and the element type of its result type. -/
inductive Value where
  | external (id : Nat)
  | constant (attr : Attribute)
  | muli (lhs rhs : Value)
  | complexCreate (type : MType) (real imaginary : Value)
  | dim (source : Value) (index : Nat)
  | alloc (id : Nat) (type : MemRefType) (dynamicSizes : List Value) (alignment : Option Nat)
  | alloca (id : Nat) (type : MemRefType) (dynamicSizes : List Value) (alignment : Option Nat)
  | view (type : MemRefType) (source byteShift : Value) (sizes : List Value)
  | subview (id : Nat) (source : Value) (offsets sizes strides : List OpFoldResult)
      (droppedDims : List Bool) (elementType : MType)
/-- An `OpFoldResult`: either an (index) attribute or a value. -/
inductive OpFoldResult where
  | attr (c : Int)
  | value (v : Value)
end

mutual
/-- Boolean equality of values. -/
def Value.beq : Value → Value → Bool
  | .external a, .external b => a == b
  | .constant a, .constant b => a == b
  | .muli a b, .muli c d => Value.beq a c && Value.beq b d
  | .complexCreate t a b, .complexCreate u c d => t == u && Value.beq a c && Value.beq b d
  | .dim s i, .dim t j => Value.beq s t && i == j
  | .alloc i t d a, .alloc j u e b => i == j && t == u && Value.beqList d e && a == b
  | .alloca i t d a, .alloca j u e b => i == j && t == u && Value.beqList d e && a == b
  | .view t s h z, .view u r g y =>
      t == u && Value.beq s r && Value.beq h g && Value.beqList z y
  | .subview i s o z r d e, .subview j s2 o2 z2 r2 d2 e2 =>
      i == j && Value.beq s s2 && OpFoldResult.beqList o o2 && OpFoldResult.beqList z z2
        && OpFoldResult.beqList r r2 && d == d2 && e == e2
  | _, _ => false
termination_by structural a => a
/-- Boolean equality of lists of values. -/
def Value.beqList : List Value → List Value → Bool
  | [], [] => true
  | a :: as, b :: bs => Value.beq a b && Value.beqList as bs
  | _, _ => false
termination_by structural a => a
/-- Boolean equality of fold results. -/
def OpFoldResult.beq : OpFoldResult → OpFoldResult → Bool
  | .attr a, .attr b => a == b
  | .value a, .value b => Value.beq a b
  | _, _ => false
termination_by structural a => a
/-- Boolean equality of lists of fold results. -/
def OpFoldResult.beqList : List OpFoldResult → List OpFoldResult → Bool
  | [], [] => true
  | a :: as, b :: bs => OpFoldResult.beq a b && OpFoldResult.beqList as bs
  | _, _ => false
termination_by structural a => a
end

theorem Value.beq_external (a b : Nat) :
    Value.beq (.external a) (.external b) = (a == b) := rfl

theorem Value.beq_constant (a b : Attribute) :
    Value.beq (.constant a) (.constant b) = (a == b) := rfl

theorem Value.beq_muli (a b c d : Value) :
    Value.beq (.muli a b) (.muli c d) = (Value.beq a c && Value.beq b d) := rfl

theorem Value.beq_complexCreate (t u : MType) (a b c d : Value) :
    Value.beq (.complexCreate t a b) (.complexCreate u c d)
      = (t == u && Value.beq a c && Value.beq b d) := rfl

theorem Value.beq_dim (s t : Value) (i j : Nat) :
    Value.beq (.dim s i) (.dim t j) = (Value.beq s t && i == j) := rfl

theorem Value.beq_alloc (i j : Nat) (t u : MemRefType) (d e : List Value) (a b : Option Nat) :
    Value.beq (.alloc i t d a) (.alloc j u e b)
      = (i == j && t == u && Value.beqList d e && a == b) := rfl

theorem Value.beq_alloca (i j : Nat) (t u : MemRefType) (d e : List Value) (a b : Option Nat) :
    Value.beq (.alloca i t d a) (.alloca j u e b)
      = (i == j && t == u && Value.beqList d e && a == b) := rfl

theorem Value.beq_view (t u : MemRefType) (s r h g : Value) (z y : List Value) :
    Value.beq (.view t s h z) (.view u r g y)
      = (t == u && Value.beq s r && Value.beq h g && Value.beqList z y) := rfl

theorem Value.beq_subview (i j : Nat) (s s2 : Value) (o o2 z z2 r r2 : List OpFoldResult)
    (d d2 : List Bool) (e e2 : MType) :
    Value.beq (.subview i s o z r d e) (.subview j s2 o2 z2 r2 d2 e2)
      = (i == j && Value.beq s s2 && OpFoldResult.beqList o o2 && OpFoldResult.beqList z z2
        && OpFoldResult.beqList r r2 && d == d2 && e == e2) := rfl

theorem Value.beqList_cons (a b : Value) (as bs : List Value) :
    Value.beqList (a :: as) (b :: bs) = (Value.beq a b && Value.beqList as bs) := rfl

theorem OpFoldResult.ofr_beq_attr (a b : Int) :
    OpFoldResult.beq (.attr a) (.attr b) = (a == b) := rfl

theorem OpFoldResult.ofr_beq_value (a b : Value) :
    OpFoldResult.beq (.value a) (.value b) = Value.beq a b := rfl

theorem OpFoldResult.ofr_beqList_cons (a b : OpFoldResult) (as bs : List OpFoldResult) :
    OpFoldResult.beqList (a :: as) (b :: bs)
      = (OpFoldResult.beq a b && OpFoldResult.beqList as bs) := rfl

mutual
theorem Value.eq_of_beq : ∀ (a b : Value), Value.beq a b = true → a = b := by
  intro a b h
  cases a <;> cases b <;> first
    | exact Bool.noConfusion (show false = true from h)
    | skip
  · rw [Value.beq_external, beq_iff_eq] at h; rw [h]
  · rw [Value.beq_constant, beq_iff_eq] at h; rw [h]
  · simp only [Value.beq_muli, Bool.and_eq_true] at h
    rw [Value.eq_of_beq _ _ h.1, Value.eq_of_beq _ _ h.2]
  · simp only [Value.beq_complexCreate, Bool.and_eq_true, beq_iff_eq] at h
    rw [h.1.1, Value.eq_of_beq _ _ h.1.2, Value.eq_of_beq _ _ h.2]
  · simp only [Value.beq_dim, Bool.and_eq_true, beq_iff_eq] at h
    rw [Value.eq_of_beq _ _ h.1, h.2]
  · simp only [Value.beq_alloc, Bool.and_eq_true, beq_iff_eq] at h
    rw [h.1.1.1, h.1.1.2, Value.eq_of_beqList _ _ h.1.2, h.2]
  · simp only [Value.beq_alloca, Bool.and_eq_true, beq_iff_eq] at h
    rw [h.1.1.1, h.1.1.2, Value.eq_of_beqList _ _ h.1.2, h.2]
  · simp only [Value.beq_view, Bool.and_eq_true, beq_iff_eq] at h
    rw [h.1.1.1, Value.eq_of_beq _ _ h.1.1.2, Value.eq_of_beq _ _ h.1.2,
      Value.eq_of_beqList _ _ h.2]
  · simp only [Value.beq_subview, Bool.and_eq_true, beq_iff_eq] at h
    rw [h.1.1.1.1.1.1, Value.eq_of_beq _ _ h.1.1.1.1.1.2,
      OpFoldResult.ofr_eq_of_beqList _ _ h.1.1.1.1.2, OpFoldResult.ofr_eq_of_beqList _ _ h.1.1.1.2,
      OpFoldResult.ofr_eq_of_beqList _ _ h.1.1.2, h.1.2, h.2]
theorem Value.eq_of_beqList : ∀ (a b : List Value), Value.beqList a b = true → a = b := by
  intro a b h
  cases a <;> cases b <;> first
    | exact Bool.noConfusion (show false = true from h)
    | skip
  · rfl
  · simp only [Value.beqList_cons, Bool.and_eq_true] at h
    rw [Value.eq_of_beq _ _ h.1, Value.eq_of_beqList _ _ h.2]
theorem OpFoldResult.ofr_eq_of_beq :
    ∀ (a b : OpFoldResult), OpFoldResult.beq a b = true → a = b := by
  intro a b h
  cases a <;> cases b <;> first
    | exact Bool.noConfusion (show false = true from h)
    | skip
  · rw [OpFoldResult.ofr_beq_attr, beq_iff_eq] at h; rw [h]
  · rw [OpFoldResult.ofr_beq_value] at h; rw [Value.eq_of_beq _ _ h]
theorem OpFoldResult.ofr_eq_of_beqList :
    ∀ (a b : List OpFoldResult), OpFoldResult.beqList a b = true → a = b := by
  intro a b h
  cases a <;> cases b <;> first
    | exact Bool.noConfusion (show false = true from h)
    | skip
  · rfl
  · simp only [OpFoldResult.ofr_beqList_cons, Bool.and_eq_true] at h
    rw [OpFoldResult.ofr_eq_of_beq _ _ h.1, OpFoldResult.ofr_eq_of_beqList _ _ h.2]
end

mutual
theorem Value.beq_self : ∀ (a : Value), Value.beq a a = true := by
  intro a
  cases a
  · rw [Value.beq_external]; exact beq_self_eq_true _
  · rw [Value.beq_constant]; exact beq_self_eq_true _
  · rw [Value.beq_muli, Value.beq_self, Value.beq_self]; rfl
  · rw [Value.beq_complexCreate, Value.beq_self, Value.beq_self, beq_self_eq_true]; rfl
  · rw [Value.beq_dim, Value.beq_self, beq_self_eq_true]; rfl
  · rw [Value.beq_alloc, Value.beqList_self]; simp
  · rw [Value.beq_alloca, Value.beqList_self]; simp
  · rw [Value.beq_view, Value.beq_self, Value.beq_self, Value.beqList_self]; simp
  · rw [Value.beq_subview, Value.beq_self, OpFoldResult.ofr_beqList_self,
      OpFoldResult.ofr_beqList_self, OpFoldResult.ofr_beqList_self]; simp
theorem Value.beqList_self : ∀ (a : List Value), Value.beqList a a = true := by
  intro a
  cases a
  · rfl
  · rw [Value.beqList_cons, Value.beq_self, Value.beqList_self]; rfl
theorem OpFoldResult.ofr_beq_self : ∀ (a : OpFoldResult), OpFoldResult.beq a a = true := by
  intro a
  cases a
  · rw [OpFoldResult.ofr_beq_attr]; exact beq_self_eq_true _
  · rw [OpFoldResult.ofr_beq_value, Value.beq_self]
theorem OpFoldResult.ofr_beqList_self :
    ∀ (a : List OpFoldResult), OpFoldResult.beqList a a = true := by
  intro a
  cases a
  · rfl
  · rw [OpFoldResult.ofr_beqList_cons, OpFoldResult.ofr_beq_self, OpFoldResult.ofr_beqList_self]; rfl
end

instance : DecidableEq Value := fun a b =>
  decidable_of_iff (Value.beq a b = true)
    ⟨Value.eq_of_beq a b, fun h => h ▸ Value.beq_self a⟩

instance : DecidableEq OpFoldResult := fun a b =>
  decidable_of_iff (OpFoldResult.beq a b = true)
    ⟨OpFoldResult.ofr_eq_of_beq a b, fun h => h ▸ OpFoldResult.ofr_beq_self a⟩

/-! ## Operations, builder and log -/

/-- Outcome of a fallible step (`LogicalResult`). -/
inductive LogicalResult where
  | success
  | failure
deriving DecidableEq, Repr

/-- The test `failed(r)`. -/
def failed : LogicalResult → Bool
  | .success => false
  | .failure => true

/-- A `memref.subview` operation: `id` identifies the operation, `droppedDims` is the result of
`getDroppedDims()` (one bit per source dimension) and `elementType` the element type of
`getType()`. -/
structure SubViewOp where
  id : Nat
  source : Value
  offsets : List OpFoldResult
  sizes : List OpFoldResult
  strides : List OpFoldResult
  droppedDims : List Bool
  elementType : MType
deriving DecidableEq

/-- The result of a subview operation (the conversion of the operation to a `Value`). -/
def SubViewOp.result (sv : SubViewOp) : Value :=
  .subview sv.id sv.source sv.offsets sv.sizes sv.strides sv.droppedDims sv.elementType

/-- Models `dyn_cast_or_null<memref::SubViewOp>(v.getDefiningOp())`. -/
def Value.getDefiningSubViewOp : Value → Option SubViewOp
  | .subview id source offsets sizes strides droppedDims elementType =>
      some ⟨id, source, offsets, sizes, strides, droppedDims, elementType⟩
  | _ => none

/-- One entry of `getOrCreateRanges`. -/
structure Range where
  offset : OpFoldResult
  size : OpFoldResult
  stride : OpFoldResult
deriving DecidableEq

/-- Modelled from the spec: `getOrCreateRanges` is declared outside this file; a view is
described by an offset, a size and a stride per dimension, each a literal constant or a
dynamically computed quantity.  There is one range per size (the three lists of a subview have
the same length). -/
def SubViewOp.getOrCreateRanges : List OpFoldResult → List OpFoldResult → List OpFoldResult →
    List Range
  | os, z :: zs, rs =>
    ⟨os.headD (.attr 0), z, rs.headD (.attr 1)⟩ :: SubViewOp.getOrCreateRanges os.tail zs rs.tail
  | _, [], _ => []

/-- Operations created by the transformation or by its callbacks.  A value-producing operation
is recorded by its result. -/
inductive Op where
  | value (result : Value)
  | linalgFill (value output : Value)
  | linalgCopy (source target : Value)
  | memrefCopy (source target : Value)
  | memrefDealloc (memref : Value)
  | gpuBarrier
deriving DecidableEq

/-- Where the builder inserts: `initial` is the insertion point the caller set up, `afterOp` is
right after the promoted operation, `funcEntry` the start of the enclosing function body. -/
inductive InsertionPoint where
  | initial
  | afterOp
  | funcEntry
deriving DecidableEq, Repr

/-- An `OpBuilder` together with the operations created through it (in creation order, with
the insertion point in use) and a supply of fresh operation identifiers. -/
structure OpBuilder where
  insertionPoint : InsertionPoint
  created : List (InsertionPoint × Op)
  nextId : Nat
deriving DecidableEq

/-- The effect of `b.create<...>`: record the operation at the current insertion point. -/
def OpBuilder.create (b : OpBuilder) (op : Op) : OpBuilder :=
  { b with created := b.created ++ [(b.insertionPoint, op)] }

/-- Storage width in bytes of an element type (`DataLayout::getTypeSize`).  Scalable sizes are
excluded by the assertion in `allocBuffer`. -/
structure DataLayout where
  getTypeSize : MType → Nat

/-- `AllocBufferCallbackFn`. -/
abbrev AllocBufferCallbackFn :=
  OpBuilder → SubViewOp → List Value → DataLayout → Option Value × OpBuilder

/-- `DeallocBufferCallbackFn`. -/
abbrev DeallocBufferCallbackFn := OpBuilder → Value → LogicalResult × OpBuilder

/-- `CopyCallbackFn`: builder, source, destination. -/
abbrev CopyCallbackFn := OpBuilder → Value → Value → LogicalResult × OpBuilder

/-- The caller-supplied configuration `LinalgPromotionOptions` (the fields read by this
file). -/
structure LinalgPromotionOptions where
  operandsToPromote : Option (List Nat)
  useFullTileBuffers : Option (List Bool)
  useFullTileBuffersDefault : Bool
  useOriginalSubviewSize : Bool
  alignment : Option Nat
  memorySpace : Option MemorySpace
  useAlloca : Bool
  allocationFn : Option AllocBufferCallbackFn
  deallocationFn : Option DeallocBufferCallbackFn
  copyInFn : Option CopyCallbackFn
  copyOutFn : Option CopyCallbackFn

/-- A structured operation seen through the `LinalgOp` interface. -/
structure LinalgOp where
  operands : List Value
  numDpsInputs : Nat
  isGenericOp : Bool
  payloadUsesValueFromOperand : Nat → Bool
  hasPureBufferSemantics : Bool

/-- An arbitrary operation: `dyn_cast<LinalgOp>` succeeds exactly on `linalg`. -/
inductive Operation where
  | linalg (op : LinalgOp)
  | other (operands : List Value)

/-- The pair returned for a promoted view. -/
structure PromotionInfo where
  fullLocalView : Value
  partialLocalView : Value
deriving DecidableEq

/-- One entry of the log. -/
inductive Event where
  | create (op : Op)
  | allocationFn (subView : SubViewOp) (sizes : List Value) (result : Option Value)
  | copyInFn (src dst : Value) (result : LogicalResult)
  | setOperands (operands : List Value)
  | setInsertionPointAfter
  | copyOutFn (src dst : Value) (result : LogicalResult)
  | deallocationFn (buffer : Value) (result : LogicalResult)
deriving DecidableEq

/-- The builder and the log of what the transformation did with it. -/
structure State where
  builder : OpBuilder
  log : List Event
deriving DecidableEq

/-- An operation created by the transformation itself. -/
def State.create (s : State) (op : Op) : State :=
  { builder := s.builder.create op, log := s.log ++ [.create op] }

/-! ## Associative containers -/

/-- The lookup `m.find(k)` of a `MapVector` or `DenseMap` kept as an association list. -/
def mapFind {κ α : Type} [DecidableEq κ] (m : List (κ × α)) (k : κ) : Option α :=
  (m.find? (fun e => e.1 = k)).map (fun e => e.2)

/-- The assignment `m[k] = v`: overwrite in place when the key is present, else append. -/
def mapSet {κ α : Type} [DecidableEq κ] : List (κ × α) → κ → α → List (κ × α)
  | [], k, v => [(k, v)]
  | e :: m, k, v => if e.1 = k then (k, v) :: m else e :: mapSet m k v

/-- The read `m[k]` of a `DenseMap<Value, bool>`: a missing key reads as `false`. -/
def mapGet (m : List (Value × Bool)) (k : Value) : Bool :=
  (mapFind m k).getD false

/-- `SmallBitVector::resize(n, t)`. -/
def bitResize (v : List Bool) (n : Nat) (t : Bool) : List Bool :=
  (v ++ List.replicate (n - v.length) t).take n

/-! ## Helpers declared outside this file -/

/-- Wrap-around of 64-bit signed arithmetic. -/
def wrapInt64 (x : Int) : Int :=
  (x + 2 ^ 63) % 2 ^ 64 - 2 ^ 63

/-- Modelled from the spec: `ShapedType::kDynamic` is declared outside this file; it is the
least 64-bit signed integer, the number that stands for a dynamic dimension in a shape. -/
def kDynamic : Int :=
  -(2 ^ 63)

/-- Modelled from the spec: `MemRefType::get` is declared outside this file.  This is the
dimension it records for a 64-bit extent: `kDynamic` is a dynamic dimension, and any other
number is recorded as it is.  A negative number other than `kDynamic` is not a legal extent:
`MemRefType::get` asserts that the type verifies, and only when assertions are compiled out is
a type with such a number built at all.  The statement on the default allocation backend
leaves that case out. -/
def shapeEntry (extent : Int) : Option Int :=
  if extent = kDynamic then none else some extent

/-- A `ConstantIndexOp` result. -/
def constantIndex (c : Int) : Value :=
  .constant (.integer .index c)

/-- Modelled from the spec: `getConstantIntValue` is declared outside this file; it yields the
literal when the value is the result of an integer constant. -/
def getConstantIntValue : Value → Option Int
  | .constant (.integer _ c) => some c
  | _ => none

/-- Modelled from the spec: `getValueOrCreateConstantIndexOp` is declared outside this file; it
returns the value itself, or materializes the literal as a constant. -/
def getValueOrCreateConstantIndexOp (s : State) : OpFoldResult → Value × State
  | .value v => (v, s)
  | .attr c => (constantIndex c, s.create (.value (constantIndex c)))

/-- Modelled from the spec: the folder of `arith.muli` is declared outside this file; sizes
that are all literal constants multiply to a literal constant (in 64-bit arithmetic), otherwise
the product is computed at run time. -/
def createOrFoldMulI (b : OpBuilder) (lhs rhs : Value) : Value × OpBuilder :=
  match getConstantIntValue lhs, getConstantIntValue rhs with
  | some l, some r =>
    (constantIndex (wrapInt64 (l * r)), b.create (.value (constantIndex (wrapInt64 (l * r)))))
  | _, _ => (.muli lhs rhs, b.create (.value (.muli lhs rhs)))

/-! ## Default strategies -/

/-- The function `allocBuffer`: a buffer of `allocSize * width` bytes, on the stack when
`useAlloca` is set.  When the size is a constant the product `width * cst` is computed in
64-bit arithmetic and handed to `MemRefType::get` as the extent, and no size operand is passed:
the type is static with that many bytes when the wrapped product is not negative, and it is
`memref<?xi8>` when the wrapped product is `kDynamic`.  A wrapped product that is negative and
not `kDynamic` is not a legal extent (see `shapeEntry`). -/
def allocBuffer (b : OpBuilder) (options : LinalgPromotionOptions) (elementType : MType)
    (allocSize : Value) (layout : DataLayout) (alignment : Option Nat) : Value × OpBuilder :=
  let width : Int := layout.getTypeSize elementType
  match getConstantIntValue allocSize with
  | some cst =>
    let staticBufferType : MemRefType :=
      ⟨[shapeEntry (wrapInt64 (width * cst))], .integer 8, options.memorySpace⟩
    if options.useAlloca then
      (.alloca b.nextId staticBufferType [] alignment,
        ({ b with nextId := b.nextId + 1 }).create
          (.value (.alloca b.nextId staticBufferType [] alignment)))
    else
      (.alloc b.nextId staticBufferType [] alignment,
        ({ b with nextId := b.nextId + 1 }).create
          (.value (.alloc b.nextId staticBufferType [] alignment)))
  | none =>
    let dynamicBufferType : MemRefType := ⟨[none], .integer 8, options.memorySpace⟩
    let b1 := b.create (.value (constantIndex width))
    let mul := createOrFoldMulI b1 (constantIndex width) allocSize
    if options.useAlloca then
      (.alloca mul.2.nextId dynamicBufferType [mul.1] alignment,
        ({ mul.2 with nextId := mul.2.nextId + 1 }).create
          (.value (.alloca mul.2.nextId dynamicBufferType [mul.1] alignment)))
    else
      (.alloc mul.2.nextId dynamicBufferType [mul.1] alignment,
        ({ mul.2 with nextId := mul.2.nextId + 1 }).create
          (.value (.alloc mul.2.nextId dynamicBufferType [mul.1] alignment)))

/-- The loop of `defaultAllocBufferCallBack` multiplying the sizes. -/
def allocSizeLoop : List Value → Value × OpBuilder → Value × OpBuilder
  | [], acc => acc
  | size :: rest, acc => allocSizeLoop rest (createOrFoldMulI acc.2 acc.1 size)

/-- The function `defaultAllocBufferCallBack`: a byte buffer and a view of shape
`boundingSubViewSize` over it, at byte shift zero. -/
def defaultAllocBufferCallBack (options : LinalgPromotionOptions) (builder : OpBuilder)
    (subView : SubViewOp) (boundingSubViewSize : List Value) (alignment : Option Nat)
    (layout : DataLayout) : Option Value × OpBuilder :=
  let zero := constantIndex 0
  let one := constantIndex 1
  let b2 := (builder.create (.value zero)).create (.value one)
  let allocSize := allocSizeLoop boundingSubViewSize (one, b2)
  let buffer := allocBuffer allocSize.2 options subView.elementType allocSize.1 layout alignment
  let dynSizes : List (Option Int) := List.replicate boundingSubViewSize.length none
  let viewMemRefType : MemRefType := ⟨dynSizes, subView.elementType, options.memorySpace⟩
  let view := Value.view viewMemRefType buffer.1 zero boundingSubViewSize
  (some view, buffer.2.create (.value view))

/-- The function `defaultDeallocBufferCallBack`.  The source casts the defining operation of
`fullLocalView` to a view operation; on any other value nothing is emitted here. -/
def defaultDeallocBufferCallBack (options : LinalgPromotionOptions) (b : OpBuilder)
    (fullLocalView : Value) : LogicalResult × OpBuilder :=
  if !options.useAlloca then
    match fullLocalView with
    | .view _ source _ _ => (.success, b.create (.memrefDealloc source))
    | _ => (.success, b)
  else (.success, b)

/-- The lambda `defaultCopyCallBack`. -/
def defaultCopyCallBack (b : OpBuilder) (src dst : Value) : LogicalResult × OpBuilder :=
  (.success, b.create (.linalgCopy src dst))

/-! ## Policy resolver -/

/-- The helper struct `LinalgOpInstancePromotionOptions`.  `subViews` is the `MapVector` from
operand number to the subview (kept as its defining operation), `useFullTileBuffers` the
`DenseMap` keyed by the view value. -/
structure LinalgOpInstancePromotionOptions where
  subViews : List (Nat × SubViewOp)
  operandsNumbersToCopyIn : List Nat
  useFullTileBuffers : List (Value × Bool)
  useOriginalSubviewSize : Bool
  allocationFn : AllocBufferCallbackFn
  deallocationFn : DeallocBufferCallbackFn
  copyInFn : CopyCallbackFn
  copyOutFn : CopyCallbackFn
  alignment : Option Nat

/-- What the operand loop of the constructor accumulates. -/
structure Selection where
  subViews : List (Nat × SubViewOp)
  operandsNumbersToCopyIn : List Nat
  useFullTileBuffers : List (Value × Bool)
deriving DecidableEq

/-- The method `SmallSet::insert`. -/
def setInsert (s : List Nat) (n : Nat) : List Nat :=
  if s.contains n then s else s ++ [n]

/-- The operand loop of the constructor, from operand number `operandNumber` on. -/
def selectOperands (linalgOp : LinalgOp) (options : LinalgPromotionOptions)
    (vUseFullTileBuffers : List Bool) : Nat → List Value → Selection → Selection
  | _, [], acc => acc
  | operandNumber, opOperand :: rest, acc =>
    let excluded : Bool :=
      match options.operandsToPromote with
      | some set => !set.contains operandNumber
      | none => false
    if excluded then
      selectOperands linalgOp options vUseFullTileBuffers (operandNumber + 1) rest acc
    else
      match opOperand.getDefiningSubViewOp with
      | some sv =>
        selectOperands linalgOp options vUseFullTileBuffers (operandNumber + 1) rest
          { subViews := mapSet acc.subViews operandNumber sv
            operandsNumbersToCopyIn :=
              if !linalgOp.isGenericOp || linalgOp.payloadUsesValueFromOperand operandNumber
              then setInsert acc.operandsNumbersToCopyIn operandNumber
              else acc.operandsNumbersToCopyIn
            useFullTileBuffers :=
              mapSet acc.useFullTileBuffers sv.result
                (vUseFullTileBuffers.getD operandNumber false) }
      | none => selectOperands linalgOp options vUseFullTileBuffers (operandNumber + 1) rest acc

/-- The constructor of `LinalgOpInstancePromotionOptions`. -/
def LinalgOpInstancePromotionOptions.construct (linalgOp : LinalgOp)
    (options : LinalgPromotionOptions) : LinalgOpInstancePromotionOptions :=
  let vUseFullTileBuffers :=
    bitResize (options.useFullTileBuffers.getD []) linalgOp.operands.length
      options.useFullTileBuffersDefault
  let sel := selectOperands linalgOp options vUseFullTileBuffers 0 linalgOp.operands ⟨[], [], []⟩
  { subViews := sel.subViews
    operandsNumbersToCopyIn := sel.operandsNumbersToCopyIn
    useFullTileBuffers := sel.useFullTileBuffers
    useOriginalSubviewSize := options.useOriginalSubviewSize
    allocationFn :=
      match options.allocationFn with
      | some f => f
      | none => fun b subViewOp boundingSubViewSize layout =>
          defaultAllocBufferCallBack options b subViewOp boundingSubViewSize options.alignment
            layout
    deallocationFn :=
      match options.deallocationFn with
      | some f => f
      | none => fun b buffer => defaultDeallocBufferCallBack options b buffer
    copyInFn := options.copyInFn.getD defaultCopyCallBack
    copyOutFn := options.copyOutFn.getD defaultCopyCallBack
    alignment := options.alignment }

/-! ## Tile promoter -/

/-- The constant-bound analysis `ValueBoundsConstraintSet::computeConstantBound` (closed upper
bound), an external facility: `none` is failure. -/
abbrev BoundAnalysis := OpFoldResult → Option Int

/-- The test `isa_and_present<Attribute>`. -/
def OpFoldResult.isAttribute : OpFoldResult → Bool
  | .attr _ => true
  | .value _ => false

/-- Element type of a memref value (the type of the value for a scalar). -/
def Value.getElementType : Value → MType
  | .external id => .other id
  | .constant (.integer t _) => t
  | .constant (.float t _) => t
  | .muli _ _ => .index
  | .complexCreate t _ _ => t
  | .dim _ _ => .index
  | .alloc _ t _ _ => t.elementType
  | .alloca _ t _ _ => t.elementType
  | .view t _ _ _ => t.elementType
  | .subview _ _ _ _ _ _ e => e

/-- The sizes computed by the loop of `promoteSubviewAsNewBuffer`. -/
structure TileSizes where
  state : State
  fullSizes : List Value
  partialSizes : List OpFoldResult
  resultDimIdx : Nat
deriving DecidableEq

/-- The loop of `promoteSubviewAsNewBuffer` over the enumerated ranges, from range number
`index` on.  `createOrFold<memref::DimOp>` is kept as the `memref.dim` it stands for. -/
def tileSizesLoop (bound : BoundAnalysis) (subView : SubViewOp) (useOriginalSubviewSize : Bool) :
    Nat → List Range → TileSizes → TileSizes
  | _, [], acc => acc
  | index, rangeValue :: rest, acc =>
    if subView.droppedDims.getD index false then
      tileSizesLoop bound subView useOriginalSubviewSize (index + 1) rest acc
    else
      let size : Value × State :=
        if rangeValue.size.isAttribute || useOriginalSubviewSize then
          getValueOrCreateConstantIndexOp acc.state rangeValue.size
        else
          match bound rangeValue.size with
          | none => getValueOrCreateConstantIndexOp acc.state rangeValue.size
          | some upperBound =>
            (constantIndex upperBound, acc.state.create (.value (constantIndex upperBound)))
      let dim := Value.dim subView.result acc.resultDimIdx
      tileSizesLoop bound subView useOriginalSubviewSize (index + 1) rest
        { state := size.2.create (.value dim)
          fullSizes := acc.fullSizes ++ [size.1]
          partialSizes := acc.partialSizes ++ [.value dim]
          resultDimIdx := acc.resultDimIdx + 1 }

/-- The function `promoteSubviewAsNewBuffer`.  `createOrFold<memref::SubViewOp>` is kept as the
`memref.subview` it stands for. -/
def promoteSubviewAsNewBuffer (bound : BoundAnalysis) (s : State) (subView : SubViewOp)
    (useOriginalSubviewSize : Bool) (allocationFn : AllocBufferCallbackFn)
    (layout : DataLayout) : Option PromotionInfo × State :=
  let sizes := tileSizesLoop bound subView useOriginalSubviewSize 0
    (SubViewOp.getOrCreateRanges subView.offsets subView.sizes subView.strides)
    ⟨s, [], [], 0⟩
  let allocated := allocationFn sizes.state.builder subView sizes.fullSizes layout
  let s1 : State :=
    { builder := allocated.2
      log := sizes.state.log ++ [.allocationFn subView sizes.fullSizes allocated.1] }
  match allocated.1 with
  | none => (none, s1)
  | some fullLocalView =>
    let zeros := List.replicate sizes.fullSizes.length (OpFoldResult.attr 0)
    let ones := List.replicate sizes.fullSizes.length (OpFoldResult.attr 1)
    let partialLocalView := Value.subview s1.builder.nextId fullLocalView zeros
      sizes.partialSizes ones (List.replicate sizes.fullSizes.length false)
      fullLocalView.getElementType
    (some ⟨fullLocalView, partialLocalView⟩,
      State.create { s1 with builder := { s1.builder with nextId := s1.builder.nextId + 1 } }
        (.value partialLocalView))

/-- The `TypeSwitch` selecting the fill value of the tile promoter: a zero of the element
type, or no value. -/
def fillValue (s : State) : MType → Option Value × State
  | .float w =>
    (some (.constant (.float (.float w) 0)), s.create (.value (.constant (.float (.float w) 0))))
  | .integer w =>
    (some (.constant (.integer (.integer w) 0)),
      s.create (.value (.constant (.integer (.integer w) 0))))
  | .complexOfFloat w =>
    let tmp := Value.constant (.float (.float w) 0)
    (some (.complexCreate (.complexOfFloat w) tmp tmp),
      (s.create (.value tmp)).create (.value (.complexCreate (.complexOfFloat w) tmp tmp)))
  | .complexOfInteger w =>
    let tmp := Value.constant (.integer (.integer w) 0)
    (some (.complexCreate (.complexOfInteger w) tmp tmp),
      (s.create (.value tmp)).create (.value (.complexCreate (.complexOfInteger w) tmp tmp)))
  | _ => (none, s)

/-- First loop of the tile promoter: allocate every selected view and fill the full tiles. -/
def promoteLoop (bound : BoundAnalysis) (options : LinalgOpInstancePromotionOptions)
    (layout : DataLayout) :
    List (Nat × SubViewOp) → State → List (Nat × PromotionInfo) →
      Option (List (Nat × PromotionInfo)) × State
  | [], s, promotionInfoMap => (some promotionInfoMap, s)
  | v :: rest, s, promotionInfoMap =>
    match promoteSubviewAsNewBuffer bound s v.2 options.useOriginalSubviewSize
        options.allocationFn layout with
    | (none, s1) => (none, s1)
    | (some promotionInfo, s1) =>
      if !mapGet options.useFullTileBuffers v.2.result then
        promoteLoop bound options layout rest s1 (mapSet promotionInfoMap v.1 promotionInfo)
      else
        match fillValue s1 v.2.elementType with
        | (none, s2) => (none, s2)
        | (some fillVal, s2) =>
          promoteLoop bound options layout rest
            (s2.create (.linalgFill fillVal promotionInfo.fullLocalView))
            (mapSet promotionInfoMap v.1 promotionInfo)

/-- Second loop of the tile promoter: copy data into the promoted buffers. -/
def copyInLoop (options : LinalgOpInstancePromotionOptions)
    (promotionInfoMap : List (Nat × PromotionInfo)) :
    List (Nat × SubViewOp) → State → LogicalResult × State
  | [], s => (.success, s)
  | v :: rest, s =>
    match mapFind promotionInfoMap v.1 with
    | none => copyInLoop options promotionInfoMap rest s
    | some info =>
      if !options.operandsNumbersToCopyIn.contains v.1 then
        copyInLoop options promotionInfoMap rest s
      else
        let r := options.copyInFn s.builder v.2.result info.partialLocalView
        let s1 : State :=
          { builder := r.2, log := s.log ++ [.copyInFn v.2.result info.partialLocalView r.1] }
        if failed r.1 then (.failure, s1) else copyInLoop options promotionInfoMap rest s1

/-- The tile promoter: the static `promoteSubViews(b, options, layout)`. -/
def promoteSubViewsMap (bound : BoundAnalysis) (s : State)
    (options : LinalgOpInstancePromotionOptions) (layout : DataLayout) :
    Option (List (Nat × PromotionInfo)) × State :=
  if options.subViews.isEmpty then (none, s)
  else
    match promoteLoop bound options layout options.subViews s [] with
    | (none, s1) => (none, s1)
    | (some promotionInfoMap, s1) =>
      match copyInLoop options promotionInfoMap options.subViews s1 with
      | (.failure, s2) => (none, s2)
      | (.success, s2) => (some promotionInfoMap, s2)

/-! ## Operation rewriter -/

/-- The read `m[k]` of the promotion map.  In the rewriter the key is always present. -/
def mapIndex (m : List (Nat × PromotionInfo)) (k : Nat) : PromotionInfo :=
  (mapFind m k).getD ⟨.external 0, .external 0⟩

/-- The operand list and the pending write-backs built by the rewriter. -/
structure NewOperands where
  opViews : List Value
  writebackViews : List (Value × Value)
deriving DecidableEq

/-- The operand loop of the rewriter, from operand number `operandNumber` on. -/
def operandLoop (op : LinalgOp) (options : LinalgOpInstancePromotionOptions)
    (promotedBuffersAndViews : List (Nat × PromotionInfo)) :
    Nat → List Value → NewOperands → NewOperands
  | _, [], acc => acc
  | operandNumber, opOperand :: rest, acc =>
    if (mapFind options.subViews operandNumber).isSome then
      operandLoop op options promotedBuffersAndViews (operandNumber + 1) rest
        { opViews :=
            acc.opViews ++
              [if mapGet options.useFullTileBuffers opOperand
               then (mapIndex promotedBuffersAndViews operandNumber).fullLocalView
               else (mapIndex promotedBuffersAndViews operandNumber).partialLocalView]
          writebackViews :=
            if operandNumber ≥ op.numDpsInputs then
              acc.writebackViews ++
                [(opOperand, (mapIndex promotedBuffersAndViews operandNumber).partialLocalView)]
            else acc.writebackViews }
    else
      operandLoop op options promotedBuffersAndViews (operandNumber + 1) rest
        { acc with opViews := acc.opViews ++ [opOperand] }

/-- The write-back loop of the rewriter. -/
def copyOutLoop (options : LinalgOpInstancePromotionOptions) :
    List (Value × Value) → State → LogicalResult × State
  | [], s => (.success, s)
  | viewAndPartialLocalView :: rest, s =>
    let r := options.copyOutFn s.builder viewAndPartialLocalView.2 viewAndPartialLocalView.1
    let s1 : State :=
      { builder := r.2
        log := s.log ++ [.copyOutFn viewAndPartialLocalView.2 viewAndPartialLocalView.1 r.1] }
    if failed r.1 then (.failure, s1) else copyOutLoop options rest s1

/-- The deallocation loop of the rewriter; the result of the strategy is discarded. -/
def deallocLoop (options : LinalgOpInstancePromotionOptions) :
    List (Nat × PromotionInfo) → State → State
  | [], s => s
  | pi :: rest, s =>
    let r := options.deallocationFn s.builder pi.2.fullLocalView
    deallocLoop options rest
      { builder := r.2, log := s.log ++ [.deallocationFn pi.2.fullLocalView r.1] }

/-- What the rewriter leaves behind: the returned `FailureOr<LinalgOp>`, the operation as it
stands in the program, and the builder with the log. -/
structure RewriteResult where
  result : Option LinalgOp
  op : LinalgOp
  state : State

/-- The scope exit of `OpBuilder::InsertionGuard`. -/
def restoreInsertionPoint (s : State) (saved : InsertionPoint) : State :=
  { s with builder := { s.builder with insertionPoint := saved } }

/-- The rewriter: the static `promoteSubViews(b, op, options, layout)`. -/
def promoteSubViewsOp (bound : BoundAnalysis) (s : State) (op : LinalgOp)
    (options : LinalgOpInstancePromotionOptions) (layout : DataLayout) : RewriteResult :=
  match promoteSubViewsMap bound s options layout with
  | (none, s1) => ⟨none, op, s1⟩
  | (some promotedBuffersAndViews, s1) =>
    if promotedBuffersAndViews.length ≠ options.subViews.length then ⟨none, op, s1⟩
    else
      let views := operandLoop op options promotedBuffersAndViews 0 op.operands ⟨[], []⟩
      let op1 : LinalgOp := { op with operands := views.opViews }
      let s2 : State := { s1 with log := s1.log ++ [.setOperands views.opViews] }
      let s3 : State :=
        { builder := { s2.builder with insertionPoint := .afterOp }
          log := s2.log ++ [.setInsertionPointAfter] }
      match copyOutLoop options views.writebackViews s3 with
      | (.failure, s4) => ⟨none, op1, restoreInsertionPoint s4 s2.builder.insertionPoint⟩
      | (.success, s4) =>
        ⟨some op1, op1,
          restoreInsertionPoint (deallocLoop options promotedBuffersAndViews s4)
            s2.builder.insertionPoint⟩

/-- The precondition check `promoteSubviewsPrecondition`, from operand number
`operandNumber` on. -/
def preconditionLoop (options : LinalgPromotionOptions) : Nat → List Value → LogicalResult
  | _, [] => .failure
  | operandNumber, opOperand :: rest =>
    if opOperand.getDefiningSubViewOp.isSome then
      match options.operandsToPromote with
      | none => .success
      | some set =>
        if set.contains operandNumber then .success
        else preconditionLoop options (operandNumber + 1) rest
    else preconditionLoop options (operandNumber + 1) rest

/-- The function `promoteSubviewsPrecondition`.  The second component is the operation as it
stands after the call. -/
def promoteSubviewsPrecondition (op : Operation) (options : LinalgPromotionOptions) :
    LogicalResult × Operation :=
  match op with
  | .other _ => (.failure, op)
  | .linalg linalgOp =>
    if !linalgOp.hasPureBufferSemantics then (.failure, op)
    else (preconditionLoop options 0 linalgOp.operands, op)

/-- The entry point `promoteSubViews(builder, linalgOp, options)`; `layout` is
`DataLayout::closest(linalgOp)`. -/
def promoteSubViews (bound : BoundAnalysis) (builder : OpBuilder) (linalgOp : LinalgOp)
    (options : LinalgPromotionOptions) (layout : DataLayout) : RewriteResult :=
  promoteSubViewsOp bound ⟨builder, []⟩ linalgOp
    (LinalgOpInstancePromotionOptions.construct linalgOp options) layout

/-! ## Facts about the associative containers -/

theorem mapFind_nil {κ α : Type} [DecidableEq κ] (k : κ) :
    mapFind ([] : List (κ × α)) k = none := rfl

theorem mapFind_cons {κ α : Type} [DecidableEq κ] (e : κ × α) (m : List (κ × α)) (k : κ) :
    mapFind (e :: m) k = if e.1 = k then some e.2 else mapFind m k := by
  unfold mapFind
  by_cases h : e.1 = k
  · simp [List.find?, h]
  · simp [List.find?, h]

theorem mapFind_mapSet_self {κ α : Type} [DecidableEq κ] (m : List (κ × α)) (k : κ) (v : α) :
    mapFind (mapSet m k v) k = some v := by
  induction m with
  | nil => simp [mapSet, mapFind_cons]
  | cons e m ih =>
    by_cases h : e.1 = k
    · simp [mapSet, h, mapFind_cons]
    · simp [mapSet, h, mapFind_cons, ih]

theorem mapFind_mapSet_ne {κ α : Type} [DecidableEq κ] (m : List (κ × α)) (k k' : κ) (v : α)
    (hne : k ≠ k') : mapFind (mapSet m k v) k' = mapFind m k' := by
  induction m with
  | nil => simp [mapSet, mapFind_cons, mapFind_nil, hne]
  | cons e m ih =>
    by_cases h : e.1 = k
    · have h' : e.1 ≠ k' := by rw [h]; exact hne
      simp [mapSet, h, mapFind_cons, hne, h']
    · simp [mapSet, h, mapFind_cons, ih]

theorem mapFind_eq_none_iff {κ α : Type} [DecidableEq κ] (m : List (κ × α)) (k : κ) :
    mapFind m k = none ↔ ∀ e ∈ m, e.1 ≠ k := by
  induction m with
  | nil => simp [mapFind_nil]
  | cons e m ih =>
    by_cases h : e.1 = k
    · simp [mapFind_cons, h]
    · simp [mapFind_cons, h, ih]

theorem mapSet_of_find_none {κ α : Type} [DecidableEq κ] (m : List (κ × α)) (k : κ) (v : α)
    (h : mapFind m k = none) : mapSet m k v = m ++ [(k, v)] := by
  induction m with
  | nil => rfl
  | cons e m ih =>
    by_cases he : e.1 = k
    · simp [mapFind_cons, he] at h
    · simp only [mapFind_cons, he, if_false] at h
      simp [mapSet, he, ih h]

theorem mapFind_append {κ α : Type} [DecidableEq κ] (m n : List (κ × α)) (k : κ) :
    mapFind (m ++ n) k = (mapFind m k).orElse (fun _ => mapFind n k) := by
  induction m with
  | nil => simp [mapFind_nil]
  | cons e m ih =>
    by_cases h : e.1 = k
    · simp [mapFind_cons, h]
    · simp [mapFind_cons, h, ih]

theorem mapFind_some_mem {κ α : Type} [DecidableEq κ] (m : List (κ × α)) (k : κ) (v : α)
    (h : mapFind m k = some v) : (k, v) ∈ m := by
  induction m with
  | nil => simp [mapFind_nil] at h
  | cons e m ih =>
    by_cases he : e.1 = k
    · simp only [mapFind_cons, he, if_true, Option.some.injEq] at h
      have : e = (k, v) := by cases e; simp_all
      simp [this]
    · simp only [mapFind_cons, he, if_false] at h
      exact List.mem_cons_of_mem _ (ih h)

theorem mapFind_of_mem_pairwise {κ α : Type} [DecidableEq κ] (m : List (κ × α)) (k : κ) (v : α)
    (hm : (k, v) ∈ m) (hnd : (m.map Prod.fst).Nodup) : mapFind m k = some v := by
  induction m with
  | nil => simp at hm
  | cons e m ih =>
    simp only [List.map_cons, List.nodup_cons] at hnd
    rcases List.mem_cons.mp hm with h | h
    · simp [mapFind_cons, ← h]
    · have hne : e.1 ≠ k := by
        intro he
        apply hnd.1
        rw [he]
        exact List.mem_map_of_mem Prod.fst h
      simp [mapFind_cons, hne, ih h hnd.2]

theorem getDefiningSubViewOp_result (v : Value) (sv : SubViewOp)
    (h : v.getDefiningSubViewOp = some sv) : sv.result = v := by
  cases v <;> simp [Value.getDefiningSubViewOp] at h
  subst h
  rfl

theorem result_getDefiningSubViewOp (sv : SubViewOp) :
    sv.result.getDefiningSubViewOp = some sv := rfl

/-! ## The policy resolver -/

/-- The test of the constructor and of the precondition on the operand-selection set:
operand `n` is requested when no set was supplied or the set contains `n`. -/
def requested (options : LinalgPromotionOptions) (n : Nat) : Bool :=
  match options.operandsToPromote with
  | some set => set.contains n
  | none => true

/-- The operands the constructor selects among `l`, numbered from `n` on. -/
def selectedFrom (options : LinalgPromotionOptions) : Nat → List Value → List (Nat × SubViewOp)
  | _, [] => []
  | n, v :: rest =>
    if requested options n then
      match v.getDefiningSubViewOp with
      | some sv => (n, sv) :: selectedFrom options (n + 1) rest
      | none => selectedFrom options (n + 1) rest
    else selectedFrom options (n + 1) rest

theorem selectedFrom_cons (options : LinalgPromotionOptions) (n : Nat) (v : Value)
    (rest : List Value) :
    selectedFrom options n (v :: rest) =
      if requested options n then
        match v.getDefiningSubViewOp with
        | some sv => (n, sv) :: selectedFrom options (n + 1) rest
        | none => selectedFrom options (n + 1) rest
      else selectedFrom options (n + 1) rest := rfl

theorem selectedFrom_mem (options : LinalgPromotionOptions) (l : List Value) (n : Nat)
    (e : Nat × SubViewOp) :
    e ∈ selectedFrom options n l ↔
      ∃ k, e.1 = n + k ∧ (l[k]?).bind Value.getDefiningSubViewOp = some e.2 ∧
        requested options e.1 = true := by
  induction l generalizing n with
  | nil => simp [selectedFrom]
  | cons v rest ih =>
    have step : (∃ k, e.1 = n + 1 + k ∧ (rest[k]?).bind Value.getDefiningSubViewOp = some e.2 ∧
        requested options e.1 = true) ↔
        ∃ k, k ≠ 0 ∧ e.1 = n + k ∧ ((v :: rest)[k]?).bind Value.getDefiningSubViewOp = some e.2 ∧
          requested options e.1 = true := by
      constructor
      · rintro ⟨k, h1, h2, h3⟩
        exact ⟨k + 1, by omega, by omega, by simpa using h2, h3⟩
      · rintro ⟨k, h0, h1, h2, h3⟩
        obtain ⟨j, rfl⟩ : ∃ j, k = j + 1 := ⟨k - 1, by omega⟩
        exact ⟨j, by omega, by simpa using h2, h3⟩
    have split : (∃ k, e.1 = n + k ∧ ((v :: rest)[k]?).bind Value.getDefiningSubViewOp = some e.2 ∧
        requested options e.1 = true) ↔
        ((e.1 = n ∧ v.getDefiningSubViewOp = some e.2 ∧ requested options e.1 = true) ∨
          ∃ k, k ≠ 0 ∧ e.1 = n + k ∧
            ((v :: rest)[k]?).bind Value.getDefiningSubViewOp = some e.2 ∧
            requested options e.1 = true) := by
      constructor
      · rintro ⟨k, h1, h2, h3⟩
        by_cases hk : k = 0
        · subst hk
          left
          exact ⟨by omega, by simpa using h2, h3⟩
        · right
          exact ⟨k, hk, h1, h2, h3⟩
      · rintro (⟨h1, h2, h3⟩ | ⟨k, _, h1, h2, h3⟩)
        · exact ⟨0, by omega, by simpa using h2, h3⟩
        · exact ⟨k, h1, h2, h3⟩
    rw [split, ← step, ← ih (n + 1), selectedFrom_cons]
    by_cases hr : requested options n = true
    · cases hv : v.getDefiningSubViewOp with
      | none =>
        simp only [hr, if_true]
        constructor
        · intro h; exact Or.inr h
        · rintro (⟨_, h2, _⟩ | h)
          · simp at h2
          · exact h
      | some sv =>
        simp only [hr, if_true, List.mem_cons]
        constructor
        · rintro (h | h)
          · left
            subst h
            exact ⟨rfl, rfl, hr⟩
          · exact Or.inr h
        · rintro (⟨h1, h2, _⟩ | h)
          · left
            cases e
            simp only [Option.some.injEq] at h2
            simp_all
          · exact Or.inr h
    · simp only [hr, if_false]
      constructor
      · intro h; exact Or.inr h
      · rintro (⟨h1, _, h3⟩ | h)
        · rw [h1] at h3; exact absurd h3 hr
        · exact h

theorem selectedFrom_keys_ge (options : LinalgPromotionOptions) (l : List Value) (n : Nat)
    (e : Nat × SubViewOp) (h : e ∈ selectedFrom options n l) : n ≤ e.1 := by
  obtain ⟨k, hk, _⟩ := (selectedFrom_mem options l n e).mp h
  omega

theorem selectedFrom_pairwise (options : LinalgPromotionOptions) (l : List Value) (n : Nat) :
    ((selectedFrom options n l).map Prod.fst).Pairwise (· < ·) := by
  induction l generalizing n with
  | nil => simp [selectedFrom]
  | cons v rest ih =>
    rw [selectedFrom_cons]
    by_cases hr : requested options n = true
    · cases hv : v.getDefiningSubViewOp with
      | none => simpa [hr] using ih (n + 1)
      | some sv =>
        simp only [hr, if_true, List.map_cons, List.pairwise_cons]
        refine ⟨?_, ih (n + 1)⟩
        intro a ha
        obtain ⟨e, he, rfl⟩ := List.mem_map.mp ha
        have := selectedFrom_keys_ge options rest (n + 1) e he
        omega
    · simpa [hr] using ih (n + 1)

/-- The flags the constructor records for the selected operands `sel`, on top of `m`. -/
def recordFlags (vUseFullTileBuffers : List Bool) :
    List (Nat × SubViewOp) → List (Value × Bool) → List (Value × Bool)
  | [], m => m
  | e :: rest, m =>
    recordFlags vUseFullTileBuffers rest
      (mapSet m e.2.result (vUseFullTileBuffers.getD e.1 false))

theorem selectOperands_eq (linalgOp : LinalgOp) (options : LinalgPromotionOptions)
    (vUse : List Bool) (l : List Value) (n : Nat) (acc : Selection)
    (hsub : ∀ e ∈ acc.subViews, e.1 < n) (hcopy : ∀ i ∈ acc.operandsNumbersToCopyIn, i < n) :
    selectOperands linalgOp options vUse n l acc =
      { subViews := acc.subViews ++ selectedFrom options n l
        operandsNumbersToCopyIn :=
          acc.operandsNumbersToCopyIn ++
            ((selectedFrom options n l).map Prod.fst).filter
              (fun i => !linalgOp.isGenericOp || linalgOp.payloadUsesValueFromOperand i)
        useFullTileBuffers :=
          recordFlags vUse (selectedFrom options n l) acc.useFullTileBuffers } := by
  induction l generalizing n acc with
  | nil => simp [selectOperands, selectedFrom, recordFlags]
  | cons v rest ih =>
    have hex : (match options.operandsToPromote with
        | some set => !set.contains n
        | none => false) = !requested options n := by
      unfold requested
      cases options.operandsToPromote <;> simp
    rw [selectedFrom_cons]
    unfold selectOperands
    simp only [hex]
    by_cases hr : requested options n = true
    · simp only [hr, Bool.not_true, if_true]
      cases hv : v.getDefiningSubViewOp with
      | none =>
        simp only [Bool.false_eq_true, if_false]
        exact ih (n + 1) acc (fun e he => Nat.lt_succ_of_lt (hsub e he))
          (fun i hi => Nat.lt_succ_of_lt (hcopy i hi))
      | some sv =>
        simp only [Bool.false_eq_true, if_false]
        have hnone : mapFind acc.subViews n = none := by
          rw [mapFind_eq_none_iff]
          intro e he h
          have := hsub e he
          omega
        have hnot : n ∉ acc.operandsNumbersToCopyIn := by
          intro hc
          have := hcopy n hc
          omega
        rw [ih (n + 1)]
        · rw [mapSet_of_find_none _ _ _ hnone]
          by_cases hg : (!linalgOp.isGenericOp || linalgOp.payloadUsesValueFromOperand n) = true
          · simp [hg, setInsert, hnot, recordFlags]
          · simp [hg, recordFlags]
        · intro e he
          rw [mapSet_of_find_none _ _ _ hnone] at he
          rcases List.mem_append.mp he with h | h
          · exact Nat.lt_succ_of_lt (hsub e h)
          · simp at h; subst h; simp
        · intro i hi
          by_cases hg : (!linalgOp.isGenericOp || linalgOp.payloadUsesValueFromOperand n) = true
          · have hc : acc.operandsNumbersToCopyIn.contains n = false := by simpa using hnot
            simp only [hg, if_true, setInsert, hc, Bool.false_eq_true, if_false] at hi
            rcases List.mem_append.mp hi with h | h
            · exact Nat.lt_succ_of_lt (hcopy i h)
            · simp at h; subst h; simp
          · simp only [hg, if_false] at hi
            exact Nat.lt_succ_of_lt (hcopy i hi)
    · have hr' : requested options n = false := by simpa using hr
      simp only [hr', Bool.not_false, if_true, Bool.false_eq_true, if_false]
      exact ih (n + 1) acc (fun e he => Nat.lt_succ_of_lt (hsub e he))
        (fun i hi => Nat.lt_succ_of_lt (hcopy i hi))

theorem construct_subViews (linalgOp : LinalgOp) (options : LinalgPromotionOptions) :
    (LinalgOpInstancePromotionOptions.construct linalgOp options).subViews =
      selectedFrom options 0 linalgOp.operands := by
  unfold LinalgOpInstancePromotionOptions.construct
  simp only
  rw [selectOperands_eq _ _ _ _ _ _ (by simp) (by simp)]
  simp

theorem construct_copyIn (linalgOp : LinalgOp) (options : LinalgPromotionOptions) :
    (LinalgOpInstancePromotionOptions.construct linalgOp options).operandsNumbersToCopyIn =
      ((selectedFrom options 0 linalgOp.operands).map Prod.fst).filter
        (fun i => !linalgOp.isGenericOp || linalgOp.payloadUsesValueFromOperand i) := by
  unfold LinalgOpInstancePromotionOptions.construct
  simp only
  rw [selectOperands_eq _ _ _ _ _ _ (by simp) (by simp)]
  simp

theorem construct_useFullTileBuffers (linalgOp : LinalgOp) (options : LinalgPromotionOptions) :
    (LinalgOpInstancePromotionOptions.construct linalgOp options).useFullTileBuffers =
      recordFlags
        (bitResize (options.useFullTileBuffers.getD []) linalgOp.operands.length
          options.useFullTileBuffersDefault)
        (selectedFrom options 0 linalgOp.operands) [] := by
  unfold LinalgOpInstancePromotionOptions.construct
  simp only
  rw [selectOperands_eq _ _ _ _ _ _ (by simp) (by simp)]

theorem requested_iff (options : LinalgPromotionOptions) (n : Nat) :
    requested options n = true ↔
      (options.operandsToPromote = none ∨
        ∃ set, options.operandsToPromote = some set ∧ n ∈ set) := by
  unfold requested
  cases options.operandsToPromote with
  | none => simp
  | some set => simp

theorem selectedFrom_nodup (options : LinalgPromotionOptions) (l : List Value) (n : Nat) :
    ((selectedFrom options n l).map Prod.fst).Nodup :=
  (selectedFrom_pairwise options l n).imp (fun h => Nat.ne_of_lt h)

theorem mapFind_selectedFrom (options : LinalgPromotionOptions) (l : List Value) (i : Nat)
    (sv : SubViewOp) :
    mapFind (selectedFrom options 0 l) i = some sv ↔
      ((l[i]?).bind Value.getDefiningSubViewOp = some sv ∧ requested options i = true) := by
  constructor
  · intro h
    obtain ⟨k, hk, h1, h2⟩ := (selectedFrom_mem options l 0 (i, sv)).mp (mapFind_some_mem _ _ _ h)
    simp only [Nat.zero_add] at hk
    subst hk
    exact ⟨h1, h2⟩
  · rintro ⟨h1, h2⟩
    apply mapFind_of_mem_pairwise _ _ _ _ (selectedFrom_nodup options l 0)
    exact (selectedFrom_mem options l 0 (i, sv)).mpr ⟨i, by simp, h1, h2⟩

/-- The sample view number `id`: a 4x4 window with static sizes into the buffer
`external (100 + id)`. -/
def sampleView (id : Nat) : SubViewOp :=
  ⟨id, .external (100 + id), [.attr 0, .attr 0], [.attr 4, .attr 4], [.attr 1, .attr 1],
    [false, false], .float 32⟩

/-- The default configuration: nothing supplied, no flag set. -/
def sampleOptions : LinalgPromotionOptions :=
  { operandsToPromote := none
    useFullTileBuffers := none
    useFullTileBuffersDefault := false
    useOriginalSubviewSize := false
    alignment := none
    memorySpace := none
    useAlloca := false
    allocationFn := none
    deallocationFn := none
    copyInFn := none
    copyOutFn := none }

/-- A non-generic operation with the given operands, of which the first `numDpsInputs` are
inputs. -/
def sampleOp (operands : List Value) (numDpsInputs : Nat) : LinalgOp :=
  { operands := operands
    numDpsInputs := numDpsInputs
    isGenericOp := false
    payloadUsesValueFromOperand := fun _ => true
    hasPureBufferSemantics := true }

/-- C3 (as amended): the constructor of `LinalgOpInstancePromotionOptions` selects operand `i`
exactly when its defining operation is a subview and either no operand-selection set was
supplied or the supplied set contains `i`; the selected operands are recorded in increasing
operand order; a set that is supplied but empty selects no operand. -/
theorem construct_selects_requested_views (linalgOp : LinalgOp)
    (options : LinalgPromotionOptions) :
    (∀ i sv, (i, sv) ∈ (LinalgOpInstancePromotionOptions.construct linalgOp options).subViews ↔
      ((linalgOp.operands[i]?).bind Value.getDefiningSubViewOp = some sv ∧
        (options.operandsToPromote = none ∨
          ∃ set, options.operandsToPromote = some set ∧ i ∈ set))) ∧
    ((LinalgOpInstancePromotionOptions.construct linalgOp options).subViews.map
      Prod.fst).Pairwise (· < ·) ∧
    (options.operandsToPromote = some [] →
      (LinalgOpInstancePromotionOptions.construct linalgOp options).subViews = []) := by
  rw [construct_subViews]
  refine ⟨?_, selectedFrom_pairwise options _ 0, ?_⟩
  · intro i sv
    rw [selectedFrom_mem, ← requested_iff]
    constructor
    · rintro ⟨k, hk, h1, h2⟩
      simp only [Nat.zero_add] at hk
      subst hk
      exact ⟨h1, h2⟩
    · rintro ⟨h1, h2⟩
      exact ⟨i, by simp, h1, h2⟩
  · intro hempty
    apply List.eq_nil_iff_forall_not_mem.mpr
    intro e he
    obtain ⟨k, _, _, h2⟩ := (selectedFrom_mem options _ 0 e).mp he
    rw [requested_iff] at h2
    rcases h2 with h2 | ⟨set, h2, h3⟩
    · rw [hempty] at h2; cases h2
    · rw [hempty] at h2
      cases h2
      simp at h3

/-- C3 (as stated) fails: with an operand-selection set that is supplied but empty, operand 0
is defined by a subview and the set is not "non-empty and excluding 0", yet the constructor
selects nothing. -/
theorem construct_empty_selection_set_selects_nothing :
    ((sampleOp [(sampleView 0).result] 0).operands[0]?).bind Value.getDefiningSubViewOp
        = some (sampleView 0) ∧
      ¬ (([] : List Nat) ≠ [] ∧ 0 ∉ ([] : List Nat)) ∧
      (LinalgOpInstancePromotionOptions.construct (sampleOp [(sampleView 0).result] 0)
        { sampleOptions with operandsToPromote := some [] }).subViews = [] := by
  refine ⟨rfl, by simp, ?_⟩
  rw [construct_subViews]
  rfl

/-- C8: a selected operand is marked for copy-in exactly when it is not the case that the
operation is a generic operation whose payload does not use the value from that operand; for a
non-generic operation every selected operand is marked; an unselected operand is never
marked. -/
theorem construct_copy_in_marks (linalgOp : LinalgOp) (options : LinalgPromotionOptions) :
    (∀ i, i ∈ (LinalgOpInstancePromotionOptions.construct linalgOp
          options).operandsNumbersToCopyIn ↔
        ((mapFind (LinalgOpInstancePromotionOptions.construct linalgOp options).subViews
            i).isSome = true ∧
          ¬ (linalgOp.isGenericOp = true ∧
            linalgOp.payloadUsesValueFromOperand i = false))) ∧
    (linalgOp.isGenericOp = false →
      ∀ i, (mapFind (LinalgOpInstancePromotionOptions.construct linalgOp options).subViews
          i).isSome = true →
        i ∈ (LinalgOpInstancePromotionOptions.construct linalgOp
          options).operandsNumbersToCopyIn) ∧
    (∀ i, (mapFind (LinalgOpInstancePromotionOptions.construct linalgOp options).subViews
          i).isSome = false →
        i ∉ (LinalgOpInstancePromotionOptions.construct linalgOp
          options).operandsNumbersToCopyIn) := by
  have key : ∀ i, i ∈ (LinalgOpInstancePromotionOptions.construct linalgOp
          options).operandsNumbersToCopyIn ↔
        ((mapFind (LinalgOpInstancePromotionOptions.construct linalgOp options).subViews
            i).isSome = true ∧
          ¬ (linalgOp.isGenericOp = true ∧
            linalgOp.payloadUsesValueFromOperand i = false)) := by
    intro i
    rw [construct_copyIn, construct_subViews, List.mem_filter, List.mem_map]
    have hsel : (∃ a, a ∈ selectedFrom options 0 linalgOp.operands ∧ a.1 = i) ↔
        (mapFind (selectedFrom options 0 linalgOp.operands) i).isSome = true := by
      constructor
      · rintro ⟨⟨j, sv⟩, ha, rfl⟩
        rw [mapFind_of_mem_pairwise _ _ _ ha (selectedFrom_nodup options _ 0)]
        rfl
      · intro h
        obtain ⟨sv, hsv⟩ := Option.isSome_iff_exists.mp h
        exact ⟨(i, sv), mapFind_some_mem _ _ _ hsv, rfl⟩
    rw [hsel]
    cases linalgOp.isGenericOp <;> cases linalgOp.payloadUsesValueFromOperand i <;> simp
  refine ⟨key, ?_, ?_⟩
  · intro hg i hi
    rw [key]
    exact ⟨hi, by simp [hg]⟩
  · intro i hi hmem
    rw [key] at hmem
    rw [hi] at hmem
    exact absurd hmem.1 (by simp)

/-! ## The precondition check -/

theorem preconditionLoop_success_iff (options : LinalgPromotionOptions) (l : List Value)
    (n : Nat) :
    preconditionLoop options n l = .success ↔
      ∃ k, ((l[k]?).bind Value.getDefiningSubViewOp).isSome = true ∧
        requested options (n + k) = true := by
  induction l generalizing n with
  | nil => simp [preconditionLoop]
  | cons v rest ih =>
    have shift : (∃ k, ((rest[k]?).bind Value.getDefiningSubViewOp).isSome = true ∧
        requested options (n + 1 + k) = true) ↔
        ∃ k, k ≠ 0 ∧ (((v :: rest)[k]?).bind Value.getDefiningSubViewOp).isSome = true ∧
          requested options (n + k) = true := by
      constructor
      · rintro ⟨k, h1, h2⟩
        exact ⟨k + 1, by omega, by simpa using h1, by rw [← h2]; congr 1; omega⟩
      · rintro ⟨k, h0, h1, h2⟩
        obtain ⟨j, rfl⟩ : ∃ j, k = j + 1 := ⟨k - 1, by omega⟩
        exact ⟨j, by simpa using h1, by rw [← h2]; congr 1; omega⟩
    have split : (∃ k, (((v :: rest)[k]?).bind Value.getDefiningSubViewOp).isSome = true ∧
        requested options (n + k) = true) ↔
        ((v.getDefiningSubViewOp.isSome = true ∧ requested options n = true) ∨
          ∃ k, k ≠ 0 ∧ (((v :: rest)[k]?).bind Value.getDefiningSubViewOp).isSome = true ∧
            requested options (n + k) = true) := by
      constructor
      · rintro ⟨k, h1, h2⟩
        by_cases hk : k = 0
        · subst hk
          exact Or.inl ⟨by simpa using h1, by simpa using h2⟩
        · exact Or.inr ⟨k, hk, h1, h2⟩
      · rintro (⟨h1, h2⟩ | ⟨k, _, h1, h2⟩)
        · exact ⟨0, by simpa using h1, by simpa using h2⟩
        · exact ⟨k, h1, h2⟩
    rw [split, ← shift, ← ih (n + 1)]
    cases hv : v.getDefiningSubViewOp.isSome with
    | false => simp [preconditionLoop, hv]
    | true =>
      cases ho : options.operandsToPromote with
      | none => simp [preconditionLoop, hv, ho, requested]
      | some set =>
        by_cases hc : n ∈ set
        · simp [preconditionLoop, hv, ho, requested, hc]
        · simp [preconditionLoop, hv, ho, requested, hc]

/-- C4: `promoteSubviewsPrecondition` succeeds exactly when the operation is a structured
operation with pure buffer semantics and some operand is defined by a subview whose operand
number is requested (no operand-selection set supplied, or the set contains the number); in
every other case it fails; in both cases the operation is left as it was. -/
theorem promoteSubviewsPrecondition_spec (op : Operation) (options : LinalgPromotionOptions) :
    ((promoteSubviewsPrecondition op options).1 = .success ↔
      ∃ linalgOp, op = .linalg linalgOp ∧ linalgOp.hasPureBufferSemantics = true ∧
        ∃ i, ((linalgOp.operands[i]?).bind Value.getDefiningSubViewOp).isSome = true ∧
          (options.operandsToPromote = none ∨
            ∃ set, options.operandsToPromote = some set ∧ i ∈ set)) ∧
    ((promoteSubviewsPrecondition op options).1 ≠ .success →
      (promoteSubviewsPrecondition op options).1 = .failure) ∧
    (promoteSubviewsPrecondition op options).2 = op := by
  refine ⟨?_, ?_, ?_⟩
  · cases op with
    | other operands => simp [promoteSubviewsPrecondition]
    | linalg linalgOp =>
      cases hb : linalgOp.hasPureBufferSemantics with
      | false =>
        simp only [promoteSubviewsPrecondition, hb, Bool.not_false, if_true]
        constructor
        · intro h; cases h
        · rintro ⟨l, hl, hp, _⟩
          cases hl
          rw [hb] at hp
          cases hp
      | true =>
        simp only [promoteSubviewsPrecondition, hb, Bool.not_true, Bool.false_eq_true, if_false]
        rw [preconditionLoop_success_iff]
        constructor
        · rintro ⟨k, h1, h2⟩
          refine ⟨linalgOp, rfl, hb, k, h1, ?_⟩
          rw [← requested_iff]
          simpa using h2
        · rintro ⟨l, hl, _, k, h1, h2⟩
          cases hl
          refine ⟨k, h1, ?_⟩
          rw [← requested_iff] at h2
          simpa using h2
  · intro h
    cases hr : (promoteSubviewsPrecondition op options).1 with
    | success => exact absurd hr h
    | failure => rfl
  · cases op with
    | other operands => rfl
    | linalg linalgOp =>
      simp only [promoteSubviewsPrecondition]
      split <;> rfl

/-! ## The bound resolver -/

/-- The entries of `xs` (numbered from `i` on) whose dimension is not dropped. -/
def keepDimsFrom {α : Type} (dropped : List Bool) : Nat → List α → List α
  | _, [] => []
  | i, x :: xs =>
    if dropped.getD i false then keepDimsFrom dropped (i + 1) xs
    else x :: keepDimsFrom dropped (i + 1) xs

/-- The sizes of the non-dropped dimensions of a subview, in order. -/
def SubViewOp.keptSizes (subView : SubViewOp) : List OpFoldResult :=
  keepDimsFrom subView.droppedDims 0
    ((SubViewOp.getOrCreateRanges subView.offsets subView.sizes subView.strides).map Range.size)

/-- The value the loop of `promoteSubviewAsNewBuffer` pushes on `fullSizes` for a size. -/
def resolveFullSize (bound : BoundAnalysis) (useOriginalSubviewSize : Bool)
    (size : OpFoldResult) : Value :=
  if size.isAttribute || useOriginalSubviewSize then
    (getValueOrCreateConstantIndexOp ⟨⟨.initial, [], 0⟩, []⟩ size).1
  else
    match bound size with
    | none => (getValueOrCreateConstantIndexOp ⟨⟨.initial, [], 0⟩, []⟩ size).1
    | some upperBound => constantIndex upperBound

/-- Events that only record the creation of a value-producing operation. -/
def Event.isValueCreation : Event → Bool
  | .create (.value _) => true
  | _ => false

/-- The log without the creations of value-producing operations: the strategy invocations, the
fills and the mutations of the operation, in order. -/
def trace (log : List Event) : List Event :=
  log.filter (fun e => !e.isValueCreation)

theorem trace_append (l1 l2 : List Event) : trace (l1 ++ l2) = trace l1 ++ trace l2 := by
  simp [trace]

theorem trace_nil : trace [] = [] := rfl

theorem trace_create_value (v : Value) : trace [.create (.value v)] = [] := rfl

theorem trace_cons_create_value (v : Value) (l : List Event) :
    trace (.create (.value v) :: l) = trace l := rfl

theorem getValueOrCreateConstantIndexOp_fst (s t : State) (size : OpFoldResult) :
    (getValueOrCreateConstantIndexOp s size).1 = (getValueOrCreateConstantIndexOp t size).1 := by
  cases size <;> rfl

theorem getValueOrCreateConstantIndexOp_log (s : State) (size : OpFoldResult) :
    ∃ l, (getValueOrCreateConstantIndexOp s size).2.log = s.log ++ l ∧ trace l = [] := by
  cases size with
  | attr c => exact ⟨[.create (.value (constantIndex c))], rfl, rfl⟩
  | value v => exact ⟨[], by simp [getValueOrCreateConstantIndexOp], rfl⟩

/-- The size step of the loop of `promoteSubviewAsNewBuffer`: the value pushed on `fullSizes`
and the state after it. -/
def resolvedSize (bound : BoundAnalysis) (useOrig : Bool) (s : State) (size : OpFoldResult) :
    Value × State :=
  if size.isAttribute || useOrig then getValueOrCreateConstantIndexOp s size
  else
    match bound size with
    | none => getValueOrCreateConstantIndexOp s size
    | some upperBound => (constantIndex upperBound, s.create (.value (constantIndex upperBound)))

theorem resolvedSize_fst (bound : BoundAnalysis) (useOrig : Bool) (s : State)
    (size : OpFoldResult) :
    (resolvedSize bound useOrig s size).1 = resolveFullSize bound useOrig size := by
  unfold resolvedSize resolveFullSize
  by_cases ha : (size.isAttribute || useOrig) = true
  · simp only [ha, if_true]
    exact getValueOrCreateConstantIndexOp_fst _ _ _
  · simp only [ha, if_false, Bool.false_eq_true]
    cases bound size with
    | none => exact getValueOrCreateConstantIndexOp_fst _ _ _
    | some u => rfl

theorem resolvedSize_log (bound : BoundAnalysis) (useOrig : Bool) (s : State)
    (size : OpFoldResult) :
    ∃ l, (resolvedSize bound useOrig s size).2.log = s.log ++ l ∧ trace l = [] := by
  unfold resolvedSize
  by_cases ha : (size.isAttribute || useOrig) = true
  · simp only [ha, if_true]
    exact getValueOrCreateConstantIndexOp_log s size
  · simp only [ha, if_false, Bool.false_eq_true]
    cases bound size with
    | none => exact getValueOrCreateConstantIndexOp_log s size
    | some u => exact ⟨[.create (.value (constantIndex u))], rfl, rfl⟩

theorem tileSizesLoop_nil (bound : BoundAnalysis) (subView : SubViewOp) (useOrig : Bool)
    (index : Nat) (acc : TileSizes) :
    tileSizesLoop bound subView useOrig index [] acc = acc := rfl

theorem tileSizesLoop_cons (bound : BoundAnalysis) (subView : SubViewOp) (useOrig : Bool)
    (index : Nat) (rangeValue : Range) (rest : List Range) (acc : TileSizes) :
    tileSizesLoop bound subView useOrig index (rangeValue :: rest) acc =
      if subView.droppedDims.getD index false then
        tileSizesLoop bound subView useOrig (index + 1) rest acc
      else
        tileSizesLoop bound subView useOrig (index + 1) rest
          { state := State.create (resolvedSize bound useOrig acc.state rangeValue.size).2
              (.value (Value.dim subView.result acc.resultDimIdx))
            fullSizes := acc.fullSizes ++
              [(resolvedSize bound useOrig acc.state rangeValue.size).1]
            partialSizes := acc.partialSizes ++
              [.value (Value.dim subView.result acc.resultDimIdx)]
            resultDimIdx := acc.resultDimIdx + 1 } := rfl

theorem tileSizesLoop_eq (bound : BoundAnalysis) (subView : SubViewOp) (useOrig : Bool)
    (ranges : List Range) (index : Nat) (acc : TileSizes) :
    (tileSizesLoop bound subView useOrig index ranges acc).fullSizes =
        acc.fullSizes ++
          (keepDimsFrom subView.droppedDims index (ranges.map Range.size)).map
            (resolveFullSize bound useOrig) ∧
      (tileSizesLoop bound subView useOrig index ranges acc).partialSizes =
        acc.partialSizes ++
          (List.range' acc.resultDimIdx
            (keepDimsFrom subView.droppedDims index (ranges.map Range.size)).length).map
            (fun j => OpFoldResult.value (Value.dim subView.result j)) ∧
      ∃ l, (tileSizesLoop bound subView useOrig index ranges acc).state.log =
        acc.state.log ++ l ∧ trace l = [] := by
  induction ranges generalizing index acc with
  | nil =>
    refine ⟨by simp [tileSizesLoop_nil, keepDimsFrom], by simp [tileSizesLoop_nil, keepDimsFrom],
      [], by simp [tileSizesLoop_nil], rfl⟩
  | cons r rest ih =>
    rw [tileSizesLoop_cons]
    by_cases hd : subView.droppedDims.getD index false = true
    · simp only [hd, if_true, List.map_cons, keepDimsFrom]
      exact ih (index + 1) acc
    · simp only [hd, if_false, List.map_cons, keepDimsFrom, Bool.false_eq_true]
      obtain ⟨h1, h2, l, h3, h4⟩ := ih (index + 1)
        { state := State.create (resolvedSize bound useOrig acc.state r.size).2
            (.value (Value.dim subView.result acc.resultDimIdx))
          fullSizes := acc.fullSizes ++ [(resolvedSize bound useOrig acc.state r.size).1]
          partialSizes := acc.partialSizes ++
            [.value (Value.dim subView.result acc.resultDimIdx)]
          resultDimIdx := acc.resultDimIdx + 1 }
      obtain ⟨l0, hl0, ht0⟩ := resolvedSize_log bound useOrig acc.state r.size
      refine ⟨?_, ?_, l0 ++ [.create (.value (Value.dim subView.result acc.resultDimIdx))] ++ l,
        ?_, ?_⟩
      · rw [h1, resolvedSize_fst]
        simp
      · rw [h2]
        simp [List.range'_succ]
      · rw [h3]
        simp only [State.create, hl0, List.append_assoc]
      · simp only [trace_append, ht0, h4, trace_create_value, List.append_nil]

/-- C5: in `promoteSubviewAsNewBuffer` the full-tile size of every non-dropped dimension is
the size itself when the size is a literal constant or `useOriginalSubviewSize` is set,
otherwise the constant closed upper bound when the bound analysis returns one, otherwise the
original dynamic size value; the resolution itself never fails: these sizes are handed to the
allocation strategy and the promotion of the view fails only when that strategy returns no
buffer. -/
theorem full_tile_size_resolution (bound : BoundAnalysis) (s : State) (subView : SubViewOp)
    (useOriginalSubviewSize : Bool) (allocationFn : AllocBufferCallbackFn)
    (layout : DataLayout) :
    (tileSizesLoop bound subView useOriginalSubviewSize 0
        (SubViewOp.getOrCreateRanges subView.offsets subView.sizes subView.strides)
        ⟨s, [], [], 0⟩).fullSizes.length = subView.keptSizes.length ∧
    (∀ (k : Nat) (size : OpFoldResult), subView.keptSizes[k]? = some size →
      ∃ full, (tileSizesLoop bound subView useOriginalSubviewSize 0
          (SubViewOp.getOrCreateRanges subView.offsets subView.sizes subView.strides)
          ⟨s, [], [], 0⟩).fullSizes[k]? = some full ∧
        (∀ c, size = .attr c → full = constantIndex c) ∧
        (∀ v, size = .value v → useOriginalSubviewSize = true → full = v) ∧
        (∀ v u, size = .value v → useOriginalSubviewSize = false → bound size = some u →
          full = constantIndex u) ∧
        (∀ v, size = .value v → useOriginalSubviewSize = false → bound size = none →
          full = v)) ∧
    ((promoteSubviewAsNewBuffer bound s subView useOriginalSubviewSize allocationFn
        layout).1 = none ↔
      (allocationFn
        (tileSizesLoop bound subView useOriginalSubviewSize 0
          (SubViewOp.getOrCreateRanges subView.offsets subView.sizes subView.strides)
          ⟨s, [], [], 0⟩).state.builder subView
        (tileSizesLoop bound subView useOriginalSubviewSize 0
          (SubViewOp.getOrCreateRanges subView.offsets subView.sizes subView.strides)
          ⟨s, [], [], 0⟩).fullSizes layout).1 = none) := by
  obtain ⟨h1, -, -⟩ := tileSizesLoop_eq bound subView useOriginalSubviewSize
    (SubViewOp.getOrCreateRanges subView.offsets subView.sizes subView.strides) 0 ⟨s, [], [], 0⟩
  refine ⟨?_, ?_, ?_⟩
  · rw [h1]
    simp [SubViewOp.keptSizes]
  · intro k size hk
    rw [h1]
    refine ⟨resolveFullSize bound useOriginalSubviewSize size, ?_, ?_, ?_, ?_, ?_⟩
    · simp only [List.nil_append, List.getElem?_map]
      unfold SubViewOp.keptSizes at hk
      rw [hk]
      rfl
    · intro c hc
      subst hc
      simp [resolveFullSize, OpFoldResult.isAttribute, getValueOrCreateConstantIndexOp]
    · intro v hv hu
      subst hv
      simp [resolveFullSize, hu, getValueOrCreateConstantIndexOp]
    · intro v u hv hu hb
      subst hv
      simp [resolveFullSize, hu, OpFoldResult.isAttribute, hb]
    · intro v hv hu hb
      subst hv
      simp [resolveFullSize, hu, OpFoldResult.isAttribute, hb, getValueOrCreateConstantIndexOp]
  · unfold promoteSubviewAsNewBuffer
    simp only
    split
    · rename_i h
      simp [h]
    · rename_i full h
      simp [h]

/-! ## Run-time extents -/

/-- A run-time environment: the values of the index values defined outside the transformation
and the extents of the memrefs defined outside it. -/
structure Env where
  index : Nat → Int
  shape : Nat → List Int

/-- The extents of a memref type whose dynamic dimensions take the given values in order. -/
def fillDynamic : List (Option Int) → List Int → List Int
  | [], _ => []
  | some c :: shape, dyn => c :: fillDynamic shape dyn
  | none :: shape, [] => 0 :: fillDynamic shape []
  | none :: shape, d :: dyn => d :: fillDynamic shape dyn

mutual
/-- Modelled from the spec: the index operations are declared outside this file.  Run-time
value of an index-typed value: `memref.dim` reads the extent of its source. -/
def Value.eval (env : Env) : Value → Int
  | .external id => env.index id
  | .constant (.integer _ c) => c
  | .constant (.float _ _) => 0
  | .muli lhs rhs => wrapInt64 (Value.eval env lhs * Value.eval env rhs)
  | .dim source index => (Value.extents env source).getD index 0
  | _ => 0
termination_by structural v => v
/-- Modelled from the spec: the memref operations are declared outside this file.  Run-time
extents of a memref value: a subview has one extent per non-dropped dimension, its size in that
dimension; a view has the sizes it was created with. -/
def Value.extents (env : Env) : Value → List Int
  | .external id => env.shape id
  | .alloc _ type dynamicSizes _ => fillDynamic type.shape (Value.evalList env dynamicSizes)
  | .alloca _ type dynamicSizes _ => fillDynamic type.shape (Value.evalList env dynamicSizes)
  | .view _ _ _ sizes => Value.evalList env sizes
  | .subview _ _ _ sizes _ droppedDims _ =>
    keepDimsFrom droppedDims 0 (OpFoldResult.evalList env sizes)
  | _ => []
termination_by structural v => v
/-- Run-time values of a list of index values. -/
def Value.evalList (env : Env) : List Value → List Int
  | [] => []
  | v :: vs => Value.eval env v :: Value.evalList env vs
termination_by structural vs => vs
/-- Run-time value of a fold result. -/
def OpFoldResult.eval (env : Env) : OpFoldResult → Int
  | .attr c => c
  | .value v => Value.eval env v
termination_by structural r => r
/-- Run-time values of a list of fold results. -/
def OpFoldResult.evalList (env : Env) : List OpFoldResult → List Int
  | [] => []
  | r :: rs => OpFoldResult.eval env r :: OpFoldResult.evalList env rs
termination_by structural rs => rs
end

theorem Value.evalList_eq_map (env : Env) (vs : List Value) :
    Value.evalList env vs = vs.map (Value.eval env) := by
  induction vs with
  | nil => rfl
  | cons v vs ih => simp [Value.evalList, ih]

theorem OpFoldResult.ofr_evalList_eq_map (env : Env) (rs : List OpFoldResult) :
    OpFoldResult.evalList env rs = rs.map (OpFoldResult.eval env) := by
  induction rs with
  | nil => rfl
  | cons r rs ih => simp [OpFoldResult.evalList, ih]

theorem Value.eval_dim (env : Env) (source : Value) (index : Nat) :
    Value.eval env (.dim source index) = (Value.extents env source).getD index 0 := by
  simp [Value.eval]

theorem Value.eval_constantIndex (env : Env) (c : Int) :
    Value.eval env (constantIndex c) = c := by
  simp [Value.eval, constantIndex]

theorem Value.extents_subview (env : Env) (id : Nat) (source : Value)
    (offsets sizes strides : List OpFoldResult) (droppedDims : List Bool) (e : MType) :
    Value.extents env (.subview id source offsets sizes strides droppedDims e) =
      keepDimsFrom droppedDims 0 (sizes.map (OpFoldResult.eval env)) := by
  simp [Value.extents, OpFoldResult.ofr_evalList_eq_map]

theorem Value.extents_view (env : Env) (type : MemRefType) (source shift : Value)
    (sizes : List Value) :
    Value.extents env (.view type source shift sizes) = sizes.map (Value.eval env) := by
  simp [Value.extents, Value.evalList_eq_map]

theorem keepDimsFrom_cons {α : Type} (dropped : List Bool) (i : Nat) (x : α) (xs : List α) :
    keepDimsFrom dropped i (x :: xs) =
      if dropped.getD i false then keepDimsFrom dropped (i + 1) xs
      else x :: keepDimsFrom dropped (i + 1) xs := rfl

theorem keepDimsFrom_map {α β : Type} (f : α → β) (dropped : List Bool) (i : Nat)
    (xs : List α) :
    keepDimsFrom dropped i (xs.map f) = (keepDimsFrom dropped i xs).map f := by
  induction xs generalizing i with
  | nil => rfl
  | cons x xs ih =>
    rw [List.map_cons, keepDimsFrom_cons, keepDimsFrom_cons, ih]
    split <;> rfl

theorem keepDimsFrom_replicate_false {α : Type} (n i : Nat) (xs : List α) :
    keepDimsFrom (List.replicate n false) i xs = xs := by
  induction xs generalizing i with
  | nil => rfl
  | cons x xs ih =>
    have h : (List.replicate n false).getD i false = false := by
      rw [List.getD_eq_getElem?_getD]
      by_cases hi : i < n
      · simp [List.getElem?_replicate, hi]
      · simp [List.getElem?_replicate, hi]
    rw [keepDimsFrom_cons, h, ih]
    rfl

theorem getOrCreateRanges_sizes (offsets sizes strides : List OpFoldResult) :
    (SubViewOp.getOrCreateRanges offsets sizes strides).map Range.size = sizes := by
  induction sizes generalizing offsets strides with
  | nil => simp [SubViewOp.getOrCreateRanges]
  | cons z zs ih => simp [SubViewOp.getOrCreateRanges, ih]

theorem SubViewOp.extents_result (env : Env) (subView : SubViewOp) :
    Value.extents env subView.result = subView.keptSizes.map (OpFoldResult.eval env) := by
  unfold SubViewOp.result SubViewOp.keptSizes
  rw [Value.extents_subview, getOrCreateRanges_sizes, keepDimsFrom_map]

theorem resolveFullSize_ge (env : Env) (bound : BoundAnalysis) (useOrig : Bool)
    (size : OpFoldResult)
    (hbound : ∀ size u, bound size = some u → OpFoldResult.eval env size ≤ u) :
    OpFoldResult.eval env size ≤ Value.eval env (resolveFullSize bound useOrig size) := by
  unfold resolveFullSize
  cases size with
  | attr c =>
    simp [OpFoldResult.isAttribute, getValueOrCreateConstantIndexOp, Value.eval_constantIndex,
      OpFoldResult.eval]
  | value v =>
    cases useOrig with
    | true => simp [OpFoldResult.isAttribute, getValueOrCreateConstantIndexOp, OpFoldResult.eval]
    | false =>
      cases hb : bound (.value v) with
      | none =>
        simp [OpFoldResult.isAttribute, getValueOrCreateConstantIndexOp, OpFoldResult.eval]
      | some u =>
        simp only [OpFoldResult.isAttribute, Bool.or_self, Bool.false_eq_true, if_false,
          Value.eval_constantIndex]
        exact hbound _ _ hb

theorem promoteSubviewAsNewBuffer_some (bound : BoundAnalysis) (s : State)
    (subView : SubViewOp) (useOrig : Bool) (allocationFn : AllocBufferCallbackFn)
    (layout : DataLayout) (info : PromotionInfo) (t : State)
    (h : promoteSubviewAsNewBuffer bound s subView useOrig allocationFn layout
      = (some info, t)) :
    ∃ l id,
      t.log = s.log ++ l ∧
      trace l = [.allocationFn subView (subView.keptSizes.map (resolveFullSize bound useOrig))
        (some info.fullLocalView)] ∧
      info.partialLocalView =
        .subview id info.fullLocalView
          (List.replicate subView.keptSizes.length (OpFoldResult.attr 0))
          ((List.range' 0 subView.keptSizes.length).map
            (fun j => OpFoldResult.value (Value.dim subView.result j)))
          (List.replicate subView.keptSizes.length (OpFoldResult.attr 1))
          (List.replicate subView.keptSizes.length false)
          info.fullLocalView.getElementType := by
  obtain ⟨h1, h2, l0, h3, h4⟩ := tileSizesLoop_eq bound subView useOrig
    (SubViewOp.getOrCreateRanges subView.offsets subView.sizes subView.strides) 0 ⟨s, [], [], 0⟩
  simp only [List.nil_append] at h1 h2 h3
  have hlen : (tileSizesLoop bound subView useOrig 0
      (SubViewOp.getOrCreateRanges subView.offsets subView.sizes subView.strides)
      ⟨s, [], [], 0⟩).fullSizes.length = subView.keptSizes.length := by
    rw [h1]
    simp [SubViewOp.keptSizes]
  unfold promoteSubviewAsNewBuffer at h
  simp only at h
  split at h
  · simp at h
  · rename_i full hfull
    simp only [Prod.mk.injEq, Option.some.injEq] at h
    obtain ⟨hinfo, ht⟩ := h
    refine ⟨l0 ++ [.allocationFn subView (subView.keptSizes.map (resolveFullSize bound useOrig))
        (some info.fullLocalView), .create (.value info.partialLocalView)],
      (allocationFn
        (tileSizesLoop bound subView useOrig 0
          (SubViewOp.getOrCreateRanges subView.offsets subView.sizes subView.strides)
          ⟨s, [], [], 0⟩).state.builder subView
        (tileSizesLoop bound subView useOrig 0
          (SubViewOp.getOrCreateRanges subView.offsets subView.sizes subView.strides)
          ⟨s, [], [], 0⟩).fullSizes layout).2.nextId, ?_, ?_, ?_⟩
    · rw [← ht, ← hinfo]
      simp only [State.create, h3, hfull, List.append_assoc, List.singleton_append]
      rw [h1]
      rfl
    · rw [trace_append, h4]
      rfl
    · rw [← hinfo]
      simp only [hlen, h2]
      rfl

/-- C6: containment.  A `PromotionInfo` returned by `promoteSubviewAsNewBuffer` for any view
(static, dynamic or rank-reducing) and either value of `useOriginalSubviewSize` has a partial
view that is a subview of the full view with one dimension per non-dropped dimension of the
original view, offset 0 and stride 1 in every dimension, and whose run-time extent in every
dimension is at most the full-tile size requested from the allocation strategy for that
dimension, hence at most the extent of the full view whenever the full view has the requested
extents; this assumes that the bound analysis only returns upper bounds of the run-time
size. -/
theorem partial_view_contained_in_full_view (env : Env) (bound : BoundAnalysis) (s : State)
    (subView : SubViewOp) (useOriginalSubviewSize : Bool)
    (allocationFn : AllocBufferCallbackFn) (layout : DataLayout) (info : PromotionInfo)
    (t : State)
    (hbound : ∀ size u, bound size = some u → OpFoldResult.eval env size ≤ u)
    (h : promoteSubviewAsNewBuffer bound s subView useOriginalSubviewSize allocationFn layout
      = (some info, t)) :
    ∃ (l : List Event) (fullSizes : List Value) (id : Nat) (partialSizes : List OpFoldResult),
      t.log = s.log ++ l ∧
      trace l = [.allocationFn subView fullSizes (some info.fullLocalView)] ∧
      fullSizes.length = subView.keptSizes.length ∧
      partialSizes.length = subView.keptSizes.length ∧
      info.partialLocalView =
        .subview id info.fullLocalView
          (List.replicate subView.keptSizes.length (OpFoldResult.attr 0))
          partialSizes
          (List.replicate subView.keptSizes.length (OpFoldResult.attr 1))
          (List.replicate subView.keptSizes.length false)
          info.fullLocalView.getElementType ∧
      (Value.extents env info.partialLocalView).length = subView.keptSizes.length ∧
      (∀ k, k < subView.keptSizes.length →
        (Value.extents env info.partialLocalView).getD k 0 ≤
          (fullSizes.map (Value.eval env)).getD k 0) ∧
      (Value.extents env info.fullLocalView = fullSizes.map (Value.eval env) →
        (Value.extents env info.fullLocalView).length = subView.keptSizes.length ∧
        ∀ k, k < subView.keptSizes.length →
          (Value.extents env info.partialLocalView).getD k 0 ≤
            (Value.extents env info.fullLocalView).getD k 0) := by
  obtain ⟨l, id, hl, ht, hp⟩ := promoteSubviewAsNewBuffer_some bound s subView
    useOriginalSubviewSize allocationFn layout info t h
  have hext : Value.extents env info.partialLocalView =
      subView.keptSizes.map (OpFoldResult.eval env) := by
    rw [hp, Value.extents_subview, keepDimsFrom_replicate_false]
    apply List.ext_getElem
    · simp
    · intro k h1 h2
      simp only [List.length_map, List.length_range'] at h1
      simp only [List.getElem_map, List.getElem_range', OpFoldResult.eval, Value.eval_dim,
        SubViewOp.extents_result, Nat.zero_add, Nat.one_mul]
      rw [List.getD_eq_getElem?_getD, List.getElem?_eq_getElem (by simpa using h1)]
      simp
  have hle : ∀ k, k < subView.keptSizes.length →
      (Value.extents env info.partialLocalView).getD k 0 ≤
        ((subView.keptSizes.map (resolveFullSize bound useOriginalSubviewSize)).map
          (Value.eval env)).getD k 0 := by
    intro k hk
    rw [hext, List.getD_eq_getElem?_getD, List.getD_eq_getElem?_getD,
      List.getElem?_eq_getElem (by simpa using hk),
      List.getElem?_eq_getElem (by simpa using hk)]
    simp only [List.getElem_map, Option.getD_some]
    exact resolveFullSize_ge env bound useOriginalSubviewSize _ hbound
  refine ⟨l, subView.keptSizes.map (resolveFullSize bound useOriginalSubviewSize), id, _, hl, ht,
    by simp, by simp, hp, by simp [hext], hle, ?_⟩
  intro hfull
  refine ⟨by simp [hfull], ?_⟩
  intro k hk
  rw [hfull]
  exact hle k hk

theorem defaultAllocBufferCallBack_extents (env : Env) (options : LinalgPromotionOptions)
    (builder : OpBuilder) (subView : SubViewOp) (sizes : List Value) (alignment : Option Nat)
    (layout : DataLayout) :
    ∃ v, (defaultAllocBufferCallBack options builder subView sizes alignment layout).1 = some v ∧
      Value.extents env v = sizes.map (Value.eval env) :=
  ⟨_, rfl, Value.extents_view env _ _ _ _⟩

/-- A view whose dimension 0 has the dynamic size `external 7` and whose dimension 1 is
statically 4. -/
def dynamicView (id : Nat) : SubViewOp :=
  ⟨id, .external (100 + id), [.attr 0, .attr 0], [.value (.external 7), .attr 4],
    [.attr 1, .attr 1], [false, false], .float 32⟩

/-- A bound analysis that derives the upper bound 8 for `external 7` and nothing else. -/
def sampleBound : BoundAnalysis
  | .value (.external 7) => some 8
  | _ => none

/-- An environment in which `external 7` is 5 at run time. -/
def sampleEnv : Env := ⟨fun _ => 5, fun _ => []⟩

/-- A data layout with four bytes per element. -/
def sampleLayout : DataLayout := ⟨fun _ => 4⟩

/-- The builder before the transformation. -/
def emptyBuilder : OpBuilder := ⟨.initial, [], 0⟩

/-- The default allocation strategy as bound by the constructor for `sampleOptions`. -/
def sampleAllocationFn : AllocBufferCallbackFn :=
  (LinalgOpInstancePromotionOptions.construct (sampleOp [] 0) sampleOptions).allocationFn

theorem sampleBound_sound (size : OpFoldResult) (u : Int) (h : sampleBound size = some u) :
    OpFoldResult.eval sampleEnv size ≤ u := by
  unfold sampleBound at h
  split at h
  · simp only [Option.some.injEq] at h
    subst h
    decide
  · cases h

/-- The promotion of `dynamicView 2` with the default allocation strategy. -/
def dynamicViewPromotion : Option PromotionInfo × State :=
  promoteSubviewAsNewBuffer sampleBound ⟨emptyBuilder, []⟩ (dynamicView 2) false
    sampleAllocationFn sampleLayout

/-- The promotion info of `dynamicViewPromotion`. -/
def dynamicViewInfo : PromotionInfo :=
  dynamicViewPromotion.1.getD ⟨.external 0, .external 0⟩

/-- C6, witness: the view with a dynamic dimension bounded by 8 and a static dimension 4,
promoted with the default allocation strategy. -/
theorem partial_view_contained_in_full_view_witness :
    (∀ size u, sampleBound size = some u → OpFoldResult.eval sampleEnv size ≤ u) ∧
    promoteSubviewAsNewBuffer sampleBound ⟨emptyBuilder, []⟩ (dynamicView 2) false
      sampleAllocationFn sampleLayout = (some dynamicViewInfo, dynamicViewPromotion.2) ∧
    Value.extents sampleEnv dynamicViewInfo.fullLocalView = [8, 4] ∧
    Value.extents sampleEnv dynamicViewInfo.partialLocalView = [5, 4] ∧
    ∃ (l : List Event) (fullSizes : List Value) (id : Nat) (partialSizes : List OpFoldResult),
      dynamicViewPromotion.2.log = [] ++ l ∧
      trace l = [.allocationFn (dynamicView 2) fullSizes (some dynamicViewInfo.fullLocalView)] ∧
      fullSizes.length = (dynamicView 2).keptSizes.length ∧
      partialSizes.length = (dynamicView 2).keptSizes.length ∧
      dynamicViewInfo.partialLocalView =
        .subview id dynamicViewInfo.fullLocalView
          (List.replicate (dynamicView 2).keptSizes.length (OpFoldResult.attr 0))
          partialSizes
          (List.replicate (dynamicView 2).keptSizes.length (OpFoldResult.attr 1))
          (List.replicate (dynamicView 2).keptSizes.length false)
          dynamicViewInfo.fullLocalView.getElementType ∧
      (Value.extents sampleEnv dynamicViewInfo.partialLocalView).length =
        (dynamicView 2).keptSizes.length ∧
      (∀ k, k < (dynamicView 2).keptSizes.length →
        (Value.extents sampleEnv dynamicViewInfo.partialLocalView).getD k 0 ≤
          (fullSizes.map (Value.eval sampleEnv)).getD k 0) ∧
      (Value.extents sampleEnv dynamicViewInfo.fullLocalView =
          fullSizes.map (Value.eval sampleEnv) →
        (Value.extents sampleEnv dynamicViewInfo.fullLocalView).length =
          (dynamicView 2).keptSizes.length ∧
        ∀ k, k < (dynamicView 2).keptSizes.length →
          (Value.extents sampleEnv dynamicViewInfo.partialLocalView).getD k 0 ≤
            (Value.extents sampleEnv dynamicViewInfo.fullLocalView).getD k 0) :=
  ⟨sampleBound_sound, rfl, by decide, by decide,
    partial_view_contained_in_full_view sampleEnv sampleBound ⟨emptyBuilder, []⟩ (dynamicView 2)
      false sampleAllocationFn sampleLayout dynamicViewInfo dynamicViewPromotion.2
      sampleBound_sound rfl⟩

/-! ## The tile promoter -/

/-- The zero value the tile promoter selects for an element type, if any. -/
def zeroOf (t : MType) : Option Value :=
  (fillValue ⟨emptyBuilder, []⟩ t).1

theorem fillValue_fst (s : State) (t : MType) : (fillValue s t).1 = zeroOf t := by
  cases t <;> rfl

theorem fillValue_log (s : State) (t : MType) :
    ∃ l, (fillValue s t).2.log = s.log ++ l ∧ trace l = [] := by
  cases t with
  | index => exact ⟨[], by simp [fillValue], rfl⟩
  | float w => exact ⟨[_], rfl, rfl⟩
  | integer w => exact ⟨[_], rfl, rfl⟩
  | complexOfFloat w =>
    exact ⟨[.create (.value (.constant (.float (.float w) 0))),
      .create (.value (.complexCreate (.complexOfFloat w) (.constant (.float (.float w) 0))
        (.constant (.float (.float w) 0))))], by simp [fillValue, State.create], rfl⟩
  | complexOfInteger w =>
    exact ⟨[.create (.value (.constant (.integer (.integer w) 0))),
      .create (.value (.complexCreate (.complexOfInteger w)
        (.constant (.integer (.integer w) 0)) (.constant (.integer (.integer w) 0))))],
      by simp [fillValue, State.create], rfl⟩
  | other id => exact ⟨[], by simp [fillValue], rfl⟩

/-- What the first loop of the tile promoter does for one selected view `v` that is promoted
to `info`: one invocation of the allocation strategy and, when the view is flagged to use the
full tile, one fill of the full view with the zero of the element type. -/
def promotionEvents (bound : BoundAnalysis) (options : LinalgOpInstancePromotionOptions)
    (v : Nat × SubViewOp) (info : PromotionInfo) : List Event :=
  .allocationFn v.2
      (v.2.keptSizes.map (resolveFullSize bound options.useOriginalSubviewSize))
      (some info.fullLocalView) ::
    (if mapGet options.useFullTileBuffers v.2.result then
      match zeroOf v.2.elementType with
      | some fillVal => [.create (.linalgFill fillVal info.fullLocalView)]
      | none => []
    else [])

/-- The partial view of `info` is the zero-offset, unit-stride window of its full view with
the extents of `subView`. -/
def IsPartialViewOf (subView : SubViewOp) (info : PromotionInfo) : Prop :=
  ∃ id, info.partialLocalView =
    .subview id info.fullLocalView
      (List.replicate subView.keptSizes.length (OpFoldResult.attr 0))
      ((List.range' 0 subView.keptSizes.length).map
        (fun j => OpFoldResult.value (Value.dim subView.result j)))
      (List.replicate subView.keptSizes.length (OpFoldResult.attr 1))
      (List.replicate subView.keptSizes.length false)
      info.fullLocalView.getElementType

theorem promoteLoop_nil (bound : BoundAnalysis) (options : LinalgOpInstancePromotionOptions)
    (layout : DataLayout) (s : State) (m : List (Nat × PromotionInfo)) :
    promoteLoop bound options layout [] s m = (some m, s) := rfl

theorem promoteLoop_cons (bound : BoundAnalysis) (options : LinalgOpInstancePromotionOptions)
    (layout : DataLayout) (v : Nat × SubViewOp) (rest : List (Nat × SubViewOp)) (s : State)
    (m : List (Nat × PromotionInfo)) :
    promoteLoop bound options layout (v :: rest) s m =
      match promoteSubviewAsNewBuffer bound s v.2 options.useOriginalSubviewSize
          options.allocationFn layout with
      | (none, s1) => (none, s1)
      | (some promotionInfo, s1) =>
        if !mapGet options.useFullTileBuffers v.2.result then
          promoteLoop bound options layout rest s1 (mapSet m v.1 promotionInfo)
        else
          match fillValue s1 v.2.elementType with
          | (none, s2) => (none, s2)
          | (some fillVal, s2) =>
            promoteLoop bound options layout rest
              (s2.create (.linalgFill fillVal promotionInfo.fullLocalView))
              (mapSet m v.1 promotionInfo) := rfl

theorem mapFind_append_of_none {κ α : Type} [DecidableEq κ] (m n : List (κ × α)) (k : κ)
    (h : mapFind m k = none) : mapFind (m ++ n) k = mapFind n k := by
  rw [mapFind_append, h]
  rfl

theorem promoteLoop_some (bound : BoundAnalysis) (options : LinalgOpInstancePromotionOptions)
    (layout : DataLayout) (subViews : List (Nat × SubViewOp)) (s : State)
    (m : List (Nat × PromotionInfo)) (res : List (Nat × PromotionInfo)) (s1 : State)
    (hnd : (subViews.map Prod.fst).Nodup) (hdis : ∀ v ∈ subViews, mapFind m v.1 = none)
    (h : promoteLoop bound options layout subViews s m = (some res, s1)) :
    ∃ entries l,
      res = m ++ entries ∧ entries.map Prod.fst = subViews.map Prod.fst ∧
      s1.log = s.log ++ l ∧
      trace l = subViews.flatMap (fun v => promotionEvents bound options v (mapIndex res v.1)) ∧
      ∀ v ∈ subViews, IsPartialViewOf v.2 (mapIndex res v.1) ∧
        (mapFind res v.1).isSome = true ∧
        (mapGet options.useFullTileBuffers v.2.result = true →
          (zeroOf v.2.elementType).isSome = true) := by
  induction subViews generalizing s m with
  | nil =>
    rw [promoteLoop_nil] at h
    simp only [Prod.mk.injEq, Option.some.injEq] at h
    exact ⟨[], [], by simp [h.1], rfl, by simp [h.2], rfl, by simp⟩
  | cons v rest ih =>
    rw [promoteLoop_cons] at h
    simp only [List.map_cons, List.nodup_cons] at hnd
    have hmv : mapFind m v.1 = none := hdis v (List.mem_cons_self _ _)
    cases hp : promoteSubviewAsNewBuffer bound s v.2 options.useOriginalSubviewSize
        options.allocationFn layout with
    | mk oinfo sa =>
      rw [hp] at h
      cases oinfo with
      | none => simp at h
      | some info =>
        obtain ⟨la, id, hla, hta, hpart⟩ := promoteSubviewAsNewBuffer_some bound s v.2
          options.useOriginalSubviewSize options.allocationFn layout info sa hp
        have hdis' : ∀ w ∈ rest, mapFind (mapSet m v.1 info) w.1 = none := by
          intro w hw
          have hne : v.1 ≠ w.1 := by
            intro he
            apply hnd.1
            rw [he]
            exact List.mem_map_of_mem Prod.fst hw
          rw [mapFind_mapSet_ne _ _ _ _ hne]
          exact hdis w (List.mem_cons_of_mem _ hw)
        have finish : ∀ (sb : State) (lb : List Event), sb.log = s.log ++ lb →
            trace lb = promotionEvents bound options v info →
            (mapGet options.useFullTileBuffers v.2.result = true →
              (zeroOf v.2.elementType).isSome = true) →
            promoteLoop bound options layout rest sb (mapSet m v.1 info) = (some res, s1) →
            ∃ entries l,
              res = m ++ entries ∧ entries.map Prod.fst = (v :: rest).map Prod.fst ∧
              s1.log = s.log ++ l ∧
              trace l = (v :: rest).flatMap
                (fun v => promotionEvents bound options v (mapIndex res v.1)) ∧
              ∀ w ∈ v :: rest, IsPartialViewOf w.2 (mapIndex res w.1) ∧
                (mapFind res w.1).isSome = true ∧
                (mapGet options.useFullTileBuffers w.2.result = true →
                  (zeroOf w.2.elementType).isSome = true) := by
          intro sb lb hsb htb hz hrec
          obtain ⟨entries, l, hres, hkeys, hlog, htr, hall⟩ := ih sb (mapSet m v.1 info) hnd.2
            hdis' hrec
          rw [mapSet_of_find_none _ _ _ hmv] at hres
          have hidx : mapIndex res v.1 = info := by
            unfold mapIndex
            rw [hres, List.append_assoc, mapFind_append_of_none _ _ _ hmv]
            simp [mapFind_cons]
          refine ⟨(v.1, info) :: entries, lb ++ l, ?_, ?_, ?_, ?_, ?_⟩
          · rw [hres]; simp
          · simp [hkeys]
          · rw [hlog, hsb]; simp
          · rw [trace_append, htb, htr, List.flatMap_cons, hidx]
          · intro w hw
            rcases List.mem_cons.mp hw with hw | hw
            · subst hw
              rw [hidx]
              refine ⟨⟨id, hpart⟩, ?_, hz⟩
              rw [hres, List.append_assoc, mapFind_append_of_none _ _ _ hmv]
              simp [mapFind_cons]
            · exact hall w hw
        simp only at h
        by_cases hflag : mapGet options.useFullTileBuffers v.2.result = true
        · simp only [hflag, Bool.not_true, Bool.false_eq_true, if_false] at h
          obtain ⟨lf, hlf, htf⟩ := fillValue_log sa v.2.elementType
          have hfst := fillValue_fst sa v.2.elementType
          cases hfv : fillValue sa v.2.elementType with
          | mk oz sf =>
            rw [hfv] at h hlf hfst
            simp only at hlf hfst
            cases oz with
            | none => simp at h
            | some z =>
              simp only at h
              apply finish (sf.create (.linalgFill z info.fullLocalView))
                (la ++ lf ++ [.create (.linalgFill z info.fullLocalView)]) _ _ _ h
              · simp [State.create, hlf, hla]
              · rw [trace_append, trace_append, hta, htf]
                simp [promotionEvents, hflag, ← hfst]
                rfl
              · intro _
                rw [← hfst]
                rfl
        · have hflag' : mapGet options.useFullTileBuffers v.2.result = false := by
            simpa using hflag
          simp only [hflag', Bool.not_false, if_true] at h
          apply finish sa la hla _ _ h
          · rw [hta]
            simp [promotionEvents, hflag']
          · intro hf
            rw [hflag'] at hf
            cases hf

theorem promoteLoop_none_of_no_zero (bound : BoundAnalysis)
    (options : LinalgOpInstancePromotionOptions) (layout : DataLayout)
    (subViews : List (Nat × SubViewOp)) (s : State) (m : List (Nat × PromotionInfo))
    (h : ∃ v ∈ subViews, mapGet options.useFullTileBuffers v.2.result = true ∧
      zeroOf v.2.elementType = none) :
    (promoteLoop bound options layout subViews s m).1 = none := by
  induction subViews generalizing s m with
  | nil => simp at h
  | cons v rest ih =>
    rw [promoteLoop_cons]
    cases hp : promoteSubviewAsNewBuffer bound s v.2 options.useOriginalSubviewSize
        options.allocationFn layout with
    | mk oinfo sa =>
      cases oinfo with
      | none => rfl
      | some info =>
        simp only
        obtain ⟨w, hw, hflag, hzero⟩ := h
        rcases List.mem_cons.mp hw with hw | hw
        · subst hw
          simp only [hflag, Bool.not_true, Bool.false_eq_true, if_false]
          have hfst := fillValue_fst sa w.2.elementType
          cases hfv : fillValue sa w.2.elementType with
          | mk oz sf =>
            rw [hfv, hzero] at hfst
            simp only at hfst
            subst hfst
            rfl
        · by_cases hf : mapGet options.useFullTileBuffers v.2.result = true
          · simp only [hf, Bool.not_true, Bool.false_eq_true, if_false]
            cases hfv : fillValue sa v.2.elementType with
            | mk oz sf =>
              cases oz with
              | none => rfl
              | some z => exact ih _ _ ⟨w, hw, hflag, hzero⟩
          · have hf' : mapGet options.useFullTileBuffers v.2.result = false := by
              simpa using hf
            simp only [hf', Bool.not_false, if_true]
            exact ih _ _ ⟨w, hw, hflag, hzero⟩

/-- The (source, destination) pairs of the copy-in loop: every selected view that has a
promotion info and is marked for copy-in, with the partial view of its promotion info. -/
def copyInTargets (options : LinalgOpInstancePromotionOptions)
    (m : List (Nat × PromotionInfo)) (subViews : List (Nat × SubViewOp)) :
    List (Value × Value) :=
  (subViews.filter
      (fun v => (mapFind m v.1).isSome && options.operandsNumbersToCopyIn.contains v.1)).map
    (fun v => (v.2.result, (mapIndex m v.1).partialLocalView))

theorem copyInTargets_cons (options : LinalgOpInstancePromotionOptions)
    (m : List (Nat × PromotionInfo)) (v : Nat × SubViewOp) (rest : List (Nat × SubViewOp)) :
    copyInTargets options m (v :: rest) =
      if (mapFind m v.1).isSome && options.operandsNumbersToCopyIn.contains v.1 then
        (v.2.result, (mapIndex m v.1).partialLocalView) :: copyInTargets options m rest
      else copyInTargets options m rest := by
  unfold copyInTargets
  rw [List.filter_cons]
  split <;> simp

theorem copyInLoop_cons (options : LinalgOpInstancePromotionOptions)
    (m : List (Nat × PromotionInfo)) (v : Nat × SubViewOp) (rest : List (Nat × SubViewOp))
    (s : State) :
    copyInLoop options m (v :: rest) s =
      match mapFind m v.1 with
      | none => copyInLoop options m rest s
      | some info =>
        if !options.operandsNumbersToCopyIn.contains v.1 then copyInLoop options m rest s
        else
          if failed (options.copyInFn s.builder v.2.result info.partialLocalView).1 then
            (.failure,
              { builder := (options.copyInFn s.builder v.2.result info.partialLocalView).2
                log := s.log ++ [.copyInFn v.2.result info.partialLocalView
                  (options.copyInFn s.builder v.2.result info.partialLocalView).1] })
          else
            copyInLoop options m rest
              { builder := (options.copyInFn s.builder v.2.result info.partialLocalView).2
                log := s.log ++ [.copyInFn v.2.result info.partialLocalView
                  (options.copyInFn s.builder v.2.result info.partialLocalView).1] } := rfl

theorem failed_eq_true_iff (r : LogicalResult) : failed r = true ↔ r = .failure := by
  cases r <;> simp [failed]

theorem failed_eq_false_iff (r : LogicalResult) : failed r = false ↔ r = .success := by
  cases r <;> simp [failed]

theorem copyInLoop_spec (options : LinalgOpInstancePromotionOptions)
    (m : List (Nat × PromotionInfo)) (subViews : List (Nat × SubViewOp)) (s : State) :
    ∃ l, (copyInLoop options m subViews s).2.log = s.log ++ l ∧
      ((copyInLoop options m subViews s).1 = .success →
        l = (copyInTargets options m subViews).map (fun p => .copyInFn p.1 p.2 .success)) ∧
      ((copyInLoop options m subViews s).1 = .failure →
        ∃ pre p post, copyInTargets options m subViews = pre ++ p :: post ∧
          l = pre.map (fun p => Event.copyInFn p.1 p.2 .success) ++
            [.copyInFn p.1 p.2 .failure]) := by
  induction subViews generalizing s with
  | nil =>
    refine ⟨[], by simp [copyInLoop], ?_, ?_⟩
    · intro _; rfl
    · intro h; simp [copyInLoop] at h
  | cons v rest ih =>
    rw [copyInLoop_cons, copyInTargets_cons]
    cases hm : mapFind m v.1 with
    | none => simpa using ih s
    | some info =>
      have hidx : mapIndex m v.1 = info := by simp [mapIndex, hm]
      by_cases hc : options.operandsNumbersToCopyIn.contains v.1 = true
      · simp only [hc, Bool.not_true, Bool.false_eq_true, if_false, Option.isSome_some,
          Bool.and_self, if_true, hidx]
        cases hr : (options.copyInFn s.builder v.2.result info.partialLocalView).1 with
        | failure =>
          simp only [failed, if_true]
          refine ⟨[.copyInFn v.2.result info.partialLocalView .failure], rfl, ?_, ?_⟩
          · intro h; cases h
          · intro _
            exact ⟨[], (v.2.result, info.partialLocalView), _, rfl, rfl⟩
        | success =>
          simp only [failed, Bool.false_eq_true, if_false]
          obtain ⟨l, hl, hs, hf⟩ := ih
            { builder := (options.copyInFn s.builder v.2.result info.partialLocalView).2
              log := s.log ++ [.copyInFn v.2.result info.partialLocalView .success] }
          refine ⟨.copyInFn v.2.result info.partialLocalView .success :: l, ?_, ?_, ?_⟩
          · rw [hl]; simp
          · intro h
            rw [hs h]
            rfl
          · intro h
            obtain ⟨pre, p, post, hpre, hl'⟩ := hf h
            refine ⟨(v.2.result, info.partialLocalView) :: pre, p, post, ?_, ?_⟩
            · rw [hpre]; rfl
            · rw [hl']; rfl
      · have hc' : options.operandsNumbersToCopyIn.contains v.1 = false := by simpa using hc
        simp only [hc', Bool.not_false, if_true, Bool.and_false, Bool.false_eq_true, if_false]
        exact ih s

/-! ## The operation rewriter -/

/-- The operand the rewriter puts at position `n` in place of `opOperand`. -/
def newOperand (options : LinalgOpInstancePromotionOptions)
    (promoted : List (Nat × PromotionInfo)) (n : Nat) (opOperand : Value) : Value :=
  if (mapFind options.subViews n).isSome then
    if mapGet options.useFullTileBuffers opOperand then (mapIndex promoted n).fullLocalView
    else (mapIndex promoted n).partialLocalView
  else opOperand

/-- Whether the rewriter schedules a write-back for operand `n`. -/
def needsWriteback (op : LinalgOp) (options : LinalgOpInstancePromotionOptions) (n : Nat) :
    Bool :=
  (mapFind options.subViews n).isSome && decide (n ≥ op.numDpsInputs)

theorem operandLoop_cons (op : LinalgOp) (options : LinalgOpInstancePromotionOptions)
    (promoted : List (Nat × PromotionInfo)) (n : Nat) (opOperand : Value) (rest : List Value)
    (acc : NewOperands) :
    operandLoop op options promoted n (opOperand :: rest) acc =
      operandLoop op options promoted (n + 1) rest
        { opViews := acc.opViews ++ [newOperand options promoted n opOperand]
          writebackViews :=
            if needsWriteback op options n then
              acc.writebackViews ++ [(opOperand, (mapIndex promoted n).partialLocalView)]
            else acc.writebackViews } := by
  rw [operandLoop]
  unfold newOperand needsWriteback
  by_cases hs : (mapFind options.subViews n).isSome = true
  · by_cases hn : n ≥ op.numDpsInputs
    · simp [hs, hn]
    · simp [hs, hn]
  · simp [hs]

theorem operandLoop_eq (op : LinalgOp) (options : LinalgOpInstancePromotionOptions)
    (promoted : List (Nat × PromotionInfo)) (l : List Value) (n : Nat) (acc : NewOperands) :
    operandLoop op options promoted n l acc =
      { opViews := acc.opViews ++
          (l.enumFrom n).map (fun p => newOperand options promoted p.1 p.2)
        writebackViews := acc.writebackViews ++
          ((l.enumFrom n).filter (fun p => needsWriteback op options p.1)).map
            (fun p => (p.2, (mapIndex promoted p.1).partialLocalView)) } := by
  induction l generalizing n acc with
  | nil => simp [operandLoop]
  | cons v rest ih =>
    rw [operandLoop_cons, ih]
    by_cases hw : needsWriteback op options n = true
    · simp [List.enumFrom_cons, List.filter_cons, hw]
    · simp [List.enumFrom_cons, List.filter_cons, hw]

theorem copyOutLoop_cons (options : LinalgOpInstancePromotionOptions) (p : Value × Value)
    (rest : List (Value × Value)) (s : State) :
    copyOutLoop options (p :: rest) s =
      if failed (options.copyOutFn s.builder p.2 p.1).1 then
        (.failure,
          { builder := (options.copyOutFn s.builder p.2 p.1).2
            log := s.log ++ [.copyOutFn p.2 p.1 (options.copyOutFn s.builder p.2 p.1).1] })
      else
        copyOutLoop options rest
          { builder := (options.copyOutFn s.builder p.2 p.1).2
            log := s.log ++ [.copyOutFn p.2 p.1 (options.copyOutFn s.builder p.2 p.1).1] } :=
  rfl

theorem copyOutLoop_spec (options : LinalgOpInstancePromotionOptions)
    (views : List (Value × Value)) (s : State) :
    ∃ l, (copyOutLoop options views s).2.log = s.log ++ l ∧
      ((copyOutLoop options views s).1 = .success →
        l = views.map (fun p => .copyOutFn p.2 p.1 .success)) ∧
      ((copyOutLoop options views s).1 = .failure →
        ∃ pre p post, views = pre ++ p :: post ∧
          l = pre.map (fun p => Event.copyOutFn p.2 p.1 .success) ++
            [.copyOutFn p.2 p.1 .failure]) := by
  induction views generalizing s with
  | nil =>
    refine ⟨[], by simp [copyOutLoop], ?_, ?_⟩
    · intro _; rfl
    · intro h; simp [copyOutLoop] at h
  | cons p rest ih =>
    rw [copyOutLoop_cons]
    cases hr : (options.copyOutFn s.builder p.2 p.1).1 with
    | failure =>
      simp only [failed, if_true]
      refine ⟨[.copyOutFn p.2 p.1 .failure], rfl, ?_, ?_⟩
      · intro h; cases h
      · intro _
        exact ⟨[], p, rest, rfl, rfl⟩
    | success =>
      simp only [failed, Bool.false_eq_true, if_false]
      obtain ⟨l, hl, hs, hf⟩ := ih
        { builder := (options.copyOutFn s.builder p.2 p.1).2
          log := s.log ++ [.copyOutFn p.2 p.1 .success] }
      refine ⟨.copyOutFn p.2 p.1 .success :: l, ?_, ?_, ?_⟩
      · rw [hl]; simp
      · intro h
        rw [hs h]
        rfl
      · intro h
        obtain ⟨pre, q, post, hpre, hl'⟩ := hf h
        refine ⟨p :: pre, q, post, ?_, ?_⟩
        · rw [hpre]; rfl
        · rw [hl']; rfl

theorem deallocLoop_spec (options : LinalgOpInstancePromotionOptions)
    (promoted : List (Nat × PromotionInfo)) (s : State) :
    ∃ results : List LogicalResult, results.length = promoted.length ∧
      (deallocLoop options promoted s).log = s.log ++
        List.zipWith (fun pi r => Event.deallocationFn pi.2.fullLocalView r) promoted results := by
  induction promoted generalizing s with
  | nil => exact ⟨[], rfl, by simp [deallocLoop]⟩
  | cons pi rest ih =>
    obtain ⟨results, hlen, hlog⟩ := ih
      { builder := (options.deallocationFn s.builder pi.2.fullLocalView).2
        log := s.log ++ [.deallocationFn pi.2.fullLocalView
          (options.deallocationFn s.builder pi.2.fullLocalView).1] }
    refine ⟨(options.deallocationFn s.builder pi.2.fullLocalView).1 :: results, by simp [hlen],
      ?_⟩
    rw [deallocLoop, hlog]
    simp

theorem trace_copyIn_events (targets : List (Value × Value)) (r : LogicalResult) :
    trace (targets.map (fun p => Event.copyInFn p.1 p.2 r)) =
      targets.map (fun p => Event.copyInFn p.1 p.2 r) := by
  induction targets with
  | nil => rfl
  | cons p rest ih =>
    simp only [List.map_cons]
    rw [show ∀ (e : Event) (l : List Event), e :: l = [e] ++ l from fun _ _ => rfl,
      trace_append, ih]
    rfl

theorem promoteSubViewsMap_of_first_pass (bound : BoundAnalysis) (s : State)
    (options : LinalgOpInstancePromotionOptions) (layout : DataLayout)
    (res : List (Nat × PromotionInfo)) (s1 : State) (hne : options.subViews ≠ [])
    (h : promoteLoop bound options layout options.subViews s [] = (some res, s1)) :
    promoteSubViewsMap bound s options layout =
      (if (copyInLoop options res options.subViews s1).1 = .success then some res else none,
        (copyInLoop options res options.subViews s1).2) := by
  unfold promoteSubViewsMap
  have hemp : options.subViews.isEmpty = false := by
    cases hs : options.subViews with
    | nil => exact absurd hs hne
    | cons _ _ => rfl
  simp only [hemp, Bool.false_eq_true, if_false, h]
  cases hc : copyInLoop options res options.subViews s1 with
  | mk r s2 =>
    cases r <;> simp

theorem promoteSubViewsMap_some (bound : BoundAnalysis) (s : State)
    (options : LinalgOpInstancePromotionOptions) (layout : DataLayout)
    (res : List (Nat × PromotionInfo)) (s2 : State)
    (hnd : (options.subViews.map Prod.fst).Nodup)
    (h : promoteSubViewsMap bound s options layout = (some res, s2)) :
    options.subViews ≠ [] ∧
    res.map Prod.fst = options.subViews.map Prod.fst ∧
    (∃ l, s2.log = s.log ++ l ∧
      trace l =
        options.subViews.flatMap (fun v => promotionEvents bound options v (mapIndex res v.1)) ++
          (copyInTargets options res options.subViews).map
            (fun p => .copyInFn p.1 p.2 .success)) ∧
    ∀ v ∈ options.subViews, IsPartialViewOf v.2 (mapIndex res v.1) ∧
      (mapFind res v.1).isSome = true ∧
      (mapGet options.useFullTileBuffers v.2.result = true →
        (zeroOf v.2.elementType).isSome = true) := by
  have hne : options.subViews ≠ [] := by
    intro hs
    unfold promoteSubViewsMap at h
    simp [hs] at h
  cases hp : promoteLoop bound options layout options.subViews s [] with
  | mk ores s1 =>
    cases ores with
    | none =>
      unfold promoteSubViewsMap at h
      have hemp : options.subViews.isEmpty = false := by
        cases hs : options.subViews with
        | nil => exact absurd hs hne
        | cons _ _ => rfl
      simp [hemp, hp] at h
    | some res' =>
      rw [promoteSubViewsMap_of_first_pass bound s options layout res' s1 hne hp] at h
      simp only [Prod.mk.injEq] at h
      obtain ⟨hres, hs2⟩ := h
      have hsucc : (copyInLoop options res' options.subViews s1).1 = .success := by
        by_contra hc
        simp [hc] at hres
      simp only [hsucc, if_true, Option.some.injEq] at hres
      subst hres
      obtain ⟨entries, l1, hres, hkeys, hlog1, htr1, hall⟩ := promoteLoop_some bound options
        layout options.subViews s [] res' s1 hnd (by intro v _; rfl) hp
      obtain ⟨l2, hlog2, hsuc2, -⟩ := copyInLoop_spec options res' options.subViews s1
      refine ⟨hne, ?_, ⟨l1 ++ l2, ?_, ?_⟩, hall⟩
      · rw [hres]; simpa using hkeys
      · rw [← hs2, hlog2, hlog1]; simp
      · rw [trace_append, htr1, hsuc2 hsucc, trace_copyIn_events]

theorem promoteSubViewsOp_some (bound : BoundAnalysis) (s : State) (op : LinalgOp)
    (options : LinalgOpInstancePromotionOptions) (layout : DataLayout) (newOp : LinalgOp)
    (h : (promoteSubViewsOp bound s op options layout).result = some newOp) :
    ∃ promoted s1 results,
      promoteSubViewsMap bound s options layout = (some promoted, s1) ∧
      promoted.length = options.subViews.length ∧
      newOp = { op with operands :=
        op.operands.enum.map (fun p => newOperand options promoted p.1 p.2) } ∧
      (promoteSubViewsOp bound s op options layout).op = newOp ∧
      results.length = promoted.length ∧
      (promoteSubViewsOp bound s op options layout).state.log =
        s1.log ++ [.setOperands newOp.operands, .setInsertionPointAfter] ++
          ((op.operands.enum.filter (fun p => needsWriteback op options p.1)).map
            (fun p => Event.copyOutFn (mapIndex promoted p.1).partialLocalView p.2 .success)) ++
          List.zipWith (fun pi r => Event.deallocationFn pi.2.fullLocalView r) promoted
            results := by
  unfold promoteSubViewsOp at h ⊢
  cases hm : promoteSubViewsMap bound s options layout with
  | mk opromoted s1 =>
    rw [hm] at h
    cases opromoted with
    | none => simp at h
    | some promoted =>
      simp only at h ⊢
      by_cases hlen : promoted.length = options.subViews.length
      · simp only [hlen, ne_eq, not_true_eq_false, if_false] at h ⊢
        rw [operandLoop_eq] at h ⊢
        simp only [List.nil_append] at h ⊢
        obtain ⟨l, hl, hs, -⟩ := copyOutLoop_spec options
          ((op.operands.enumFrom 0).filter (fun p => needsWriteback op options p.1) |>.map
            (fun p => (p.2, (mapIndex promoted p.1).partialLocalView)))
          { builder := { s1.builder with insertionPoint := .afterOp }
            log := s1.log ++ [.setOperands
              ((op.operands.enumFrom 0).map (fun p => newOperand options promoted p.1 p.2))] ++
                [.setInsertionPointAfter] }
        cases hc : copyOutLoop options
          ((op.operands.enumFrom 0).filter (fun p => needsWriteback op options p.1) |>.map
            (fun p => (p.2, (mapIndex promoted p.1).partialLocalView)))
          { builder := { s1.builder with insertionPoint := .afterOp }
            log := s1.log ++ [.setOperands
              ((op.operands.enumFrom 0).map (fun p => newOperand options promoted p.1 p.2))] ++
                [.setInsertionPointAfter] } with
        | mk r s4 =>
          rw [hc] at h hl hs
          cases r with
          | failure => simp at h
          | success =>
            simp only [Option.some.injEq] at h
            obtain ⟨results, hrlen, hrlog⟩ := deallocLoop_spec options promoted s4
            refine ⟨promoted, s1, results, rfl, hlen, ?_, ?_, hrlen, ?_⟩
            · rw [← h]; rfl
            · exact h
            · simp only [restoreInsertionPoint]
              rw [hrlog, hl, hs rfl, ← h]
              simp [List.enum]
      · simp [hlen] at h

/-! ## The entry point -/

theorem recordFlags_of_no_match (vUse : List Bool) (sel : List (Nat × SubViewOp))
    (m : List (Value × Bool)) (v : Value) (h : ∀ e ∈ sel, e.2.result ≠ v) :
    mapFind (recordFlags vUse sel m) v = mapFind m v := by
  induction sel generalizing m with
  | nil => rfl
  | cons e rest ih =>
    rw [recordFlags, ih _ (fun e' he' => h e' (List.mem_cons_of_mem _ he'))]
    exact mapFind_mapSet_ne _ _ _ _ (h e (List.mem_cons_self _ _))

theorem recordFlags_last (vUse : List Bool) (sel : List (Nat × SubViewOp))
    (m : List (Value × Bool)) (v : Value)
    (hsorted : (sel.map Prod.fst).Pairwise (· < ·)) (h : ∃ e ∈ sel, e.2.result = v) :
    ∃ e ∈ sel, e.2.result = v ∧ (∀ e' ∈ sel, e'.2.result = v → e'.1 ≤ e.1) ∧
      mapFind (recordFlags vUse sel m) v = some (vUse.getD e.1 false) := by
  induction sel generalizing m with
  | nil => simp at h
  | cons e rest ih =>
    simp only [List.map_cons, List.pairwise_cons] at hsorted
    rw [recordFlags]
    by_cases hrest : ∃ e' ∈ rest, e'.2.result = v
    · obtain ⟨e2, he2, hv2, hmax, hflag⟩ := ih
        (mapSet m e.2.result (vUse.getD e.1 false)) hsorted.2 hrest
      refine ⟨e2, List.mem_cons_of_mem _ he2, hv2, ?_, hflag⟩
      intro e' he' hv'
      rcases List.mem_cons.mp he' with he' | he'
      · subst he'
        exact Nat.le_of_lt (hsorted.1 _ (List.mem_map_of_mem Prod.fst he2))
      · exact hmax e' he' hv'
    · have hno : ∀ e' ∈ rest, e'.2.result ≠ v := by
        intro e' he' hv'
        exact hrest ⟨e', he', hv'⟩
      have hev : e.2.result = v := by
        obtain ⟨e', he', hv'⟩ := h
        rcases List.mem_cons.mp he' with he' | he'
        · subst he'; exact hv'
        · exact absurd hv' (hno e' he')
      refine ⟨e, List.mem_cons_self _ _, hev, ?_, ?_⟩
      · intro e' he' hv'
        rcases List.mem_cons.mp he' with he' | he'
        · subst he'; exact Nat.le_refl _
        · exact absurd hv' (hno e' he')
      · rw [recordFlags_of_no_match _ _ _ _ hno, ← hev]
        exact mapFind_mapSet_self _ _ _

theorem bitResize_getD (v : List Bool) (n : Nat) (t : Bool) (j : Nat) (hj : j < n) :
    (bitResize v n t).getD j false = v.getD j t := by
  unfold bitResize
  rw [List.getD_eq_getElem?_getD, List.getD_eq_getElem?_getD, List.getElem?_take_of_lt hj]
  by_cases hlen : j < v.length
  · rw [List.getElem?_append_left hlen]
    simp [List.getElem?_eq_getElem hlen]
  · rw [List.getElem?_append_right (by omega), List.getElem?_replicate]
    have h1 : j - v.length < n - v.length := by omega
    simp [h1, List.getElem?_eq_none (Nat.le_of_not_lt hlen)]

theorem construct_nodup (linalgOp : LinalgOp) (options : LinalgPromotionOptions) :
    ((LinalgOpInstancePromotionOptions.construct linalgOp options).subViews.map
      Prod.fst).Nodup := by
  rw [construct_subViews]
  exact selectedFrom_nodup options _ 0

theorem construct_mapFind (linalgOp : LinalgOp) (options : LinalgPromotionOptions) (i : Nat)
    (sv : SubViewOp) :
    mapFind (LinalgOpInstancePromotionOptions.construct linalgOp options).subViews i = some sv ↔
      ((linalgOp.operands[i]?).bind Value.getDefiningSubViewOp = some sv ∧
        requested options i = true) := by
  rw [construct_subViews]
  exact mapFind_selectedFrom options _ i sv

theorem construct_operand (linalgOp : LinalgOp) (options : LinalgPromotionOptions)
    (v : Nat × SubViewOp)
    (hv : v ∈ (LinalgOpInstancePromotionOptions.construct linalgOp options).subViews) :
    linalgOp.operands[v.1]? = some v.2.result := by
  have h := mapFind_of_mem_pairwise _ v.1 v.2 hv (construct_nodup linalgOp options)
  rw [construct_mapFind] at h
  cases ho : linalgOp.operands[v.1]? with
  | none => rw [ho] at h; simp at h
  | some x =>
    rw [ho] at h
    simp only [Option.some_bind] at h
    rw [getDefiningSubViewOp_result x v.2 h.1]

/-- C1 (as amended): after every successful rewrite by `promoteSubViews` the operand list has
the same length as before; an operand whose index is not in the promoted set is unchanged; an
operand `i` in the promoted set is replaced by the full view of `i`'s promotion info when the
flag recorded for its view value is set and by the partial view otherwise, where the flag
recorded for a view value is the caller's per-operand flag (vector entry, or the uniform
default when the vector is absent or too short) of the greatest selected operand index `j`
that holds this view value. -/
theorem rewritten_operands (bound : BoundAnalysis) (builder : OpBuilder) (linalgOp : LinalgOp)
    (options : LinalgPromotionOptions) (layout : DataLayout) (newOp : LinalgOp)
    (h : (promoteSubViews bound builder linalgOp options layout).result = some newOp) :
    ∃ promoted s1,
      promoteSubViewsMap bound ⟨builder, []⟩
        (LinalgOpInstancePromotionOptions.construct linalgOp options) layout
        = (some promoted, s1) ∧
      (promoteSubViews bound builder linalgOp options layout).op = newOp ∧
      newOp.operands.length = linalgOp.operands.length ∧
      ∀ (i : Nat) (v : Value), linalgOp.operands[i]? = some v →
        (mapFind (LinalgOpInstancePromotionOptions.construct linalgOp options).subViews i = none →
          newOp.operands[i]? = some v) ∧
        (∀ sv,
          mapFind (LinalgOpInstancePromotionOptions.construct linalgOp options).subViews i
            = some sv →
          ∃ info j, mapFind promoted i = some info ∧
            (mapFind (LinalgOpInstancePromotionOptions.construct linalgOp options).subViews
              j).isSome = true ∧
            linalgOp.operands[j]? = some v ∧
            (∀ k, (mapFind (LinalgOpInstancePromotionOptions.construct linalgOp
                options).subViews k).isSome = true →
              linalgOp.operands[k]? = some v → k ≤ j) ∧
            newOp.operands[i]? = some
              (if (options.useFullTileBuffers.getD []).getD j options.useFullTileBuffersDefault
               then info.fullLocalView else info.partialLocalView)) := by
  unfold promoteSubViews at h ⊢
  obtain ⟨promoted, s1, results, hmap, hlen, hnew, hop, -, -⟩ :=
    promoteSubViewsOp_some bound ⟨builder, []⟩ linalgOp
      (LinalgOpInstancePromotionOptions.construct linalgOp options) layout newOp h
  obtain ⟨-, -, -, hall⟩ := promoteSubViewsMap_some bound ⟨builder, []⟩
    (LinalgOpInstancePromotionOptions.construct linalgOp options) layout promoted s1
    (construct_nodup linalgOp options) hmap
  refine ⟨promoted, s1, hmap, hop, by rw [hnew]; simp [List.enum], ?_⟩
  intro i v hiv
  have hnewi : newOp.operands[i]? = some (newOperand
      (LinalgOpInstancePromotionOptions.construct linalgOp options) promoted i v) := by
    rw [hnew]
    simp only [List.getElem?_map, List.getElem?_enum, hiv, Option.map_some']
  refine ⟨?_, ?_⟩
  · intro hnone
    rw [hnewi]
    simp [newOperand, hnone]
  · intro sv hsv
    have hmem : (i, sv) ∈ (LinalgOpInstancePromotionOptions.construct linalgOp
        options).subViews := mapFind_some_mem _ _ _ hsv
    obtain ⟨-, hsome, -⟩ := hall (i, sv) hmem
    obtain ⟨info, hinfo⟩ := Option.isSome_iff_exists.mp hsome
    have hsvv : sv.result = v := by
      have := construct_operand linalgOp options (i, sv) hmem
      rw [hiv] at this
      exact (Option.some.inj this).symm
    obtain ⟨e, he, hev, hmax, hflag⟩ := recordFlags_last
      (bitResize (options.useFullTileBuffers.getD []) linalgOp.operands.length
        options.useFullTileBuffersDefault)
      (selectedFrom options 0 linalgOp.operands) [] v
      (selectedFrom_pairwise options _ 0) ⟨(i, sv), by rw [← construct_subViews]; exact hmem, hsvv⟩
    rw [← construct_useFullTileBuffers] at hflag
    rw [← construct_subViews] at he hmax
    have hej : linalgOp.operands[e.1]? = some v := by
      rw [construct_operand linalgOp options e he, hev]
    have hejlt : e.1 < linalgOp.operands.length := by
      by_contra hc
      rw [List.getElem?_eq_none (Nat.le_of_not_lt hc)] at hej
      cases hej
    refine ⟨info, e.1, hinfo, ?_, hej, ?_, ?_⟩
    · rw [mapFind_of_mem_pairwise _ e.1 e.2 he (construct_nodup linalgOp options)]
      rfl
    · intro k hk hkv
      obtain ⟨svk, hsvk⟩ := Option.isSome_iff_exists.mp hk
      have hmemk := mapFind_some_mem _ _ _ hsvk
      have hkr := construct_operand linalgOp options (k, svk) hmemk
      rw [hkv] at hkr
      exact hmax (k, svk) hmemk (Option.some.inj hkr).symm
    · rw [hnewi]
      simp only [newOperand, hsv, Option.isSome_some, if_true, mapGet, hflag, Option.getD_some,
        mapIndex, hinfo]
      rw [bitResize_getD _ _ _ _ hejlt]

/-- The operation of the scenarios: inputs A and B, output C, each a 4x4 view. -/
def threeViewsOp : LinalgOp :=
  sampleOp [(sampleView 0).result, (sampleView 1).result, (sampleView 2).result] 2

/-- The instance options the constructor builds for `threeViewsOp` and `sampleOptions`. -/
def threeViewsInstance : LinalgOpInstancePromotionOptions :=
  LinalgOpInstancePromotionOptions.construct threeViewsOp sampleOptions

/-- The rewrite of `threeViewsOp` with the default configuration. -/
def threeViewsRewrite : RewriteResult :=
  promoteSubViews sampleBound emptyBuilder threeViewsOp sampleOptions sampleLayout

/-- C1, witness: the three-view operation rewritten with the default configuration. -/
theorem rewritten_operands_witness :
    threeViewsRewrite.result = some threeViewsRewrite.op ∧
    ∃ promoted s1,
      promoteSubViewsMap sampleBound ⟨emptyBuilder, []⟩ threeViewsInstance sampleLayout
        = (some promoted, s1) ∧
      threeViewsRewrite.op = threeViewsRewrite.op ∧
      threeViewsRewrite.op.operands.length = threeViewsOp.operands.length ∧
      ∀ (i : Nat) (v : Value), threeViewsOp.operands[i]? = some v →
        (mapFind threeViewsInstance.subViews i = none →
          threeViewsRewrite.op.operands[i]? = some v) ∧
        (∀ sv, mapFind threeViewsInstance.subViews i = some sv →
          ∃ info j, mapFind promoted i = some info ∧
            (mapFind threeViewsInstance.subViews j).isSome = true ∧
            threeViewsOp.operands[j]? = some v ∧
            (∀ k, (mapFind threeViewsInstance.subViews k).isSome = true →
              threeViewsOp.operands[k]? = some v → k ≤ j) ∧
            threeViewsRewrite.op.operands[i]? = some
              (if (sampleOptions.useFullTileBuffers.getD []).getD j
                  sampleOptions.useFullTileBuffersDefault
               then info.fullLocalView else info.partialLocalView)) :=
  ⟨rfl, rewritten_operands sampleBound emptyBuilder threeViewsOp sampleOptions sampleLayout
    threeViewsRewrite.op rfl⟩

/-- An operation that uses the same view value at operand positions 0 and 1. -/
def sameViewTwiceOp : LinalgOp :=
  sampleOp [(sampleView 0).result, (sampleView 0).result] 1

/-- The caller asks for the full tile at operand 0 and for the partial view at operand 1. -/
def fullThenPartialOptions : LinalgPromotionOptions :=
  { sampleOptions with useFullTileBuffers := some [true, false] }

/-- The promotion map computed for `sameViewTwiceOp`. -/
def sameViewTwicePromoted : List (Nat × PromotionInfo) :=
  (promoteSubViewsMap sampleBound ⟨emptyBuilder, []⟩
    (LinalgOpInstancePromotionOptions.construct sameViewTwiceOp fullThenPartialOptions)
    sampleLayout).1.getD []

/-- C1 (as stated) fails: the same view value is used at operand positions 0 and 1, the
caller's flag for index 0 is true and index 0 is in the promoted set, yet the rewrite succeeds
and its operand 0 is the partial view of 0's promotion info, which differs from the full
view. -/
theorem rewritten_operands_same_view_twice :
    (fullThenPartialOptions.useFullTileBuffers.getD []).getD 0
        fullThenPartialOptions.useFullTileBuffersDefault = true ∧
      (mapFind (LinalgOpInstancePromotionOptions.construct sameViewTwiceOp
        fullThenPartialOptions).subViews 0).isSome = true ∧
      (promoteSubViews sampleBound emptyBuilder sameViewTwiceOp fullThenPartialOptions
          sampleLayout).result.map (fun op => op.operands[0]?) =
        some ((mapFind sameViewTwicePromoted 0).map (fun info => info.partialLocalView)) ∧
      (mapFind sameViewTwicePromoted 0).map (fun info => info.partialLocalView) ≠
        (mapFind sameViewTwicePromoted 0).map (fun info => info.fullLocalView) ∧
      (mapFind sameViewTwicePromoted 0).isSome = true := by
  refine ⟨rfl, rfl, rfl, ?_, rfl⟩
  decide

theorem selectedFrom_eq_filterMap (options : LinalgPromotionOptions) (l : List Value) (n : Nat) :
    selectedFrom options n l =
      (l.enumFrom n).filterMap (fun p =>
        if requested options p.1 then p.2.getDefiningSubViewOp.map (fun sv => (p.1, sv))
        else none) := by
  induction l generalizing n with
  | nil => rfl
  | cons v rest ih =>
    rw [selectedFrom_cons, List.enumFrom_cons, List.filterMap_cons, ih]
    by_cases hr : requested options n = true
    · cases hv : v.getDefiningSubViewOp <;> simp [hr, hv]
    · simp [hr]

/-- The copy-out invocations recorded in a log: source, destination, outcome. -/
def copyOutCalls (log : List Event) : List (Value × Value × LogicalResult) :=
  log.filterMap (fun e =>
    match e with
    | .copyOutFn src dst r => some (src, dst, r)
    | _ => none)

theorem copyOutCalls_append (l1 l2 : List Event) :
    copyOutCalls (l1 ++ l2) = copyOutCalls l1 ++ copyOutCalls l2 := by
  simp [copyOutCalls]

theorem copyOutCalls_promotionEvents (bound : BoundAnalysis)
    (options : LinalgOpInstancePromotionOptions) (promoted : List (Nat × PromotionInfo))
    (subViews : List (Nat × SubViewOp)) :
    copyOutCalls
      (subViews.flatMap (fun v => promotionEvents bound options v (mapIndex promoted v.1)))
      = [] := by
  induction subViews with
  | nil => rfl
  | cons v rest ih =>
    rw [List.flatMap_cons, copyOutCalls_append, ih]
    unfold promotionEvents
    by_cases hf : mapGet options.useFullTileBuffers v.2.result = true
    · cases hz : zeroOf v.2.elementType <;> simp [copyOutCalls, hf, hz]
    · simp [copyOutCalls, hf]

theorem copyOutCalls_copyIn (targets : List (Value × Value)) (r : LogicalResult) :
    copyOutCalls (targets.map (fun p => Event.copyInFn p.1 p.2 r)) = [] := by
  induction targets with
  | nil => rfl
  | cons p rest ih =>
    rw [List.map_cons, show ∀ (e : Event) (l : List Event), e :: l = [e] ++ l from
      fun _ _ => rfl, copyOutCalls_append, ih]
    rfl

theorem copyOutCalls_dealloc (promoted : List (Nat × PromotionInfo))
    (results : List LogicalResult) :
    copyOutCalls
      (List.zipWith (fun pi r => Event.deallocationFn pi.2.fullLocalView r) promoted results)
      = [] := by
  induction promoted generalizing results with
  | nil => rfl
  | cons pi rest ih =>
    cases results with
    | nil => rfl
    | cons r rs =>
      rw [List.zipWith_cons_cons, show ∀ (e : Event) (l : List Event), e :: l = [e] ++ l from
        fun _ _ => rfl, copyOutCalls_append, ih]
      rfl

theorem trace_of_trace_eq_self (l : List Event) (h : ∀ e ∈ l, e.isValueCreation = false) :
    trace l = l := by
  unfold trace
  rw [List.filter_eq_self]
  intro e he
  simp [h e he]

theorem trace_dealloc (promoted : List (Nat × PromotionInfo)) (results : List LogicalResult) :
    trace (List.zipWith (fun pi r => Event.deallocationFn pi.2.fullLocalView r) promoted
      results) =
      List.zipWith (fun pi r => Event.deallocationFn pi.2.fullLocalView r) promoted results := by
  induction promoted generalizing results with
  | nil => rfl
  | cons pi rest ih =>
    cases results with
    | nil => rfl
    | cons r rs =>
      rw [List.zipWith_cons_cons, show ∀ (e : Event) (l : List Event), e :: l = [e] ++ l from
        fun _ _ => rfl, trace_append, ih]
      rfl

theorem writebacks_eq (linalgOp : LinalgOp) (options : LinalgPromotionOptions)
    (promoted : List (Nat × PromotionInfo)) :
    (linalgOp.operands.enum.filter (fun p => needsWriteback linalgOp
        (LinalgOpInstancePromotionOptions.construct linalgOp options) p.1)).map
      (fun p => Event.copyOutFn (mapIndex promoted p.1).partialLocalView p.2 .success) =
    ((LinalgOpInstancePromotionOptions.construct linalgOp options).subViews.filter
        (fun v => decide (linalgOp.numDpsInputs ≤ v.1))).map
      (fun v => Event.copyOutFn (mapIndex promoted v.1).partialLocalView v.2.result
        .success) := by
  rw [construct_subViews, selectedFrom_eq_filterMap]
  rw [← List.filterMap_eq_map, ← List.filterMap_eq_map, List.filterMap_filter,
    List.filterMap_filter, List.filterMap_filterMap]
  apply List.filterMap_congr
  rintro ⟨i, x⟩ hp
  have hix : linalgOp.operands[i]? = some x := List.mk_mem_enum_iff_getElem?.mp hp
  simp only [needsWriteback, Function.comp]
  by_cases hr : requested options i = true
  · cases hv : x.getDefiningSubViewOp with
    | none =>
      have hnone : mapFind (LinalgOpInstancePromotionOptions.construct linalgOp
          options).subViews i = none := by
        cases hf : mapFind (LinalgOpInstancePromotionOptions.construct linalgOp
            options).subViews i with
        | none => rfl
        | some sv =>
          rw [construct_mapFind, hix] at hf
          simp [hv] at hf
      simp [hr, hv, hnone]
    | some sv =>
      have hsome : mapFind (LinalgOpInstancePromotionOptions.construct linalgOp
          options).subViews i = some sv := by
        rw [construct_mapFind, hix]
        exact ⟨by simpa using hv, hr⟩
      have hres := getDefiningSubViewOp_result x sv hv
      by_cases hn : linalgOp.numDpsInputs ≤ i
      · simp [hr, hv, hsome, hn, hres]
      · simp [hr, hv, hsome, hn]
  · have hnone : mapFind (LinalgOpInstancePromotionOptions.construct linalgOp
        options).subViews i = none := by
      cases hf : mapFind (LinalgOpInstancePromotionOptions.construct linalgOp
          options).subViews i with
      | none => rfl
      | some sv =>
        rw [construct_mapFind] at hf
        exact absurd hf.2 hr
    simp [hr, hnone]

/-- C2: in every successful rewrite the copy-out strategy is invoked exactly once for each
promoted operand whose index is at least the number of inputs and for no other operand; the
invocations come after the operand list has been replaced and the insertion point moved behind
the operation, in operand order, each with the partial view of the operand's promotion info as
source and the original view as destination, whichever view the operation itself was
given. -/
theorem write_back_schedule (bound : BoundAnalysis) (builder : OpBuilder)
    (linalgOp : LinalgOp) (options : LinalgPromotionOptions) (layout : DataLayout)
    (newOp : LinalgOp)
    (h : (promoteSubViews bound builder linalgOp options layout).result = some newOp) :
    ∃ promoted before after,
      (promoteSubViewsMap bound ⟨builder, []⟩
        (LinalgOpInstancePromotionOptions.construct linalgOp options) layout).1
        = some promoted ∧
      trace (promoteSubViews bound builder linalgOp options layout).state.log =
        before ++ [.setOperands newOp.operands, .setInsertionPointAfter] ++
          ((LinalgOpInstancePromotionOptions.construct linalgOp options).subViews.filter
            (fun v => decide (linalgOp.numDpsInputs ≤ v.1))).map
            (fun v => Event.copyOutFn (mapIndex promoted v.1).partialLocalView v.2.result
              .success) ++ after ∧
      copyOutCalls before = [] ∧ copyOutCalls after = [] ∧
      ((LinalgOpInstancePromotionOptions.construct linalgOp options).subViews.map
        Prod.fst).Pairwise (· < ·) ∧
      ∀ v ∈ (LinalgOpInstancePromotionOptions.construct linalgOp options).subViews,
        linalgOp.operands[v.1]? = some v.2.result ∧ (mapFind promoted v.1).isSome = true := by
  unfold promoteSubViews at h ⊢
  obtain ⟨promoted, s1, results, hmap, hlen, hnew, hop, hrlen, hlog⟩ :=
    promoteSubViewsOp_some bound ⟨builder, []⟩ linalgOp
      (LinalgOpInstancePromotionOptions.construct linalgOp options) layout newOp h
  obtain ⟨-, -, ⟨l, hl, htl⟩, hall⟩ := promoteSubViewsMap_some bound ⟨builder, []⟩
    (LinalgOpInstancePromotionOptions.construct linalgOp options) layout promoted s1
    (construct_nodup linalgOp options) hmap
  simp only [List.nil_append] at hl
  refine ⟨promoted, trace s1.log,
    List.zipWith (fun pi r => Event.deallocationFn pi.2.fullLocalView r) promoted results,
    by rw [hmap], ?_, ?_, copyOutCalls_dealloc _ _, ?_, ?_⟩
  · rw [hlog, writebacks_eq, trace_append, trace_append, trace_append]
    congr 1
    · congr 1
      rw [trace_of_trace_eq_self]
      intro e he
      simp only [List.mem_map] at he
      obtain ⟨v, -, rfl⟩ := he
      rfl
    · exact trace_dealloc _ _
  · rw [hl, htl, copyOutCalls_append, copyOutCalls_promotionEvents, copyOutCalls_copyIn]
    rfl
  · rw [construct_subViews]
    exact selectedFrom_pairwise options _ 0
  · intro v hv
    exact ⟨construct_operand linalgOp options v hv, (hall v hv).2.1⟩

/-- The promotion map computed for `threeViewsOp`. -/
def threeViewsPromoted : List (Nat × PromotionInfo) :=
  (promoteSubViewsMap sampleBound ⟨emptyBuilder, []⟩ threeViewsInstance sampleLayout).1.getD []

/-- C2, witness: for the operation with inputs A, B and output C, all promoted, there is
exactly one write-back, from the partial view of C's promotion info to C. -/
theorem write_back_schedule_witness :
    threeViewsRewrite.result = some threeViewsRewrite.op ∧
    copyOutCalls threeViewsRewrite.state.log =
      [((mapIndex threeViewsPromoted 2).partialLocalView, (sampleView 2).result, .success)] ∧
    ∃ promoted before after,
      (promoteSubViewsMap sampleBound ⟨emptyBuilder, []⟩ threeViewsInstance sampleLayout).1
        = some promoted ∧
      trace threeViewsRewrite.state.log =
        before ++ [.setOperands threeViewsRewrite.op.operands, .setInsertionPointAfter] ++
          (threeViewsInstance.subViews.filter
            (fun v => decide (threeViewsOp.numDpsInputs ≤ v.1))).map
            (fun v => Event.copyOutFn (mapIndex promoted v.1).partialLocalView v.2.result
              .success) ++ after ∧
      copyOutCalls before = [] ∧ copyOutCalls after = [] ∧
      (threeViewsInstance.subViews.map Prod.fst).Pairwise (· < ·) ∧
      ∀ v ∈ threeViewsInstance.subViews,
        threeViewsOp.operands[v.1]? = some v.2.result ∧
          (mapFind promoted v.1).isSome = true :=
  ⟨rfl, rfl, write_back_schedule sampleBound emptyBuilder threeViewsOp sampleOptions
    sampleLayout threeViewsRewrite.op rfl⟩

/-- The copy-in invocations recorded in a log: source, destination, outcome. -/
def copyInCalls (log : List Event) : List (Value × Value × LogicalResult) :=
  log.filterMap (fun e =>
    match e with
    | .copyInFn src dst r => some (src, dst, r)
    | _ => none)

/-- The fills recorded in a log: fill value and filled view. -/
def fillsOf (log : List Event) : List (Value × Value) :=
  log.filterMap (fun e =>
    match e with
    | .create (.linalgFill value output) => some (value, output)
    | _ => none)

theorem fillsOf_append (l1 l2 : List Event) : fillsOf (l1 ++ l2) = fillsOf l1 ++ fillsOf l2 := by
  simp [fillsOf]

theorem fillsOf_trace (l : List Event) : fillsOf (trace l) = fillsOf l := by
  induction l with
  | nil => rfl
  | cons e rest ih =>
    rw [show e :: rest = [e] ++ rest from rfl, trace_append, fillsOf_append, fillsOf_append, ih]
    congr 1
    cases e with
    | create op => cases op <;> rfl
    | _ => rfl

theorem fillsOf_promotionEvents (bound : BoundAnalysis)
    (options : LinalgOpInstancePromotionOptions) (promoted : List (Nat × PromotionInfo))
    (subViews : List (Nat × SubViewOp)) :
    fillsOf (subViews.flatMap (fun v => promotionEvents bound options v (mapIndex promoted v.1)))
      = subViews.filterMap (fun v =>
          if mapGet options.useFullTileBuffers v.2.result then
            (zeroOf v.2.elementType).map (fun z => (z, (mapIndex promoted v.1).fullLocalView))
          else none) := by
  induction subViews with
  | nil => rfl
  | cons v rest ih =>
    rw [List.flatMap_cons, fillsOf_append, ih, List.filterMap_cons]
    unfold promotionEvents
    by_cases hf : mapGet options.useFullTileBuffers v.2.result = true
    · cases hz : zeroOf v.2.elementType <;> simp [fillsOf, hf, hz]
    · simp [fillsOf, hf]

/-- C10: for every selected view reached by the first loop of the tile promoter, a fill of the
whole full view is emitted exactly when the view's use-full-buffer flag is set; the fill value
is the float zero for a float element type, the integer zero for an integer element type and a
complex value created from a zero real and a zero imaginary part for a complex element type;
when the flag of some selected view is set and its element type is of none of these
categories, the promotion fails. -/
theorem zero_fill_of_full_tiles (bound : BoundAnalysis) (s : State)
    (options : LinalgOpInstancePromotionOptions) (layout : DataLayout)
    (hnd : (options.subViews.map Prod.fst).Nodup) :
    (∀ w, zeroOf (.float w) = some (.constant (.float (.float w) 0))) ∧
    (∀ w, zeroOf (.integer w) = some (.constant (.integer (.integer w) 0))) ∧
    (∀ w, zeroOf (.complexOfFloat w) =
      some (.complexCreate (.complexOfFloat w) (.constant (.float (.float w) 0))
        (.constant (.float (.float w) 0)))) ∧
    (∀ w, zeroOf (.complexOfInteger w) =
      some (.complexCreate (.complexOfInteger w) (.constant (.integer (.integer w) 0))
        (.constant (.integer (.integer w) 0)))) ∧
    zeroOf .index = none ∧ (∀ id, zeroOf (.other id) = none) ∧
    ((∃ v ∈ options.subViews, mapGet options.useFullTileBuffers v.2.result = true ∧
        zeroOf v.2.elementType = none) →
      (promoteSubViewsMap bound s options layout).1 = none) ∧
    (∀ promoted s1,
      promoteLoop bound options layout options.subViews s [] = (some promoted, s1) →
      ∃ l, s1.log = s.log ++ l ∧
        fillsOf l = options.subViews.filterMap (fun v =>
          if mapGet options.useFullTileBuffers v.2.result then
            (zeroOf v.2.elementType).map (fun z => (z, (mapIndex promoted v.1).fullLocalView))
          else none) ∧
        (∀ v ∈ options.subViews, (mapFind promoted v.1).isSome = true ∧
          (mapGet options.useFullTileBuffers v.2.result = true →
            (zeroOf v.2.elementType).isSome = true)) ∧
        ∃ l2, (promoteSubViewsMap bound s options layout).2.log = s1.log ++ l2 ∧
          fillsOf l2 = []) := by
  refine ⟨fun _ => rfl, fun _ => rfl, fun _ => rfl, fun _ => rfl, rfl, fun _ => rfl, ?_, ?_⟩
  · intro hex
    unfold promoteSubViewsMap
    by_cases hemp : options.subViews.isEmpty = true
    · simp [hemp]
    · have hnone := promoteLoop_none_of_no_zero bound options layout options.subViews s [] hex
      cases hp : promoteLoop bound options layout options.subViews s [] with
      | mk ores s1 =>
        rw [hp] at hnone
        simp only at hnone
        subst hnone
        simp [hemp]
  · intro promoted s1 hp
    obtain ⟨entries, l, -, -, hlog, htr, hall⟩ := promoteLoop_some bound options layout
      options.subViews s [] promoted s1 hnd (by intro v _; rfl) hp
    refine ⟨l, hlog, ?_, fun v hv => ⟨(hall v hv).2.1, (hall v hv).2.2⟩, ?_⟩
    · rw [← fillsOf_trace, htr, fillsOf_promotionEvents]
    · by_cases hne : options.subViews = []
      · refine ⟨[], ?_, rfl⟩
        unfold promoteSubViewsMap
        rw [hne] at hp
        rw [promoteLoop_nil] at hp
        simp only [Prod.mk.injEq] at hp
        simp [hne, hp.2]
      · rw [promoteSubViewsMap_of_first_pass bound s options layout promoted s1 hne hp]
        obtain ⟨l2, hl2, hs, hf⟩ := copyInLoop_spec options promoted options.subViews s1
        refine ⟨l2, hl2, ?_⟩
        cases hr : (copyInLoop options promoted options.subViews s1).1 with
        | success =>
          rw [hs hr]
          simp [fillsOf]
        | failure =>
          obtain ⟨pre, p, post, -, hl'⟩ := hf hr
          rw [hl']
          simp [fillsOf]

/-- The operation of the second scenario: inputs A and B are 4x4 views, the output C has a
dynamic dimension 0 (bounded by 8) and a static dimension 1 of size 4. -/
def dynamicOutputOp : LinalgOp :=
  sampleOp [(sampleView 0).result, (sampleView 1).result, (dynamicView 2).result] 2

/-- Full-buffer use enabled for operand 2 only. -/
def fullTileForOutputOptions : LinalgPromotionOptions :=
  { sampleOptions with useFullTileBuffers := some [false, false, true] }

/-- The instance options of the second scenario. -/
def dynamicOutputInstance : LinalgOpInstancePromotionOptions :=
  LinalgOpInstancePromotionOptions.construct dynamicOutputOp fullTileForOutputOptions

/-- The first loop of the tile promoter in the second scenario. -/
def dynamicOutputFirstPass : Option (List (Nat × PromotionInfo)) × State :=
  promoteLoop sampleBound dynamicOutputInstance sampleLayout dynamicOutputInstance.subViews
    ⟨emptyBuilder, []⟩ []

/-- The promotion map of the second scenario. -/
def dynamicOutputPromoted : List (Nat × PromotionInfo) :=
  dynamicOutputFirstPass.1.getD []

theorem dynamicOutputInstance_nodup : (dynamicOutputInstance.subViews.map Prod.fst).Nodup :=
  construct_nodup dynamicOutputOp fullTileForOutputOptions

/-- C10, witness: the output with a dynamic dimension bounded by 8 and a static dimension 4,
flagged to use the full buffer, gets an 8x4 full view that is filled with the float zero, and
a partial view of the actual extent (5) by 4; the inputs are not filled. -/
theorem zero_fill_of_full_tiles_witness :
    (dynamicOutputInstance.subViews.map Prod.fst).Nodup ∧
    dynamicOutputFirstPass = (some dynamicOutputPromoted, dynamicOutputFirstPass.2) ∧
    fillsOf dynamicOutputFirstPass.2.log =
      [(.constant (.float (.float 32) 0), (mapIndex dynamicOutputPromoted 2).fullLocalView)] ∧
    Value.extents sampleEnv (mapIndex dynamicOutputPromoted 2).fullLocalView = [8, 4] ∧
    Value.extents sampleEnv (mapIndex dynamicOutputPromoted 2).partialLocalView = [5, 4] ∧
    ∃ l, dynamicOutputFirstPass.2.log = [] ++ l ∧
      fillsOf l = dynamicOutputInstance.subViews.filterMap (fun v =>
        if mapGet dynamicOutputInstance.useFullTileBuffers v.2.result then
          (zeroOf v.2.elementType).map
            (fun z => (z, (mapIndex dynamicOutputPromoted v.1).fullLocalView))
        else none) ∧
      (∀ v ∈ dynamicOutputInstance.subViews,
        (mapFind dynamicOutputPromoted v.1).isSome = true ∧
        (mapGet dynamicOutputInstance.useFullTileBuffers v.2.result = true →
          (zeroOf v.2.elementType).isSome = true)) ∧
      ∃ l2, (promoteSubViewsMap sampleBound ⟨emptyBuilder, []⟩ dynamicOutputInstance
          sampleLayout).2.log = dynamicOutputFirstPass.2.log ++ l2 ∧
        fillsOf l2 = [] :=
  ⟨dynamicOutputInstance_nodup, rfl, rfl, by decide, by decide,
    (zero_fill_of_full_tiles sampleBound ⟨emptyBuilder, []⟩ dynamicOutputInstance sampleLayout
      dynamicOutputInstance_nodup).2.2.2.2.2.2.2 dynamicOutputPromoted dynamicOutputFirstPass.2
      rfl⟩

/-- C9 (as amended): when the first loop of the tile promoter has succeeded, the copy-in
strategy is invoked for the selected operands that are marked for copy-in, in operand order,
each time with the original view as source and the partial view of the operand's promotion
info as destination, and it stops after the first invocation that reports failure: exactly
once for each such operand when no invocation fails (and then the tile promoter succeeds),
otherwise exactly once for each such operand up to and including the failing one (and then the
tile promoter fails); every copy-in invocation comes after the allocation and the fill of
every selected operand. -/
theorem copy_in_schedule (bound : BoundAnalysis) (s : State)
    (options : LinalgOpInstancePromotionOptions) (layout : DataLayout)
    (promoted : List (Nat × PromotionInfo)) (s1 : State)
    (hnd : (options.subViews.map Prod.fst).Nodup) (hne : options.subViews ≠ [])
    (hfirst : promoteLoop bound options layout options.subViews s [] = (some promoted, s1)) :
    ∃ l1 l2,
      s1.log = s.log ++ l1 ∧
      (promoteSubViewsMap bound s options layout).2.log = s.log ++ l1 ++ l2 ∧
      trace l1 =
        options.subViews.flatMap
          (fun v => promotionEvents bound options v (mapIndex promoted v.1)) ∧
      copyInCalls l1 = [] ∧
      (∀ v ∈ options.subViews, (mapFind promoted v.1).isSome = true ∧
        IsPartialViewOf v.2 (mapIndex promoted v.1)) ∧
      (((promoteSubViewsMap bound s options layout).1 = some promoted ∧
          l2 = (options.subViews.filter
              (fun v => options.operandsNumbersToCopyIn.contains v.1)).map
            (fun v => Event.copyInFn v.2.result (mapIndex promoted v.1).partialLocalView
              .success)) ∨
        ((promoteSubViewsMap bound s options layout).1 = none ∧
          ∃ pre v post,
            options.subViews.filter (fun v => options.operandsNumbersToCopyIn.contains v.1)
              = pre ++ v :: post ∧
            l2 = pre.map
                (fun v => Event.copyInFn v.2.result (mapIndex promoted v.1).partialLocalView
                  .success) ++
              [.copyInFn v.2.result (mapIndex promoted v.1).partialLocalView .failure])) := by
  obtain ⟨entries, l1, -, -, hlog1, htr1, hall⟩ := promoteLoop_some bound options layout
    options.subViews s [] promoted s1 hnd (by intro v _; rfl) hfirst
  obtain ⟨l2, hlog2, hs, hf⟩ := copyInLoop_spec options promoted options.subViews s1
  have hfilter : options.subViews.filter
      (fun v => (mapFind promoted v.1).isSome && options.operandsNumbersToCopyIn.contains v.1)
      = options.subViews.filter (fun v => options.operandsNumbersToCopyIn.contains v.1) := by
    apply List.filter_congr
    intro v hv
    simp [(hall v hv).2.1]
  have hcalls : copyInCalls l1 = [] := by
    have h1 : ∀ l : List Event, copyInCalls (trace l) = copyInCalls l := by
      intro l
      induction l with
      | nil => rfl
      | cons e rest ih =>
        rw [show e :: rest = [e] ++ rest from rfl, trace_append]
        simp only [copyInCalls, List.filterMap_append] at ih ⊢
        rw [ih]
        congr 1
        cases e with
        | create op => cases op <;> rfl
        | _ => rfl
    rw [← h1, htr1]
    clear htr1 hall hfilter hs hf hlog2 hlog1 hfirst hne hnd
    induction options.subViews with
    | nil => rfl
    | cons v rest ih =>
      rw [List.flatMap_cons]
      simp only [copyInCalls, List.filterMap_append] at ih ⊢
      rw [ih]
      unfold promotionEvents
      by_cases hfl : mapGet options.useFullTileBuffers v.2.result = true
      · cases hz : zeroOf v.2.elementType <;> simp [hfl, hz]
      · simp [hfl]
  refine ⟨l1, l2, hlog1, ?_, htr1, hcalls, fun v hv => ⟨(hall v hv).2.1, (hall v hv).1⟩, ?_⟩
  · rw [promoteSubViewsMap_of_first_pass bound s options layout promoted s1 hne hfirst]
    simp only
    rw [hlog2, hlog1]
  · rw [promoteSubViewsMap_of_first_pass bound s options layout promoted s1 hne hfirst]
    simp only
    cases hr : (copyInLoop options promoted options.subViews s1).1 with
    | success =>
      left
      refine ⟨by simp, ?_⟩
      rw [hs hr]
      unfold copyInTargets
      rw [hfilter, List.map_map]
      rfl
    | failure =>
      right
      refine ⟨by simp, ?_⟩
      obtain ⟨pre, p, post, hpre, hl'⟩ := hf hr
      unfold copyInTargets at hpre
      rw [hfilter] at hpre
      obtain ⟨pre', rest', hsplit, hpre', hrest'⟩ := List.map_eq_append_iff.mp hpre
      obtain ⟨v, post', hrest'', hv, hpost'⟩ := List.map_eq_cons_iff.mp hrest'
      refine ⟨pre', v, post', by rw [hsplit, hrest''], ?_⟩
      rw [hl', ← hpre', ← hv, List.map_map]
      rfl

/-- The first loop of the tile promoter for `threeViewsOp`. -/
def threeViewsFirstPass : Option (List (Nat × PromotionInfo)) × State :=
  promoteLoop sampleBound threeViewsInstance sampleLayout threeViewsInstance.subViews
    ⟨emptyBuilder, []⟩ []

theorem threeViewsInstance_nodup : (threeViewsInstance.subViews.map Prod.fst).Nodup :=
  construct_nodup threeViewsOp sampleOptions

/-- C9, witness: the three views of `threeViewsOp` are all marked for copy-in and each is
copied into the partial view of its promotion info. -/
theorem copy_in_schedule_witness :
    (threeViewsInstance.subViews.map Prod.fst).Nodup ∧
    threeViewsInstance.subViews ≠ [] ∧
    threeViewsFirstPass = (some threeViewsPromoted, threeViewsFirstPass.2) ∧
    copyInCalls
        (promoteSubViewsMap sampleBound ⟨emptyBuilder, []⟩ threeViewsInstance
          sampleLayout).2.log =
      [((sampleView 0).result, (mapIndex threeViewsPromoted 0).partialLocalView, .success),
       ((sampleView 1).result, (mapIndex threeViewsPromoted 1).partialLocalView, .success),
       ((sampleView 2).result, (mapIndex threeViewsPromoted 2).partialLocalView, .success)] ∧
    ∃ l1 l2,
      threeViewsFirstPass.2.log = [] ++ l1 ∧
      (promoteSubViewsMap sampleBound ⟨emptyBuilder, []⟩ threeViewsInstance
        sampleLayout).2.log = [] ++ l1 ++ l2 ∧
      trace l1 =
        threeViewsInstance.subViews.flatMap
          (fun v => promotionEvents sampleBound threeViewsInstance v
            (mapIndex threeViewsPromoted v.1)) ∧
      copyInCalls l1 = [] ∧
      (∀ v ∈ threeViewsInstance.subViews, (mapFind threeViewsPromoted v.1).isSome = true ∧
        IsPartialViewOf v.2 (mapIndex threeViewsPromoted v.1)) ∧
      (((promoteSubViewsMap sampleBound ⟨emptyBuilder, []⟩ threeViewsInstance
            sampleLayout).1 = some threeViewsPromoted ∧
          l2 = (threeViewsInstance.subViews.filter
              (fun v => threeViewsInstance.operandsNumbersToCopyIn.contains v.1)).map
            (fun v => Event.copyInFn v.2.result
              (mapIndex threeViewsPromoted v.1).partialLocalView .success)) ∨
        ((promoteSubViewsMap sampleBound ⟨emptyBuilder, []⟩ threeViewsInstance
            sampleLayout).1 = none ∧
          ∃ pre v post,
            threeViewsInstance.subViews.filter
                (fun v => threeViewsInstance.operandsNumbersToCopyIn.contains v.1)
              = pre ++ v :: post ∧
            l2 = pre.map
                (fun v => Event.copyInFn v.2.result
                  (mapIndex threeViewsPromoted v.1).partialLocalView .success) ++
              [.copyInFn v.2.result (mapIndex threeViewsPromoted v.1).partialLocalView
                .failure])) :=
  ⟨threeViewsInstance_nodup, by decide, rfl, rfl,
    copy_in_schedule sampleBound ⟨emptyBuilder, []⟩ threeViewsInstance sampleLayout
      threeViewsPromoted threeViewsFirstPass.2 threeViewsInstance_nodup (by decide) rfl⟩

/-- An operation with two views, the first an input and the second an output. -/
def twoViewsOp : LinalgOp :=
  sampleOp [(sampleView 0).result, (sampleView 1).result] 1

/-- A configuration whose copy-in strategy reports failure. -/
def failingCopyInOptions : LinalgPromotionOptions :=
  { sampleOptions with copyInFn := some (fun b _ _ => (.failure, b)) }

/-- The instance options for `twoViewsOp` with the failing copy-in strategy. -/
def failingCopyInInstance : LinalgOpInstancePromotionOptions :=
  LinalgOpInstancePromotionOptions.construct twoViewsOp failingCopyInOptions

/-- The promotion map of the first loop for `failingCopyInInstance`. -/
def failingCopyInPromoted : List (Nat × PromotionInfo) :=
  (promoteLoop sampleBound failingCopyInInstance sampleLayout failingCopyInInstance.subViews
    ⟨emptyBuilder, []⟩ []).1.getD []

/-- C9 (as stated) fails: the first loop succeeds for both selected operands, so the promotion
reaches the second loop; operand 1 is selected and marked for copy-in; yet the copy-in
strategy, which reports failure, is invoked for operand 0 only. -/
theorem copy_in_stops_at_first_failure :
    (promoteLoop sampleBound failingCopyInInstance sampleLayout failingCopyInInstance.subViews
      ⟨emptyBuilder, []⟩ []).1.isSome = true ∧
    (mapFind failingCopyInInstance.subViews 1).isSome = true ∧
    1 ∈ failingCopyInInstance.operandsNumbersToCopyIn ∧
    copyInCalls
        (promoteSubViewsMap sampleBound ⟨emptyBuilder, []⟩ failingCopyInInstance
          sampleLayout).2.log =
      [((sampleView 0).result, (mapIndex failingCopyInPromoted 0).partialLocalView,
        .failure)] := by
  refine ⟨rfl, rfl, by decide, rfl⟩

/-! ## Run-time memory

The round-trip law speaks about the contents of memory when the emitted operations are
executed.  The source only emits the operations; their meaning is taken from the
specification: a view is a window into a backing buffer, a copy moves the elements of the
source view into the destination view element by element, a fill stores one value in every
element of a view, and the partial view is the window of the full view at offset zero. -/

/-- A backing buffer: one that exists before the transformation, or one that the
transformation allocates. -/
inductive Root where
  | external (id : Nat)
  | allocated (id : Nat)
deriving DecidableEq, Repr

/-- A memory cell: an element of a backing buffer, addressed by its index in that buffer. -/
abbrev Cell := Root × List Int

/-- A memory: the value stored in every cell. -/
abbrev Memory := Cell → Int

/-- Modelled from the spec: the addressing of `memref.subview` is declared outside this file;
the index in the source of a rank-reducing view has the dropped dimensions pinned at 0. -/
def expandDims : List Bool → List Int → List Int
  | [], idx => idx
  | true :: dropped, idx => 0 :: expandDims dropped idx
  | false :: dropped, i :: idx => i :: expandDims dropped idx
  | false :: _, [] => []

/-- Modelled from the spec: the addressing of `memref.subview` is declared outside this file;
a view is described by an offset, a size and a stride per dimension, so element `i` of a
dimension is element `offset + i * stride` of the source. -/
def strideIndex : List Int → List Int → List Int → List Int
  | o :: offsets, s :: strides, i :: idx => (o + i * s) :: strideIndex offsets strides idx
  | _, _, _ => []

/-- Modelled from the spec: the memref operations are declared outside this file; a view is a
window into a backing buffer, which is the buffer of its source. -/
def Value.root : Value → Root
  | .external id => .external id
  | .alloc id _ _ _ => .allocated id
  | .alloca id _ _ _ => .allocated id
  | .view _ source _ _ => Value.root source
  | .subview _ source _ _ _ _ _ => Value.root source
  | _ => .external 0

/-- Modelled from the spec: the memref operations are declared outside this file.  The cell
that holds element `idx` of a memref value: a buffer defined outside and an allocation are
their own backing buffers; a view presents its buffer as an array of the requested shape
starting at offset 0; a subview is the window of its source given by its offsets and
strides. -/
def Value.cell (env : Env) : Value → List Int → Cell
  | .external id, idx => (.external id, idx)
  | .alloc id _ _ _, idx => (.allocated id, idx)
  | .alloca id _ _ _, idx => (.allocated id, idx)
  | .view _ source _ _, idx => (Value.root source, idx)
  | .subview _ source offsets _ strides droppedDims _, idx =>
    Value.cell env source
      (strideIndex (offsets.map (OpFoldResult.eval env)) (strides.map (OpFoldResult.eval env))
        (expandDims droppedDims idx))
  | _, idx => (.external 0, idx)

theorem Value.cell_root (env : Env) :
    ∀ (v : Value) (idx : List Int), (Value.cell env v idx).1 = Value.root v
  | .subview _ source _ _ _ _ _, idx => by
    simp only [Value.cell, Value.root]
    exact Value.cell_root env source _
  | .external _, _ => rfl
  | .constant _, _ => rfl
  | .muli _ _, _ => rfl
  | .complexCreate _ _ _, _ => rfl
  | .dim _ _, _ => rfl
  | .alloc _ _ _ _, _ => rfl
  | .alloca _ _ _ _, _ => rfl
  | .view _ _ _ _, _ => rfl

/-- All indices within the given extents, in row-major order. -/
def indexBox : List Int → List (List Int)
  | [] => [[]]
  | n :: extents =>
    (List.range n.toNat).flatMap (fun i => (indexBox extents).map (fun idx => (i : Int) :: idx))

/-- Modelled from the spec: `linalg.copy` and `memref.copy` are declared outside this file; the
copy is an element-wise copy from the source view to the destination view (the values are read
from the memory before the copy). -/
def copyCells (env : Env) (src dst : Value) (m : Memory) : Memory :=
  (indexBox (Value.extents env src)).foldl
    (fun acc idx => Function.update acc (Value.cell env dst idx) (m (Value.cell env src idx))) m

/-- Modelled from the spec: `linalg.fill` is declared outside this file; a fill stores the
value in every element of the view. -/
def fillCells (env : Env) (value dst : Value) (m : Memory) : Memory :=
  (indexBox (Value.extents env dst)).foldl
    (fun acc idx => Function.update acc (Value.cell env dst idx) (Value.eval env value)) m

/-- Modelled from the spec: the operations are declared outside this file.  The effect of one
emitted operation on memory: creating a value (a constant, an allocation, a view, ...),
releasing a buffer and a barrier leave the contents of all cells as they are. -/
def Op.exec (env : Env) : Op → Memory → Memory
  | .linalgFill fillVal output, m => fillCells env fillVal output m
  | .linalgCopy source target, m => copyCells env source target m
  | .memrefCopy source target, m => copyCells env source target m
  | _, m => m

/-- Execute a list of operations in order. -/
def runOps (env : Env) : List Op → Memory → Memory
  | [], m => m
  | op :: rest, m => runOps env rest (Op.exec env op m)

/-- The operations inserted at a given insertion point, in creation order. -/
def opsAt (ip : InsertionPoint) (created : List (InsertionPoint × Op)) : List Op :=
  (created.filter (fun p => p.1 = ip)).map Prod.snd

/-- Modelled from the spec: the execution of the emitted program around the promoted
operation, whose effect on memory is `opSem`: first what was inserted at the start of the
function, then what was inserted at the initial insertion point (in front of the operation),
then the operation, then what was inserted behind it. -/
def runProgram (env : Env) (opSem : Memory → Memory) (created : List (InsertionPoint × Op))
    (m : Memory) : Memory :=
  runOps env (opsAt .afterOp created)
    (opSem (runOps env (opsAt .initial created) (runOps env (opsAt .funcEntry created) m)))

theorem runOps_append (env : Env) (l1 l2 : List Op) (m : Memory) :
    runOps env (l1 ++ l2) m = runOps env l2 (runOps env l1 m) := by
  induction l1 generalizing m with
  | nil => rfl
  | cons op rest ih => simp [runOps, ih]

/-- Operations that write to memory. -/
def Op.isEffectful : Op → Bool
  | .linalgFill _ _ => true
  | .linalgCopy _ _ => true
  | .memrefCopy _ _ => true
  | _ => false

theorem Op.exec_of_not_effectful (env : Env) (op : Op) (m : Memory)
    (h : op.isEffectful = false) : Op.exec env op m = m := by
  cases op <;> simp_all [Op.isEffectful, Op.exec]

theorem runOps_filter_effectful (env : Env) (ops : List Op) (m : Memory) :
    runOps env (ops.filter Op.isEffectful) m = runOps env ops m := by
  induction ops generalizing m with
  | nil => rfl
  | cons op rest ih =>
    by_cases h : op.isEffectful = true
    · simp [List.filter_cons, h, runOps, ih]
    · have h' : op.isEffectful = false := by simpa using h
      simp [List.filter_cons, h', runOps, ih, Op.exec_of_not_effectful env op m h']

theorem foldl_update_frame {ι : Type} (l : List ι) (key : ι → Cell) (val : ι → Int)
    (m : Memory) (c : Cell) (h : ∀ i ∈ l, key i ≠ c) :
    (l.foldl (fun acc i => Function.update acc (key i) (val i)) m) c = m c := by
  induction l generalizing m with
  | nil => rfl
  | cons i rest ih =>
    rw [List.foldl_cons, ih _ (fun j hj => h j (List.mem_cons_of_mem _ hj))]
    exact Function.update_noteq (h i (List.mem_cons_self _ _)).symm _ _

theorem foldl_update_mem {ι : Type} (l : List ι) (key : ι → Cell) (val : ι → Int)
    (m : Memory) (c : Cell) :
    (l.foldl (fun acc i => Function.update acc (key i) (val i)) m) c = m c ∨
      ∃ i ∈ l, key i = c ∧
        (l.foldl (fun acc i => Function.update acc (key i) (val i)) m) c = val i := by
  induction l generalizing m with
  | nil => exact Or.inl rfl
  | cons i rest ih =>
    rw [List.foldl_cons]
    rcases ih (Function.update m (key i) (val i)) with h | ⟨j, hj, hk, hv⟩
    · by_cases hc : key i = c
      · right
        refine ⟨i, List.mem_cons_self _ _, hc, ?_⟩
        rw [h, ← hc]
        exact Function.update_same _ _ _
      · left
        rw [h]
        exact Function.update_noteq (Ne.symm hc) _ _
    · exact Or.inr ⟨j, List.mem_cons_of_mem _ hj, hk, hv⟩

theorem foldl_update_hit {ι : Type} (l : List ι) (key : ι → Cell) (val : ι → Int)
    (m : Memory) (c : Cell) (h : ∃ i ∈ l, key i = c) :
    ∃ i ∈ l, key i = c ∧
      (l.foldl (fun acc i => Function.update acc (key i) (val i)) m) c = val i := by
  induction l generalizing m with
  | nil => simp at h
  | cons i rest ih =>
    rw [List.foldl_cons]
    by_cases hrest : ∃ j ∈ rest, key j = c
    · obtain ⟨j, hj, hk, hv⟩ := ih (Function.update m (key i) (val i)) hrest
      exact ⟨j, List.mem_cons_of_mem _ hj, hk, hv⟩
    · have hno : ∀ j ∈ rest, key j ≠ c := fun j hj hk => hrest ⟨j, hj, hk⟩
      have hi : key i = c := by
        obtain ⟨j, hj, hk⟩ := h
        rcases List.mem_cons.mp hj with hj | hj
        · subst hj; exact hk
        · exact absurd hk (hno j hj)
      refine ⟨i, List.mem_cons_self _ _, hi, ?_⟩
      rw [foldl_update_frame rest key val _ c hno, ← hi]
      exact Function.update_same _ _ _

/-! ## The emitted operations and the log -/

/-- The operations that write to memory among the created ones, with their insertion
points. -/
def memOps (created : List (InsertionPoint × Op)) : List (InsertionPoint × Op) :=
  created.filter (fun p => p.2.isEffectful)

theorem memOps_append (l1 l2 : List (InsertionPoint × Op)) :
    memOps (l1 ++ l2) = memOps l1 ++ memOps l2 := by
  simp [memOps]

theorem OpBuilder.memOps_create (b : OpBuilder) (op : Op) :
    memOps (b.create op).created =
      memOps b.created ++ (if op.isEffectful then [(b.insertionPoint, op)] else []) := by
  unfold OpBuilder.create
  rw [memOps_append]
  by_cases h : op.isEffectful = true
  · simp [memOps, h]
  · simp [memOps, h]

theorem OpBuilder.memOps_create_value (b : OpBuilder) (v : Value) :
    memOps (b.create (.value v)).created = memOps b.created := by
  rw [OpBuilder.memOps_create]
  simp [Op.isEffectful]

/-- The builder `c` is reached from `b` without emitting an operation that writes to memory,
without moving the insertion point, and consuming only fresh identifiers. -/
def Quiet (b c : OpBuilder) : Prop :=
  memOps c.created = memOps b.created ∧ c.insertionPoint = b.insertionPoint ∧
    b.nextId ≤ c.nextId

theorem quiet_refl (b : OpBuilder) : Quiet b b := ⟨rfl, rfl, Nat.le_refl _⟩

theorem quiet_trans {b c d : OpBuilder} (h1 : Quiet b c) (h2 : Quiet c d) : Quiet b d :=
  ⟨h2.1.trans h1.1, h2.2.1.trans h1.2.1, Nat.le_trans h1.2.2 h2.2.2⟩

theorem quiet_create_value (b : OpBuilder) (v : Value) : Quiet b (b.create (.value v)) :=
  ⟨OpBuilder.memOps_create_value b v, rfl, Nat.le_refl _⟩

/-- The contract of an allocation strategy used by the round-trip law: it writes nothing,
leaves the insertion point where it was, and returns a view of a buffer of its own that did
not exist before, addressed by the indices of the view. -/
def FreshAllocation (f : AllocBufferCallbackFn) : Prop :=
  ∀ b sv sizes layout,
    Quiet b (f b sv sizes layout).2 ∧
    ∀ full, (f b sv sizes layout).1 = some full →
      ∃ id, b.nextId ≤ id ∧ id < (f b sv sizes layout).2.nextId ∧
        ∀ env idx, Value.cell env full idx = (.allocated id, idx)

/-- The contract of a deallocation strategy used by the round-trip law: it writes nothing and
leaves the insertion point where it was. -/
def QuietDeallocation (f : DeallocBufferCallbackFn) : Prop :=
  ∀ b buffer,
    memOps (f b buffer).2.created = memOps b.created ∧
    (f b buffer).2.insertionPoint = b.insertionPoint

theorem createOrFoldMulI_quiet (b : OpBuilder) (lhs rhs : Value) :
    memOps (createOrFoldMulI b lhs rhs).2.created = memOps b.created ∧
    (createOrFoldMulI b lhs rhs).2.insertionPoint = b.insertionPoint ∧
    (createOrFoldMulI b lhs rhs).2.nextId = b.nextId := by
  unfold createOrFoldMulI
  split
  · exact ⟨OpBuilder.memOps_create_value _ _, rfl, rfl⟩
  · exact ⟨OpBuilder.memOps_create_value _ _, rfl, rfl⟩

theorem allocSizeLoop_quiet (sizes : List Value) (acc : Value × OpBuilder) :
    memOps (allocSizeLoop sizes acc).2.created = memOps acc.2.created ∧
    (allocSizeLoop sizes acc).2.insertionPoint = acc.2.insertionPoint ∧
    (allocSizeLoop sizes acc).2.nextId = acc.2.nextId := by
  induction sizes generalizing acc with
  | nil => exact ⟨rfl, rfl, rfl⟩
  | cons size rest ih =>
    rw [allocSizeLoop]
    obtain ⟨h1, h2, h3⟩ := ih (createOrFoldMulI acc.2 acc.1 size)
    obtain ⟨g1, g2, g3⟩ := createOrFoldMulI_quiet acc.2 acc.1 size
    exact ⟨h1.trans g1, h2.trans g2, h3.trans g3⟩

theorem allocBuffer_fresh (b : OpBuilder) (options : LinalgPromotionOptions)
    (elementType : MType) (allocSize : Value) (layout : DataLayout) (alignment : Option Nat) :
    memOps (allocBuffer b options elementType allocSize layout alignment).2.created
      = memOps b.created ∧
    (allocBuffer b options elementType allocSize layout alignment).2.insertionPoint
      = b.insertionPoint ∧
    (allocBuffer b options elementType allocSize layout alignment).2.nextId = b.nextId + 1 ∧
    Value.root (allocBuffer b options elementType allocSize layout alignment).1
      = .allocated b.nextId := by
  unfold allocBuffer
  simp only
  split
  · split
    · exact ⟨OpBuilder.memOps_create_value _ _, rfl, rfl, rfl⟩
    · exact ⟨OpBuilder.memOps_create_value _ _, rfl, rfl, rfl⟩
  · obtain ⟨g1, g2, g3⟩ := createOrFoldMulI_quiet
      (b.create (.value (constantIndex (layout.getTypeSize elementType))))
      (constantIndex (layout.getTypeSize elementType)) allocSize
    split
    · refine ⟨?_, ?_, ?_, ?_⟩
      · rw [OpBuilder.memOps_create_value]
        exact g1.trans (OpBuilder.memOps_create_value _ _)
      · exact g2
      · exact congrArg (fun n => n + 1) g3
      · exact congrArg Root.allocated g3
    · refine ⟨?_, ?_, ?_, ?_⟩
      · rw [OpBuilder.memOps_create_value]
        exact g1.trans (OpBuilder.memOps_create_value _ _)
      · exact g2
      · exact congrArg (fun n => n + 1) g3
      · exact congrArg Root.allocated g3

theorem defaultAllocBufferCallBack_fresh (options : LinalgPromotionOptions)
    (alignment : Option Nat) :
    FreshAllocation (fun b sv sizes layout =>
      defaultAllocBufferCallBack options b sv sizes alignment layout) := by
  intro b sv sizes layout
  obtain ⟨h1, h2, h3⟩ := allocSizeLoop_quiet sizes
    (constantIndex 1, (b.create (.value (constantIndex 0))).create (.value (constantIndex 1)))
  obtain ⟨g1, g2, g3, g4⟩ := allocBuffer_fresh
    (allocSizeLoop sizes (constantIndex 1,
      (b.create (.value (constantIndex 0))).create (.value (constantIndex 1)))).2
    options sv.elementType
    (allocSizeLoop sizes (constantIndex 1,
      (b.create (.value (constantIndex 0))).create (.value (constantIndex 1)))).1
    layout alignment
  simp only [defaultAllocBufferCallBack]
  have hn : (allocSizeLoop sizes (constantIndex 1,
      (b.create (.value (constantIndex 0))).create (.value (constantIndex 1)))).2.nextId
      = b.nextId := h3
  refine ⟨⟨?_, ?_, ?_⟩, ?_⟩
  · rw [OpBuilder.memOps_create_value, g1, h1, OpBuilder.memOps_create_value,
      OpBuilder.memOps_create_value]
  · exact g2.trans h2
  · show b.nextId ≤ _
    exact Nat.le_of_lt (by
      have : (allocBuffer
          (allocSizeLoop sizes (constantIndex 1,
            (b.create (.value (constantIndex 0))).create (.value (constantIndex 1)))).2
          options sv.elementType
          (allocSizeLoop sizes (constantIndex 1,
            (b.create (.value (constantIndex 0))).create (.value (constantIndex 1)))).1
          layout alignment).2.nextId = b.nextId + 1 := by rw [g3, hn]
      exact Nat.lt_of_lt_of_eq (Nat.lt_succ_self _) this.symm)
  · intro full hfull
    simp only [Option.some.injEq] at hfull
    refine ⟨b.nextId, Nat.le_refl _, ?_, ?_⟩
    · have : (allocBuffer
          (allocSizeLoop sizes (constantIndex 1,
            (b.create (.value (constantIndex 0))).create (.value (constantIndex 1)))).2
          options sv.elementType
          (allocSizeLoop sizes (constantIndex 1,
            (b.create (.value (constantIndex 0))).create (.value (constantIndex 1)))).1
          layout alignment).2.nextId = b.nextId + 1 := by rw [g3, hn]
      exact Nat.lt_of_lt_of_eq (Nat.lt_succ_self _) this.symm
    · intro env idx
      rw [← hfull]
      simp only [Value.cell]
      rw [g4, hn]

theorem defaultDeallocBufferCallBack_quiet (options : LinalgPromotionOptions) :
    QuietDeallocation (fun b buffer => defaultDeallocBufferCallBack options b buffer) := by
  intro b buffer
  simp only [defaultDeallocBufferCallBack]
  split
  · split
    · refine ⟨?_, rfl⟩
      rw [OpBuilder.memOps_create]
      simp [Op.isEffectful]
    · exact ⟨rfl, rfl⟩
  · exact ⟨rfl, rfl⟩

/-! ## The operations emitted by the tile promoter -/

theorem quiet_getValueOrCreateConstantIndexOp (s : State) (size : OpFoldResult) :
    Quiet s.builder (getValueOrCreateConstantIndexOp s size).2.builder := by
  cases size with
  | attr c => exact quiet_create_value s.builder _
  | value v => exact quiet_refl s.builder

theorem quiet_resolvedSize (bound : BoundAnalysis) (useOrig : Bool) (s : State)
    (size : OpFoldResult) : Quiet s.builder (resolvedSize bound useOrig s size).2.builder := by
  unfold resolvedSize
  split
  · exact quiet_getValueOrCreateConstantIndexOp s size
  · split
    · exact quiet_getValueOrCreateConstantIndexOp s size
    · exact quiet_create_value s.builder _

theorem quiet_tileSizesLoop (bound : BoundAnalysis) (subView : SubViewOp) (useOrig : Bool)
    (ranges : List Range) (index : Nat) (acc : TileSizes) :
    Quiet acc.state.builder
      (tileSizesLoop bound subView useOrig index ranges acc).state.builder := by
  induction ranges generalizing index acc with
  | nil => exact quiet_refl _
  | cons r rest ih =>
    rw [tileSizesLoop_cons]
    split
    · exact ih (index + 1) acc
    · exact quiet_trans
        (quiet_trans (quiet_resolvedSize bound useOrig acc.state r.size)
          (quiet_create_value _ _))
        (ih (index + 1) _)

/-- The full view of `info` is a buffer of its own with an identifier in `[lo, hi)`. -/
def HasFreshRoot (lo hi : Nat) (info : PromotionInfo) : Prop :=
  ∃ id, lo ≤ id ∧ id < hi ∧
    ∀ env idx, Value.cell env info.fullLocalView idx = (.allocated id, idx)

theorem hasFreshRoot_mono {lo hi lo2 hi2 : Nat} {info : PromotionInfo}
    (h : HasFreshRoot lo hi info) (hlo : lo2 ≤ lo) (hhi : hi ≤ hi2) :
    HasFreshRoot lo2 hi2 info := by
  obtain ⟨id, h1, h2, h3⟩ := h
  exact ⟨id, Nat.le_trans hlo h1, Nat.lt_of_lt_of_le h2 hhi, h3⟩

theorem quiet_promoteSubviewAsNewBuffer (bound : BoundAnalysis) (s : State)
    (subView : SubViewOp) (useOrig : Bool) (allocationFn : AllocBufferCallbackFn)
    (layout : DataLayout) (hfresh : FreshAllocation allocationFn) :
    Quiet s.builder
      (promoteSubviewAsNewBuffer bound s subView useOrig allocationFn layout).2.builder ∧
    ∀ info, (promoteSubviewAsNewBuffer bound s subView useOrig allocationFn layout).1
        = some info →
      HasFreshRoot s.builder.nextId
        (promoteSubviewAsNewBuffer bound s subView useOrig allocationFn layout).2.builder.nextId
        info := by
  have hloop := quiet_tileSizesLoop bound subView useOrig
    (SubViewOp.getOrCreateRanges subView.offsets subView.sizes subView.strides) 0 ⟨s, [], [], 0⟩
  unfold promoteSubviewAsNewBuffer
  simp only at hloop ⊢
  generalize tileSizesLoop bound subView useOrig 0
    (SubViewOp.getOrCreateRanges subView.offsets subView.sizes subView.strides)
    ⟨s, [], [], 0⟩ = sizes at hloop ⊢
  have hf := hfresh sizes.state.builder subView sizes.fullSizes layout
  generalize allocationFn sizes.state.builder subView sizes.fullSizes layout = alloc at hf ⊢
  obtain ⟨f1, f4⟩ := hf
  obtain ⟨r, b⟩ := alloc
  simp only at f1 f4 ⊢
  cases r with
  | none =>
    refine ⟨quiet_trans hloop f1, ?_⟩
    intro info hinfo
    cases hinfo
  | some full =>
    have hbump : Quiet b { b with nextId := b.nextId + 1 } := ⟨rfl, rfl, Nat.le_succ _⟩
    refine ⟨quiet_trans (quiet_trans (quiet_trans hloop f1) hbump)
      (quiet_create_value _ _), ?_⟩
    intro info hinfo
    simp only [Option.some.injEq] at hinfo
    obtain ⟨id, h1, h2, h3⟩ := f4 full rfl
    refine ⟨id, Nat.le_trans hloop.2.2 h1, Nat.lt_succ_of_lt h2, ?_⟩
    intro env idx
    rw [← hinfo]
    exact h3 env idx

theorem quiet_fillValue (s : State) (t : MType) : Quiet s.builder (fillValue s t).2.builder := by
  cases t with
  | index => exact quiet_refl _
  | float w => exact quiet_create_value _ _
  | integer w => exact quiet_create_value _ _
  | complexOfFloat w => exact quiet_trans (quiet_create_value _ _) (quiet_create_value _ _)
  | complexOfInteger w => exact quiet_trans (quiet_create_value _ _) (quiet_create_value _ _)
  | other id => exact quiet_refl _

/-- A fill of a buffer that the transformation allocated, inserted at `ip`. -/
def IsFillOfAllocated (ip : InsertionPoint) (p : InsertionPoint × Op) : Prop :=
  ∃ val full id, p = (ip, .linalgFill val full) ∧ Value.root full = .allocated id

theorem hasFreshRoot_root {lo hi : Nat} {info : PromotionInfo} (h : HasFreshRoot lo hi info) :
    ∃ id, lo ≤ id ∧ id < hi ∧ Value.root info.fullLocalView = .allocated id := by
  obtain ⟨id, h1, h2, h3⟩ := h
  refine ⟨id, h1, h2, ?_⟩
  have := Value.cell_root ⟨fun _ => 0, fun _ => []⟩ info.fullLocalView []
  rw [h3] at this
  exact this.symm

theorem promoteLoop_created (bound : BoundAnalysis)
    (options : LinalgOpInstancePromotionOptions) (layout : DataLayout)
    (hfresh : FreshAllocation options.allocationFn)
    (subViews : List (Nat × SubViewOp)) (s : State)
    (m : List (Nat × PromotionInfo)) (res : List (Nat × PromotionInfo)) (s1 : State)
    (hnd : (subViews.map Prod.fst).Nodup) (hdis : ∀ v ∈ subViews, mapFind m v.1 = none)
    (h : promoteLoop bound options layout subViews s m = (some res, s1)) :
    ∃ fills entries,
      memOps s1.builder.created = memOps s.builder.created ++ fills ∧
      s1.builder.insertionPoint = s.builder.insertionPoint ∧
      s.builder.nextId ≤ s1.builder.nextId ∧
      res = m ++ entries ∧
      (∀ p ∈ fills, IsFillOfAllocated s.builder.insertionPoint p) ∧
      (∀ e ∈ entries, HasFreshRoot s.builder.nextId s1.builder.nextId e.2) ∧
      entries.Pairwise
        (fun a b => Value.root a.2.fullLocalView ≠ Value.root b.2.fullLocalView) := by
  induction subViews generalizing s m with
  | nil =>
    rw [promoteLoop_nil] at h
    simp only [Prod.mk.injEq, Option.some.injEq] at h
    obtain ⟨h1, h2⟩ := h
    subst h1 h2
    exact ⟨[], [], by simp, rfl, Nat.le_refl _, by simp, by simp, by simp, List.Pairwise.nil⟩
  | cons v rest ih =>
    rw [promoteLoop_cons] at h
    simp only [List.map_cons, List.nodup_cons] at hnd
    have hmv : mapFind m v.1 = none := hdis v (List.mem_cons_self _ _)
    obtain ⟨hq, hroot⟩ := quiet_promoteSubviewAsNewBuffer bound s v.2
      options.useOriginalSubviewSize options.allocationFn layout hfresh
    cases hp : promoteSubviewAsNewBuffer bound s v.2 options.useOriginalSubviewSize
        options.allocationFn layout with
    | mk oinfo sa =>
      rw [hp] at h hq hroot
      cases oinfo with
      | none => simp at h
      | some info =>
        have hfr : HasFreshRoot s.builder.nextId sa.builder.nextId info := hroot info rfl
        have hdis2 : ∀ w ∈ rest, mapFind (mapSet m v.1 info) w.1 = none := by
          intro w hw
          have hne : v.1 ≠ w.1 := by
            intro he
            apply hnd.1
            rw [he]
            exact List.mem_map_of_mem Prod.fst hw
          rw [mapFind_mapSet_ne _ _ _ _ hne]
          exact hdis w (List.mem_cons_of_mem _ hw)
        have finish : ∀ (sb : State) (fillsb : List (InsertionPoint × Op)),
            memOps sb.builder.created = memOps s.builder.created ++ fillsb →
            sb.builder.insertionPoint = s.builder.insertionPoint →
            sa.builder.nextId ≤ sb.builder.nextId →
            (∀ p ∈ fillsb, IsFillOfAllocated s.builder.insertionPoint p) →
            promoteLoop bound options layout rest sb (mapSet m v.1 info) = (some res, s1) →
            ∃ fills entries,
              memOps s1.builder.created = memOps s.builder.created ++ fills ∧
              s1.builder.insertionPoint = s.builder.insertionPoint ∧
              s.builder.nextId ≤ s1.builder.nextId ∧
              res = m ++ entries ∧
              (∀ p ∈ fills, IsFillOfAllocated s.builder.insertionPoint p) ∧
              (∀ e ∈ entries, HasFreshRoot s.builder.nextId s1.builder.nextId e.2) ∧
              entries.Pairwise
                (fun a b => Value.root a.2.fullLocalView ≠ Value.root b.2.fullLocalView) := by
          intro sb fillsb hmem hip hnext hfill hrec
          obtain ⟨fills, entries, e1, e2, e3, e4, e5, e6, e7⟩ :=
            ih sb (mapSet m v.1 info) hnd.2 hdis2 hrec
          rw [mapSet_of_find_none _ _ _ hmv] at e4
          have hsa : s.builder.nextId ≤ sb.builder.nextId := Nat.le_trans hq.2.2 hnext
          refine ⟨fillsb ++ fills, (v.1, info) :: entries, ?_, e2.trans hip,
            Nat.le_trans hsa e3, ?_, ?_, ?_, ?_⟩
          · rw [e1, hmem, List.append_assoc]
          · rw [e4]; simp
          · intro p hp2
            rcases List.mem_append.mp hp2 with hp2 | hp2
            · exact hfill p hp2
            · rw [← hip]
              exact e5 p hp2
          · intro e he
            rcases List.mem_cons.mp he with he | he
            · subst he
              exact hasFreshRoot_mono hfr (Nat.le_refl _) (Nat.le_trans hnext e3)
            · exact hasFreshRoot_mono (e6 e he) hsa (Nat.le_refl _)
          · refine List.Pairwise.cons ?_ e7
            intro e he
            obtain ⟨i1, -, a2, a3⟩ := hasFreshRoot_root hfr
            obtain ⟨i2, b1, -, b3⟩ := hasFreshRoot_root (e6 e he)
            show Value.root info.fullLocalView ≠ Value.root e.2.fullLocalView
            rw [a3, b3]
            intro heq
            injection heq with heq
            omega
        simp only at h
        by_cases hflag : mapGet options.useFullTileBuffers v.2.result = true
        · simp only [hflag, Bool.not_true, Bool.false_eq_true, if_false] at h
          have hqf := quiet_fillValue sa v.2.elementType
          cases hfv : fillValue sa v.2.elementType with
          | mk oz sf =>
            rw [hfv] at h hqf
            cases oz with
            | none => simp at h
            | some z =>
              simp only at h hqf
              obtain ⟨i1, -, -, a3⟩ := hasFreshRoot_root hfr
              apply finish (sf.create (.linalgFill z info.fullLocalView))
                [(s.builder.insertionPoint, .linalgFill z info.fullLocalView)] _ _ _ _ h
              · simp only [State.create, OpBuilder.memOps_create, Op.isEffectful, if_true]
                rw [hqf.1, hq.1, hqf.2.1, hq.2.1]
              · exact hqf.2.1.trans hq.2.1
              · exact hqf.2.2
              · intro p hp2
                simp only [List.mem_singleton] at hp2
                exact ⟨z, info.fullLocalView, i1, hp2, a3⟩
        · have hflag2 : mapGet options.useFullTileBuffers v.2.result = false := by
            simpa using hflag
          simp only [hflag2, Bool.not_false, if_true] at h
          apply finish sa [] _ hq.2.1 (Nat.le_refl _) _ h
          · rw [hq.1]; simp
          · intro p hp2
            cases hp2

theorem copyInLoop_default (options : LinalgOpInstancePromotionOptions)
    (hcopy : options.copyInFn = defaultCopyCallBack)
    (m : List (Nat × PromotionInfo)) (subViews : List (Nat × SubViewOp)) (s : State) :
    (copyInLoop options m subViews s).1 = .success ∧
    memOps (copyInLoop options m subViews s).2.builder.created =
      memOps s.builder.created ++
        (copyInTargets options m subViews).map
          (fun p => (s.builder.insertionPoint, Op.linalgCopy p.1 p.2)) ∧
    (copyInLoop options m subViews s).2.builder.insertionPoint = s.builder.insertionPoint := by
  induction subViews generalizing s with
  | nil => exact ⟨rfl, by simp [copyInLoop, copyInTargets], rfl⟩
  | cons v rest ih =>
    rw [copyInLoop_cons, copyInTargets_cons]
    cases hm : mapFind m v.1 with
    | none => simpa using ih s
    | some info =>
      have hidx : mapIndex m v.1 = info := by simp [mapIndex, hm]
      by_cases hc : options.operandsNumbersToCopyIn.contains v.1 = true
      · simp only [hc, Bool.not_true, Bool.false_eq_true, if_false, Option.isSome_some,
          Bool.and_self, if_true, hidx, hcopy, defaultCopyCallBack, failed]
        obtain ⟨h1, h2, h3⟩ := ih
          { builder := s.builder.create (.linalgCopy v.2.result info.partialLocalView)
            log := s.log ++ [.copyInFn v.2.result info.partialLocalView .success] }
        refine ⟨h1, ?_, h3⟩
        rw [h2]
        simp only [OpBuilder.memOps_create, Op.isEffectful, if_true, List.map_cons,
          List.append_assoc, List.singleton_append]
        rfl
      · have hc2 : options.operandsNumbersToCopyIn.contains v.1 = false := by simpa using hc
        simp only [hc2, Bool.not_false, if_true, Bool.and_false, Bool.false_eq_true, if_false]
        exact ih s

theorem copyOutLoop_default (options : LinalgOpInstancePromotionOptions)
    (hcopy : options.copyOutFn = defaultCopyCallBack)
    (views : List (Value × Value)) (s : State) :
    (copyOutLoop options views s).1 = .success ∧
    memOps (copyOutLoop options views s).2.builder.created =
      memOps s.builder.created ++
        views.map (fun p => (s.builder.insertionPoint, Op.linalgCopy p.2 p.1)) ∧
    (copyOutLoop options views s).2.builder.insertionPoint = s.builder.insertionPoint := by
  induction views generalizing s with
  | nil => exact ⟨rfl, by simp [copyOutLoop], rfl⟩
  | cons p rest ih =>
    rw [copyOutLoop_cons]
    simp only [hcopy, defaultCopyCallBack, failed, Bool.false_eq_true, if_false]
    obtain ⟨h1, h2, h3⟩ := ih
      { builder := s.builder.create (.linalgCopy p.2 p.1)
        log := s.log ++ [.copyOutFn p.2 p.1 .success] }
    refine ⟨h1, ?_, h3⟩
    rw [h2]
    simp only [OpBuilder.memOps_create, Op.isEffectful, if_true, List.map_cons,
      List.append_assoc, List.singleton_append]
    rfl

theorem deallocLoop_quiet (options : LinalgOpInstancePromotionOptions)
    (hquiet : QuietDeallocation options.deallocationFn)
    (promoted : List (Nat × PromotionInfo)) (s : State) :
    memOps (deallocLoop options promoted s).builder.created = memOps s.builder.created := by
  induction promoted generalizing s with
  | nil => rfl
  | cons pi rest ih =>
    rw [deallocLoop, ih]
    exact (hquiet s.builder pi.2.fullLocalView).1

theorem promoteSubViewsMap_created (bound : BoundAnalysis) (s : State)
    (options : LinalgOpInstancePromotionOptions) (layout : DataLayout)
    (res : List (Nat × PromotionInfo)) (s2 : State)
    (hfresh : FreshAllocation options.allocationFn)
    (hcopy : options.copyInFn = defaultCopyCallBack)
    (hnd : (options.subViews.map Prod.fst).Nodup)
    (h : promoteSubViewsMap bound s options layout = (some res, s2)) :
    ∃ fills hi,
      memOps s2.builder.created = memOps s.builder.created ++ fills ++
        (copyInTargets options res options.subViews).map
          (fun p => (s.builder.insertionPoint, Op.linalgCopy p.1 p.2)) ∧
      s2.builder.insertionPoint = s.builder.insertionPoint ∧
      (∀ p ∈ fills, IsFillOfAllocated s.builder.insertionPoint p) ∧
      (∀ e ∈ res, HasFreshRoot s.builder.nextId hi e.2) ∧
      res.Pairwise
        (fun a b => Value.root a.2.fullLocalView ≠ Value.root b.2.fullLocalView) := by
  have hne : options.subViews ≠ [] := by
    intro hs
    unfold promoteSubViewsMap at h
    simp [hs] at h
  cases hp : promoteLoop bound options layout options.subViews s [] with
  | mk ores s1 =>
    cases ores with
    | none =>
      unfold promoteSubViewsMap at h
      have hemp : options.subViews.isEmpty = false := by
        cases hs : options.subViews with
        | nil => exact absurd hs hne
        | cons _ _ => rfl
      simp [hemp, hp] at h
    | some res2 =>
      rw [promoteSubViewsMap_of_first_pass bound s options layout res2 s1 hne hp] at h
      simp only [Prod.mk.injEq] at h
      obtain ⟨hres, hs2⟩ := h
      obtain ⟨c1, c2, c3⟩ := copyInLoop_default options hcopy res2 options.subViews s1
      simp only [c1, if_true, Option.some.injEq] at hres
      subst hres
      obtain ⟨fills, entries, e1, e2, e3, e4, e5, e6, e7⟩ := promoteLoop_created bound options
        layout hfresh options.subViews s [] res2 s1 hnd (by intro v _; rfl) hp
      simp only [List.nil_append] at e4
      subst e4
      refine ⟨fills, s1.builder.nextId, ?_, ?_, e5, e6, e7⟩
      · rw [← hs2, c2, e1, e2]
      · rw [← hs2, c3, e2]

theorem promoteSubViewsOp_created (bound : BoundAnalysis) (s : State) (op : LinalgOp)
    (options : LinalgOpInstancePromotionOptions) (layout : DataLayout) (newOp : LinalgOp)
    (hfresh : FreshAllocation options.allocationFn)
    (hquiet : QuietDeallocation options.deallocationFn)
    (hcopyIn : options.copyInFn = defaultCopyCallBack)
    (hcopyOut : options.copyOutFn = defaultCopyCallBack)
    (hnd : (options.subViews.map Prod.fst).Nodup)
    (h : (promoteSubViewsOp bound s op options layout).result = some newOp) :
    ∃ promoted fills hi,
      (promoteSubViewsMap bound s options layout).1 = some promoted ∧
      memOps (promoteSubViewsOp bound s op options layout).state.builder.created =
        memOps s.builder.created ++ fills ++
          (copyInTargets options promoted options.subViews).map
            (fun p => (s.builder.insertionPoint, Op.linalgCopy p.1 p.2)) ++
          ((op.operands.enum.filter (fun p => needsWriteback op options p.1)).map
            (fun p => (InsertionPoint.afterOp,
              Op.linalgCopy (mapIndex promoted p.1).partialLocalView p.2))) ∧
      (∀ p ∈ fills, IsFillOfAllocated s.builder.insertionPoint p) ∧
      (∀ e ∈ promoted, HasFreshRoot s.builder.nextId hi e.2) ∧
      promoted.Pairwise
        (fun a b => Value.root a.2.fullLocalView ≠ Value.root b.2.fullLocalView) := by
  unfold promoteSubViewsOp at h ⊢
  cases hm : promoteSubViewsMap bound s options layout with
  | mk opromoted s1 =>
    rw [hm] at h
    cases opromoted with
    | none => simp at h
    | some promoted =>
      obtain ⟨fills, hi, m1, m2, m3, m4, m5⟩ := promoteSubViewsMap_created bound s options
        layout promoted s1 hfresh hcopyIn hnd hm
      simp only at h ⊢
      by_cases hlen : promoted.length = options.subViews.length
      · simp only [hlen, ne_eq, not_true_eq_false, if_false] at h ⊢
        rw [operandLoop_eq] at h ⊢
        simp only [List.nil_append] at h ⊢
        obtain ⟨c1, c2, c3⟩ := copyOutLoop_default options hcopyOut
          ((op.operands.enumFrom 0).filter (fun p => needsWriteback op options p.1) |>.map
            (fun p => (p.2, (mapIndex promoted p.1).partialLocalView)))
          { builder := { s1.builder with insertionPoint := .afterOp }
            log := s1.log ++ [.setOperands
              ((op.operands.enumFrom 0).map (fun p => newOperand options promoted p.1 p.2))] ++
                [.setInsertionPointAfter] }
        cases hc : copyOutLoop options
          ((op.operands.enumFrom 0).filter (fun p => needsWriteback op options p.1) |>.map
            (fun p => (p.2, (mapIndex promoted p.1).partialLocalView)))
          { builder := { s1.builder with insertionPoint := .afterOp }
            log := s1.log ++ [.setOperands
              ((op.operands.enumFrom 0).map (fun p => newOperand options promoted p.1 p.2))] ++
                [.setInsertionPointAfter] } with
        | mk r s4 =>
          rw [hc] at h c1 c2 c3
          simp only at c1
          subst c1
          refine ⟨promoted, fills, hi, rfl, ?_, m3, m4, m5⟩
          simp only [restoreInsertionPoint]
          rw [deallocLoop_quiet options hquiet, c2]
          simp only [m1, List.map_map, List.enum]
          rfl
      · simp [hlen] at h

/-! ## Memory after the emitted copies -/

theorem indexBox_length (extents : List Int) (idx : List Int) (h : idx ∈ indexBox extents) :
    idx.length = extents.length := by
  induction extents generalizing idx with
  | nil =>
    simp only [indexBox, List.mem_singleton] at h
    subst h
    rfl
  | cons n rest ih =>
    simp only [indexBox, List.mem_flatMap, List.mem_map] at h
    obtain ⟨i, -, tail, ht, rfl⟩ := h
    simp [ih tail ht]

theorem expandDims_replicate_false (n : Nat) (idx : List Int) :
    expandDims (List.replicate n false) idx = idx := by
  induction n generalizing idx with
  | zero => rfl
  | succ n ih =>
    cases idx with
    | nil => rfl
    | cons i idx => simp [List.replicate_succ, expandDims, ih]

theorem strideIndex_unit (n : Nat) (idx : List Int) (h : idx.length = n) :
    strideIndex (List.replicate n 0) (List.replicate n 1) idx = idx := by
  induction n generalizing idx with
  | zero =>
    cases idx with
    | nil => rfl
    | cons i idx => simp at h
  | succ n ih =>
    cases idx with
    | nil => simp at h
    | cons i idx => simp [List.replicate_succ, strideIndex, ih idx (by simpa using h)]

theorem root_partialLocalView (sv : SubViewOp) (info : PromotionInfo)
    (hp : IsPartialViewOf sv info) :
    Value.root info.partialLocalView = Value.root info.fullLocalView := by
  obtain ⟨pid, hpid⟩ := hp
  rw [hpid]
  rfl

theorem extents_partialLocalView (env : Env) (sv : SubViewOp) (info : PromotionInfo)
    (hp : IsPartialViewOf sv info) :
    Value.extents env info.partialLocalView = Value.extents env sv.result := by
  obtain ⟨pid, hpid⟩ := hp
  have hext : Value.extents env info.partialLocalView =
      sv.keptSizes.map (OpFoldResult.eval env) := by
    rw [hpid, Value.extents_subview, keepDimsFrom_replicate_false]
    apply List.ext_getElem
    · simp
    · intro k h1 h2
      simp only [List.length_map, List.length_range'] at h1
      simp only [List.getElem_map, List.getElem_range', OpFoldResult.eval, Value.eval_dim,
        SubViewOp.extents_result, Nat.zero_add, Nat.one_mul]
      rw [List.getD_eq_getElem?_getD, List.getElem?_eq_getElem (by simpa using h1)]
      simp
  rw [hext, SubViewOp.extents_result]

theorem cell_partialLocalView (env : Env) (sv : SubViewOp) (info : PromotionInfo) (id : Nat)
    (hp : IsPartialViewOf sv info)
    (hfull : ∀ idx, Value.cell env info.fullLocalView idx = (.allocated id, idx))
    (idx : List Int) (hidx : idx ∈ indexBox (Value.extents env sv.result)) :
    Value.cell env info.partialLocalView idx = (.allocated id, idx) := by
  have hlen : idx.length = sv.keptSizes.length := by
    rw [indexBox_length _ _ hidx, SubViewOp.extents_result]
    simp
  obtain ⟨pid, hpid⟩ := hp
  rw [hpid]
  simp only [Value.cell]
  rw [expandDims_replicate_false, hfull]
  simp [OpFoldResult.eval, strideIndex_unit _ _ hlen]

theorem copyCells_frame (env : Env) (src dst : Value) (m : Memory) (c : Cell)
    (h : Value.root dst ≠ c.1) : copyCells env src dst m c = m c := by
  unfold copyCells
  refine foldl_update_frame _ (fun idx => Value.cell env dst idx)
    (fun idx => m (Value.cell env src idx)) m c ?_
  intro i _ hk
  apply h
  rw [← hk, Value.cell_root]

theorem fillCells_frame (env : Env) (val dst : Value) (m : Memory) (c : Cell)
    (h : Value.root dst ≠ c.1) : fillCells env val dst m c = m c := by
  unfold fillCells
  refine foldl_update_frame _ (fun idx => Value.cell env dst idx)
    (fun _ => Value.eval env val) m c ?_
  intro i _ hk
  apply h
  rw [← hk, Value.cell_root]

theorem copyCells_read (env : Env) (src dst : Value) (m : Memory) (c : Cell) :
    copyCells env src dst m c = m c ∨
      ∃ i ∈ indexBox (Value.extents env src), Value.cell env dst i = c ∧
        copyCells env src dst m c = m (Value.cell env src i) := by
  unfold copyCells
  exact foldl_update_mem _ (fun idx => Value.cell env dst idx)
    (fun idx => m (Value.cell env src idx)) m c

theorem copyCells_hit (env : Env) (src dst : Value) (m : Memory) (c : Cell)
    (h : ∃ i ∈ indexBox (Value.extents env src), Value.cell env dst i = c) :
    ∃ i ∈ indexBox (Value.extents env src), Value.cell env dst i = c ∧
      copyCells env src dst m c = m (Value.cell env src i) := by
  unfold copyCells
  exact foldl_update_hit _ (fun idx => Value.cell env dst idx)
    (fun idx => m (Value.cell env src idx)) m c h

/-- The memref an operation writes to, if any. -/
def Op.target : Op → Option Value
  | .linalgFill _ output => some output
  | .linalgCopy _ target => some target
  | .memrefCopy _ target => some target
  | _ => none

theorem Op.exec_frame (env : Env) (op : Op) (m : Memory) (c : Cell)
    (h : ∀ dst, op.target = some dst → Value.root dst ≠ c.1) : Op.exec env op m c = m c := by
  cases op with
  | linalgFill v output => exact fillCells_frame env v output m c (h output rfl)
  | linalgCopy source target => exact copyCells_frame env source target m c (h target rfl)
  | memrefCopy source target => exact copyCells_frame env source target m c (h target rfl)
  | value _ => rfl
  | memrefDealloc _ => rfl
  | gpuBarrier => rfl

theorem runOps_frame (env : Env) (ops : List Op) (m : Memory) (c : Cell)
    (h : ∀ op ∈ ops, ∀ dst, op.target = some dst → Value.root dst ≠ c.1) :
    runOps env ops m c = m c := by
  induction ops generalizing m with
  | nil => rfl
  | cons op rest ih =>
    rw [runOps, ih _ (fun o ho => h o (List.mem_cons_of_mem _ ho))]
    exact Op.exec_frame env op m c (h op (List.mem_cons_self _ _))

/-- The copy-in phase: copies from views of buffers that existed before into distinct buffers
of the transformation leave the old buffers as they were and store in each destination the
contents of its source. -/
theorem copyIn_phase (env : Env) (m0 : Memory) (targets : List (Value × Value))
    (hsrc : ∀ t ∈ targets, ∃ id, Value.root t.1 = .external id)
    (hdst : ∀ t ∈ targets, ∃ id, ∀ idx ∈ indexBox (Value.extents env t.1),
      Value.cell env t.2 idx = (.allocated id, idx))
    (hroot : ∀ t ∈ targets, ∃ id, Value.root t.2 = .allocated id)
    (hpw : targets.Pairwise (fun a b => Value.root a.2 ≠ Value.root b.2))
    (m : Memory) (hm : ∀ c id, c.1 = .external id → m c = m0 c) :
    (∀ c id, c.1 = .external id →
      runOps env (targets.map (fun p => Op.linalgCopy p.1 p.2)) m c = m0 c) ∧
    ∀ t ∈ targets, ∀ idx ∈ indexBox (Value.extents env t.1),
      runOps env (targets.map (fun p => Op.linalgCopy p.1 p.2)) m (Value.cell env t.2 idx) =
        m0 (Value.cell env t.1 idx) := by
  induction targets generalizing m with
  | nil =>
    refine ⟨fun c id hc => hm c id hc, ?_⟩
    intro t ht
    cases ht
  | cons t rest ih =>
    obtain ⟨rid, hrid⟩ := hroot t (List.mem_cons_self _ _)
    have hmc : ∀ c id, c.1 = .external id → copyCells env t.1 t.2 m c = m0 c := by
      intro c id hc
      have hne : Value.root t.2 ≠ c.1 := by
        rw [hrid, hc]
        exact fun h => Root.noConfusion h
      rw [copyCells_frame env t.1 t.2 m c hne]
      exact hm c id hc
    obtain ⟨ih1, ih2⟩ := ih (fun u hu => hsrc u (List.mem_cons_of_mem _ hu))
      (fun u hu => hdst u (List.mem_cons_of_mem _ hu))
      (fun u hu => hroot u (List.mem_cons_of_mem _ hu))
      (List.pairwise_cons.mp hpw).2 (copyCells env t.1 t.2 m) hmc
    simp only [List.map_cons, runOps, Op.exec]
    refine ⟨ih1, ?_⟩
    intro u hu idx hidx
    rcases List.mem_cons.mp hu with hu | hu
    · subst hu
      rw [runOps_frame]
      · obtain ⟨did, hdid⟩ := hdst u (List.mem_cons_self _ _)
        obtain ⟨i, hi, hk, hv⟩ := copyCells_hit env u.1 u.2 m (Value.cell env u.2 idx)
          ⟨idx, hidx, rfl⟩
        rw [hdid i hi, hdid idx hidx] at hk
        have hii : i = idx := (Prod.mk.inj hk).2
        subst hii
        rw [hv]
        obtain ⟨sid, hsid⟩ := hsrc u (List.mem_cons_self _ _)
        exact hm _ sid (by rw [Value.cell_root, hsid])
      · intro op hop dst hdst2
        simp only [List.mem_map] at hop
        obtain ⟨p, hp, rfl⟩ := hop
        simp only [Op.target, Option.some.injEq] at hdst2
        subst hdst2
        rw [Value.cell_root]
        exact fun h => (List.pairwise_cons.mp hpw).1 p hp h.symm
    · exact ih2 u hu idx hidx

/-- The tail of the write-back phase: when the cell `c` already holds its original value, it
still does after any number of copies out of buffers of the transformation, provided that every
copy that reaches `c` brings the original value of `c`. -/
theorem copyOut_post (env : Env) (m0 mA : Memory) (c : Cell) (post : List (Value × Value))
    (hdst : ∀ p ∈ post, ∃ id, Value.root p.2 = .external id)
    (hsrc : ∀ p ∈ post, ∃ id, Value.root p.1 = .allocated id)
    (hgood : ∀ p ∈ post, ∀ i ∈ indexBox (Value.extents env p.1),
      Value.cell env p.2 i = c → mA (Value.cell env p.1 i) = m0 c)
    (m : Memory) (hm : ∀ d id, d.1 = .allocated id → m d = mA d) (hc : m c = m0 c) :
    runOps env (post.map (fun p => Op.linalgCopy p.1 p.2)) m c = m0 c := by
  induction post generalizing m with
  | nil => exact hc
  | cons p rest ih =>
    simp only [List.map_cons, runOps, Op.exec]
    obtain ⟨did, hdid⟩ := hdst p (List.mem_cons_self _ _)
    obtain ⟨sid, hsid⟩ := hsrc p (List.mem_cons_self _ _)
    apply ih (fun q hq => hdst q (List.mem_cons_of_mem _ hq))
      (fun q hq => hsrc q (List.mem_cons_of_mem _ hq))
      (fun q hq => hgood q (List.mem_cons_of_mem _ hq))
    · intro d id hd
      have hne : Value.root p.2 ≠ d.1 := by
        rw [hdid, hd]
        exact fun h => Root.noConfusion h
      rw [copyCells_frame env p.1 p.2 m d hne]
      exact hm d id hd
    · rcases copyCells_read env p.1 p.2 m c with h | ⟨i, hi, hk, hv⟩
      · rw [h]; exact hc
      · rw [hv, hm _ sid (by rw [Value.cell_root, hsid])]
        exact hgood p (List.mem_cons_self _ _) i hi hk

/-- The write-back phase for a cell `c` of the destination of the copy `kp`: whatever the
cell held before, after the phase it holds its original value. -/
theorem copyOut_phase (env : Env) (m0 mA : Memory) (c : Cell)
    (pre post : List (Value × Value)) (kp : Value × Value)
    (hdst : ∀ p ∈ pre ++ kp :: post, ∃ id, Value.root p.2 = .external id)
    (hsrc : ∀ p ∈ pre ++ kp :: post, ∃ id, Value.root p.1 = .allocated id)
    (hgood : ∀ p ∈ kp :: post, ∀ i ∈ indexBox (Value.extents env p.1),
      Value.cell env p.2 i = c → mA (Value.cell env p.1 i) = m0 c)
    (hcell : ∃ i ∈ indexBox (Value.extents env kp.1), Value.cell env kp.2 i = c)
    (m : Memory) (hm : ∀ d id, d.1 = .allocated id → m d = mA d) :
    runOps env ((pre ++ kp :: post).map (fun p => Op.linalgCopy p.1 p.2)) m c = m0 c := by
  rw [List.map_append, runOps_append, List.map_cons]
  simp only [runOps, Op.exec]
  have hpre : ∀ d id, d.1 = .allocated id →
      runOps env (pre.map (fun p => Op.linalgCopy p.1 p.2)) m d = mA d := by
    intro d id hd
    rw [runOps_frame]
    · exact hm d id hd
    · intro op hop dst hdst2
      simp only [List.mem_map] at hop
      obtain ⟨p, hp, rfl⟩ := hop
      simp only [Op.target, Option.some.injEq] at hdst2
      subst hdst2
      obtain ⟨did, hdid⟩ := hdst p (List.mem_append_left _ hp)
      rw [hdid, hd]
      exact fun h => Root.noConfusion h
  obtain ⟨kd, hkd⟩ := hdst kp (List.mem_append_right _ (List.mem_cons_self _ _))
  obtain ⟨ks, hks⟩ := hsrc kp (List.mem_append_right _ (List.mem_cons_self _ _))
  apply copyOut_post env m0 mA c post
    (fun q hq => hdst q (List.mem_append_right _ (List.mem_cons_of_mem _ hq)))
    (fun q hq => hsrc q (List.mem_append_right _ (List.mem_cons_of_mem _ hq)))
    (fun q hq => hgood q (List.mem_cons_of_mem _ hq))
  · intro d id hd
    have hne : Value.root kp.2 ≠ d.1 := by
      rw [hkd, hd]
      exact fun h => Root.noConfusion h
    rw [copyCells_frame env kp.1 kp.2 _ d hne]
    exact hpre d id hd
  · obtain ⟨i, hi, hk, hv⟩ := copyCells_hit env kp.1 kp.2
      (runOps env (pre.map (fun p => Op.linalgCopy p.1 p.2)) m) c hcell
    rw [hv, hpre _ ks (by rw [Value.cell_root, hks])]
    exact hgood kp (List.mem_cons_self _ _) i hi hk

/-! ## The emitted program -/

theorem opsAt_append (ip : InsertionPoint) (l1 l2 : List (InsertionPoint × Op)) :
    opsAt ip (l1 ++ l2) = opsAt ip l1 ++ opsAt ip l2 := by
  simp [opsAt]

theorem opsAt_memOps (ip : InsertionPoint) (created : List (InsertionPoint × Op)) :
    opsAt ip (memOps created) = (opsAt ip created).filter Op.isEffectful := by
  unfold opsAt memOps
  rw [List.filter_filter, List.filter_map, List.filter_filter]
  congr 2
  funext a
  simp [Bool.and_comm]

theorem runProgram_memOps (env : Env) (opSem : Memory → Memory)
    (created : List (InsertionPoint × Op)) (m : Memory) :
    runProgram env opSem (memOps created) m = runProgram env opSem created m := by
  unfold runProgram
  simp only [opsAt_memOps, runOps_filter_effectful]

theorem opsAt_map_same {α : Type} (ip : InsertionPoint) (l : List α) (f : α → Op) :
    opsAt ip (l.map (fun p => (ip, f p))) = l.map f := by
  induction l with
  | nil => rfl
  | cons a rest ih =>
    unfold opsAt at ih ⊢
    simp [List.filter_cons, ih]

theorem opsAt_map_other {α : Type} (ip ip2 : InsertionPoint) (hne : ip2 ≠ ip) (l : List α)
    (f : α → Op) : opsAt ip (l.map (fun p => (ip2, f p))) = [] := by
  induction l with
  | nil => rfl
  | cons a rest ih =>
    unfold opsAt at ih ⊢
    simp [List.filter_cons, hne, ih]

theorem opsAt_fills_same (ip : InsertionPoint) (fills : List (InsertionPoint × Op))
    (h : ∀ p ∈ fills, IsFillOfAllocated ip p) : opsAt ip fills = fills.map Prod.snd := by
  induction fills with
  | nil => rfl
  | cons p rest ih =>
    obtain ⟨val, full, id, hp, -⟩ := h p (List.mem_cons_self _ _)
    have ih2 := ih (fun q hq => h q (List.mem_cons_of_mem _ hq))
    unfold opsAt at ih2 ⊢
    subst hp
    simp [List.filter_cons, ih2]

theorem opsAt_fills_other (ip ip2 : InsertionPoint) (hne : ip ≠ ip2)
    (fills : List (InsertionPoint × Op))
    (h : ∀ p ∈ fills, IsFillOfAllocated ip p) : opsAt ip2 fills = [] := by
  induction fills with
  | nil => rfl
  | cons p rest ih =>
    obtain ⟨val, full, id, hp, -⟩ := h p (List.mem_cons_self _ _)
    have ih2 := ih (fun q hq => h q (List.mem_cons_of_mem _ hq))
    unfold opsAt at ih2 ⊢
    subst hp
    simp [List.filter_cons, hne, ih2]

theorem writeback_pairs_eq (linalgOp : LinalgOp) (options : LinalgPromotionOptions)
    (promoted : List (Nat × PromotionInfo)) :
    (linalgOp.operands.enum.filter (fun p => needsWriteback linalgOp
        (LinalgOpInstancePromotionOptions.construct linalgOp options) p.1)).map
      (fun p => ((mapIndex promoted p.1).partialLocalView, p.2)) =
    ((LinalgOpInstancePromotionOptions.construct linalgOp options).subViews.filter
        (fun v => decide (linalgOp.numDpsInputs ≤ v.1))).map
      (fun v => ((mapIndex promoted v.1).partialLocalView, v.2.result)) := by
  have hinj : Function.Injective
      (fun q : Value × Value => Event.copyOutFn q.1 q.2 .success) := by
    rintro ⟨a, b⟩ ⟨c, d⟩ h
    simp only [Event.copyOutFn.injEq, and_true] at h
    rw [h.1, h.2]
  apply List.map_injective_iff.mpr hinj
  simp only [List.map_map]
  exact writebacks_eq linalgOp options promoted

/-- What the round-trip law uses of a promotion map: every selected view has an entry whose
full view is a buffer of its own, and different selected operands have different buffers. -/
theorem promoted_buffers (subViews : List (Nat × SubViewOp))
    (promoted : List (Nat × PromotionInfo)) (lo hi : Nat)
    (hsome : ∀ v ∈ subViews, (mapFind promoted v.1).isSome = true)
    (hfresh : ∀ e ∈ promoted, HasFreshRoot lo hi e.2)
    (hpw : promoted.Pairwise
      (fun a b => Value.root a.2.fullLocalView ≠ Value.root b.2.fullLocalView)) :
    (∀ v ∈ subViews, ∃ id, Value.root (mapIndex promoted v.1).fullLocalView = .allocated id ∧
      ∀ env idx, Value.cell env (mapIndex promoted v.1).fullLocalView idx
        = (.allocated id, idx)) ∧
    ∀ v ∈ subViews, ∀ w ∈ subViews, v.1 ≠ w.1 →
      Value.root (mapIndex promoted v.1).fullLocalView ≠
        Value.root (mapIndex promoted w.1).fullLocalView := by
  have hmem : ∀ v ∈ subViews, (v.1, mapIndex promoted v.1) ∈ promoted := by
    intro v hv
    obtain ⟨info, hinfo⟩ := Option.isSome_iff_exists.mp (hsome v hv)
    have : mapIndex promoted v.1 = info := by simp [mapIndex, hinfo]
    rw [this]
    exact mapFind_some_mem _ _ _ hinfo
  constructor
  · intro v hv
    obtain ⟨id, -, -, h3⟩ := hfresh _ (hmem v hv)
    obtain ⟨id2, -, -, h4⟩ := hasFreshRoot_root (hfresh _ (hmem v hv))
    refine ⟨id, ?_, h3⟩
    have := Value.cell_root ⟨fun _ => 0, fun _ => []⟩ (mapIndex promoted v.1).fullLocalView []
    rw [h3] at this
    exact this.symm
  · intro v hv w hw hne
    have hsymm : Symmetric (fun a b : Nat × PromotionInfo =>
        Value.root a.2.fullLocalView ≠ Value.root b.2.fullLocalView) :=
      fun a b hab => Ne.symm hab
    exact hpw.forall hsymm (hmem v hv) (hmem w hw)
      (fun heq => hne (Prod.mk.inj heq).1)

theorem mem_copyInTargets (options : LinalgOpInstancePromotionOptions)
    (m : List (Nat × PromotionInfo)) (subViews : List (Nat × SubViewOp)) (t : Value × Value) :
    t ∈ copyInTargets options m subViews ↔
      ∃ v ∈ subViews, (mapFind m v.1).isSome = true ∧
        options.operandsNumbersToCopyIn.contains v.1 = true ∧
        t = (v.2.result, (mapIndex m v.1).partialLocalView) := by
  unfold copyInTargets
  simp only [List.mem_map, List.mem_filter, Bool.and_eq_true]
  constructor
  · rintro ⟨v, ⟨hv, h1, h2⟩, rfl⟩
    exact ⟨v, hv, h1, h2, rfl⟩
  · rintro ⟨v, hv, h1, h2, rfl⟩
    exact ⟨v, ⟨hv, h1, h2⟩, rfl⟩

/-- The round-trip law for the rewriter run on given instance options. -/
theorem promoteSubViewsOp_round_trip (env : Env) (bound : BoundAnalysis) (s : State)
    (op : LinalgOp) (inst : LinalgOpInstancePromotionOptions) (layout : DataLayout)
    (newOp : LinalgOp) (promoted : List (Nat × PromotionInfo)) (k : Nat) (sv : SubViewOp)
    (opSem : Memory → Memory) (m0 : Memory)
    (hfresh : FreshAllocation inst.allocationFn)
    (hquiet : QuietDeallocation inst.deallocationFn)
    (hci : inst.copyInFn = defaultCopyCallBack) (hco : inst.copyOutFn = defaultCopyCallBack)
    (hsorted : (inst.subViews.map Prod.fst).Pairwise (· < ·))
    (hwb : (op.operands.enum.filter (fun p => needsWriteback op inst p.1)).map
        (fun p => ((mapIndex promoted p.1).partialLocalView, p.2)) =
      (inst.subViews.filter (fun v => decide (op.numDpsInputs ≤ v.1))).map
        (fun v => ((mapIndex promoted v.1).partialLocalView, v.2.result)))
    (h : (promoteSubViewsOp bound s op inst layout).result = some newOp)
    (hmap : (promoteSubViewsMap bound s inst layout).1 = some promoted)
    (hk : (k, sv) ∈ inst.subViews)
    (hin : inst.operandsNumbersToCopyIn.contains k = true)
    (hout : op.numDpsInputs ≤ k)
    (hip : s.builder.insertionPoint = .initial) (hcreated : memOps s.builder.created = [])
    (hext : ∀ v ∈ inst.subViews, ∃ id, Value.root v.2.result = .external id)
    (hop : ∀ m idx, opSem m (Value.root (mapIndex promoted k).fullLocalView, idx) =
      m (Value.root (mapIndex promoted k).fullLocalView, idx))
    (hothers : ∀ w ∈ inst.subViews, k < w.1 →
      (∀ i ∈ indexBox (Value.extents env w.2.result),
        ∀ idx ∈ indexBox (Value.extents env sv.result),
          Value.cell env w.2.result i ≠ Value.cell env sv.result idx) ∨
      (inst.operandsNumbersToCopyIn.contains w.1 = true ∧
        ∀ m idx, opSem m (Value.root (mapIndex promoted w.1).fullLocalView, idx) =
          m (Value.root (mapIndex promoted w.1).fullLocalView, idx))) :
    ∀ idx ∈ indexBox (Value.extents env sv.result),
      runProgram env opSem (promoteSubViewsOp bound s op inst layout).state.builder.created m0
        (Value.cell env sv.result idx) = m0 (Value.cell env sv.result idx) := by
  intro idx hidx
  have hnd : (inst.subViews.map Prod.fst).Nodup := hsorted.imp (fun h => Nat.ne_of_lt h)
  obtain ⟨promoted2, fills, hi, c1, c2, c3, c4, c5⟩ := promoteSubViewsOp_created bound s op
    inst layout newOp hfresh hquiet hci hco hnd h
  rw [hmap] at c1
  simp only [Option.some.injEq] at c1
  subst c1
  obtain ⟨-, -, -, hall⟩ := promoteSubViewsMap_some bound s inst layout promoted
    (promoteSubViewsMap bound s inst layout).2 hnd (Prod.ext hmap rfl)
  have hsome : ∀ v ∈ inst.subViews, (mapFind promoted v.1).isSome = true :=
    fun v hv => (hall v hv).2.1
  have hpart : ∀ v ∈ inst.subViews, IsPartialViewOf v.2 (mapIndex promoted v.1) :=
    fun v hv => (hall v hv).1
  obtain ⟨hbuf, hdistinct⟩ := promoted_buffers inst.subViews promoted _ hi hsome c4 c5
  -- the emitted program
  rw [hip] at c2 c3
  have hwb2 : (op.operands.enum.filter (fun p => needsWriteback op inst p.1)).map
      (fun p => (InsertionPoint.afterOp,
        Op.linalgCopy (mapIndex promoted p.1).partialLocalView p.2)) =
      ((inst.subViews.filter (fun v => decide (op.numDpsInputs ≤ v.1))).map
        (fun v => ((mapIndex promoted v.1).partialLocalView, v.2.result))).map
        (fun q => (InsertionPoint.afterOp, Op.linalgCopy q.1 q.2)) := by
    rw [← hwb, List.map_map]
    rfl
  rw [hwb2, hcreated, List.nil_append] at c2
  rw [← runProgram_memOps, c2]
  have hI : opsAt .initial (fills ++
      (copyInTargets inst promoted inst.subViews).map
        (fun p => (InsertionPoint.initial, Op.linalgCopy p.1 p.2)) ++
      ((inst.subViews.filter (fun v => decide (op.numDpsInputs ≤ v.1))).map
        (fun v => ((mapIndex promoted v.1).partialLocalView, v.2.result))).map
        (fun q => (InsertionPoint.afterOp, Op.linalgCopy q.1 q.2))) =
      fills.map Prod.snd ++
        (copyInTargets inst promoted inst.subViews).map (fun p => Op.linalgCopy p.1 p.2) := by
    rw [opsAt_append, opsAt_append, opsAt_fills_same _ _ c3, opsAt_map_same,
      opsAt_map_other _ _ (by decide), List.append_nil]
  have hA : opsAt .afterOp (fills ++
      (copyInTargets inst promoted inst.subViews).map
        (fun p => (InsertionPoint.initial, Op.linalgCopy p.1 p.2)) ++
      ((inst.subViews.filter (fun v => decide (op.numDpsInputs ≤ v.1))).map
        (fun v => ((mapIndex promoted v.1).partialLocalView, v.2.result))).map
        (fun q => (InsertionPoint.afterOp, Op.linalgCopy q.1 q.2))) =
      ((inst.subViews.filter (fun v => decide (op.numDpsInputs ≤ v.1))).map
        (fun v => ((mapIndex promoted v.1).partialLocalView, v.2.result))).map
        (fun q => Op.linalgCopy q.1 q.2) := by
    rw [opsAt_append, opsAt_append, opsAt_fills_other _ _ (by decide) _ c3,
      opsAt_map_other _ _ (by decide), opsAt_map_same]
    rfl
  have hE : opsAt .funcEntry (fills ++
      (copyInTargets inst promoted inst.subViews).map
        (fun p => (InsertionPoint.initial, Op.linalgCopy p.1 p.2)) ++
      ((inst.subViews.filter (fun v => decide (op.numDpsInputs ≤ v.1))).map
        (fun v => ((mapIndex promoted v.1).partialLocalView, v.2.result))).map
        (fun q => (InsertionPoint.afterOp, Op.linalgCopy q.1 q.2))) = [] := by
    rw [opsAt_append, opsAt_append, opsAt_fills_other _ _ (by decide) _ c3,
      opsAt_map_other _ _ (by decide), opsAt_map_other _ _ (by decide)]
    rfl
  unfold runProgram
  rw [hI, hA, hE, runOps_append]
  simp only [runOps]
  -- phase 1: the fills
  have hF : ∀ c id, c.1 = .external id → runOps env (fills.map Prod.snd) m0 c = m0 c := by
    intro c id hc
    apply runOps_frame
    intro o ho dst hdst
    obtain ⟨p, hp, rfl⟩ := List.mem_map.mp ho
    obtain ⟨val, full, fid, rfl, hroot⟩ := c3 p hp
    simp only [Op.target, Option.some.injEq] at hdst
    subst hdst
    rw [hroot, hc]
    exact fun h => Root.noConfusion h
  -- phase 2: the copies into the promoted buffers
  have hsub : inst.subViews.Pairwise (fun a b =>
      Value.root (mapIndex promoted a.1).partialLocalView ≠
        Value.root (mapIndex promoted b.1).partialLocalView) := by
    have h1 : inst.subViews.Pairwise (fun a b => a.1 ≠ b.1) := List.pairwise_map.mp hnd
    refine h1.imp_of_mem ?_
    intro a b ha hb hab
    rw [root_partialLocalView a.2 _ (hpart a ha), root_partialLocalView b.2 _ (hpart b hb)]
    exact hdistinct a ha b hb hab
  obtain ⟨hCI1, hCI2⟩ := copyIn_phase env m0 (copyInTargets inst promoted inst.subViews)
    (by
      intro t ht
      obtain ⟨v, hv, -, -, rfl⟩ := (mem_copyInTargets _ _ _ _).mp ht
      exact hext v hv)
    (by
      intro t ht
      obtain ⟨v, hv, -, -, rfl⟩ := (mem_copyInTargets _ _ _ _).mp ht
      obtain ⟨id, -, hcell⟩ := hbuf v hv
      exact ⟨id, fun i hi2 => cell_partialLocalView env v.2 _ id (hpart v hv) (hcell env) i hi2⟩)
    (by
      intro t ht
      obtain ⟨v, hv, -, -, rfl⟩ := (mem_copyInTargets _ _ _ _).mp ht
      obtain ⟨id, hroot, -⟩ := hbuf v hv
      exact ⟨id, by rw [root_partialLocalView v.2 _ (hpart v hv)]; exact hroot⟩)
    (by
      unfold copyInTargets
      rw [List.pairwise_map]
      exact hsub.filter _)
    (runOps env (fills.map Prod.snd) m0) hF
  -- what the operation finds in, and leaves of, a promoted buffer it does not modify
  have hG : ∀ v ∈ inst.subViews, inst.operandsNumbersToCopyIn.contains v.1 = true →
      (∀ m idx, opSem m (Value.root (mapIndex promoted v.1).fullLocalView, idx) =
        m (Value.root (mapIndex promoted v.1).fullLocalView, idx)) →
      ∀ i ∈ indexBox (Value.extents env (mapIndex promoted v.1).partialLocalView),
        opSem (runOps env
            ((copyInTargets inst promoted inst.subViews).map (fun p => Op.linalgCopy p.1 p.2))
            (runOps env (fills.map Prod.snd) m0))
          (Value.cell env (mapIndex promoted v.1).partialLocalView i) =
        m0 (Value.cell env v.2.result i) := by
    intro v hv hmark hclean i hi2
    rw [extents_partialLocalView env v.2 _ (hpart v hv)] at hi2
    have hmemT : (v.2.result, (mapIndex promoted v.1).partialLocalView) ∈
        copyInTargets inst promoted inst.subViews :=
      (mem_copyInTargets _ _ _ _).mpr ⟨v, hv, hsome v hv, hmark, rfl⟩
    have h2 := hCI2 _ hmemT i hi2
    simp only at h2
    obtain ⟨id, hroot, hcell⟩ := hbuf v hv
    rw [cell_partialLocalView env v.2 _ id (hpart v hv) (hcell env) i hi2] at h2 ⊢
    rw [← hroot, hclean, hroot, h2]
  -- phase 3: the copies out of the promoted buffers
  obtain ⟨preS, postS, hsplit⟩ := List.append_of_mem hk
  have hpost : ∀ w ∈ postS, k < w.1 := by
    intro w hw
    rw [hsplit, List.map_append, List.map_cons, List.pairwise_append] at hsorted
    exact (List.pairwise_cons.mp hsorted.2.1).1 w.1 (List.mem_map_of_mem Prod.fst hw)
  have hmemS : ∀ w, w ∈ preS ∨ w = (k, sv) ∨ w ∈ postS → w ∈ inst.subViews := by
    intro w hw
    rw [hsplit]
    simp only [List.mem_append, List.mem_cons]
    exact hw
  have hlist : (inst.subViews.filter (fun v => decide (op.numDpsInputs ≤ v.1))).map
      (fun v => ((mapIndex promoted v.1).partialLocalView, v.2.result)) =
      (preS.filter (fun v => decide (op.numDpsInputs ≤ v.1))).map
        (fun v => ((mapIndex promoted v.1).partialLocalView, v.2.result)) ++
      ((mapIndex promoted k).partialLocalView, sv.result) ::
      (postS.filter (fun v => decide (op.numDpsInputs ≤ v.1))).map
        (fun v => ((mapIndex promoted v.1).partialLocalView, v.2.result)) := by
    rw [hsplit, List.filter_append, List.filter_cons]
    simp [hout]
  rw [hlist]
  have hboxk : indexBox (Value.extents env (mapIndex promoted k).partialLocalView) =
      indexBox (Value.extents env sv.result) := by
    rw [extents_partialLocalView env sv _ (hpart (k, sv) hk)]
  apply copyOut_phase env m0 _ _ _ _ _ _ _ _ _ _ (fun d id _ => rfl)
  · intro p hp
    have : ∃ w ∈ inst.subViews, p = ((mapIndex promoted w.1).partialLocalView, w.2.result) := by
      simp only [List.mem_append, List.mem_cons, List.mem_map, List.mem_filter] at hp
      rcases hp with ⟨w, ⟨hw, -⟩, rfl⟩ | rfl | ⟨w, ⟨hw, -⟩, rfl⟩
      · exact ⟨w, hmemS w (Or.inl hw), rfl⟩
      · exact ⟨(k, sv), hk, rfl⟩
      · exact ⟨w, hmemS w (Or.inr (Or.inr hw)), rfl⟩
    obtain ⟨w, hw, rfl⟩ := this
    exact hext w hw
  · intro p hp
    have : ∃ w ∈ inst.subViews, p = ((mapIndex promoted w.1).partialLocalView, w.2.result) := by
      simp only [List.mem_append, List.mem_cons, List.mem_map, List.mem_filter] at hp
      rcases hp with ⟨w, ⟨hw, -⟩, rfl⟩ | rfl | ⟨w, ⟨hw, -⟩, rfl⟩
      · exact ⟨w, hmemS w (Or.inl hw), rfl⟩
      · exact ⟨(k, sv), hk, rfl⟩
      · exact ⟨w, hmemS w (Or.inr (Or.inr hw)), rfl⟩
    obtain ⟨w, hw, rfl⟩ := this
    obtain ⟨id, hroot, -⟩ := hbuf w hw
    exact ⟨id, by rw [root_partialLocalView w.2 _ (hpart w hw)]; exact hroot⟩
  · intro p hp i hi2 hcell
    rcases List.mem_cons.mp hp with rfl | hp
    · rw [← hcell]
      exact hG (k, sv) hk hin hop i hi2
    · simp only [List.mem_map, List.mem_filter] at hp
      obtain ⟨w, ⟨hw, -⟩, rfl⟩ := hp
      have hwS := hmemS w (Or.inr (Or.inr hw))
      rcases hothers w hwS (hpost w hw) with hdisj | ⟨hmark, hclean⟩
      · rw [extents_partialLocalView env w.2 _ (hpart w hwS)] at hi2
        exact absurd hcell (hdisj i hi2 idx hidx)
      · rw [← hcell]
        exact hG w hwS hmark hclean i hi2
  · exact ⟨idx, by rw [hboxk]; exact hidx, rfl⟩

/-- Whether a backing buffer existed before the transformation. -/
def Root.isExternal : Root → Bool
  | .external _ => true
  | .allocated _ => false

theorem Root.exists_of_isExternal (r : Root) (h : r.isExternal = true) :
    ∃ id, r = .external id := by
  cases r with
  | external id => exact ⟨id, rfl⟩
  | allocated id => cases h

/-- C7: round-trip law.  Take a successful rewrite by `promoteSubViews` with the default copy
strategies, emitted by a builder standing in front of the operation that has emitted no write
of its own, with an allocation strategy that returns buffers of its own and a deallocation
strategy that writes nothing (the default ones do), for views into buffers that existed
before.  Let operand `k` be promoted, marked for copy-in and an output, and let the operation
leave the promoted buffer of `k` unchanged.  Assume, as the caller must, that no later promoted
output aliases the view of `k`, unless it is itself marked for copy-in and its promoted buffer
is left unchanged too.  Then, when the emitted program is run (fills and copies into the
promoted buffers, the operation, copies out, deallocations), every element of the original
view of `k` holds at the end what it held at the start, whatever the operation did to the
original buffers in between. -/
theorem round_trip_law (env : Env) (bound : BoundAnalysis) (builder : OpBuilder)
    (linalgOp : LinalgOp) (options : LinalgPromotionOptions) (layout : DataLayout)
    (newOp : LinalgOp) (promoted : List (Nat × PromotionInfo)) (k : Nat) (sv : SubViewOp)
    (opSem : Memory → Memory) (m0 : Memory)
    (h : (promoteSubViews bound builder linalgOp options layout).result = some newOp)
    (hmap : (promoteSubViewsMap bound ⟨builder, []⟩
      (LinalgOpInstancePromotionOptions.construct linalgOp options) layout).1 = some promoted)
    (hk : mapFind (LinalgOpInstancePromotionOptions.construct linalgOp options).subViews k
      = some sv)
    (hin : k ∈ (LinalgOpInstancePromotionOptions.construct linalgOp
      options).operandsNumbersToCopyIn)
    (hout : linalgOp.numDpsInputs ≤ k)
    (hcopyIn : options.copyInFn = none) (hcopyOut : options.copyOutFn = none)
    (hfresh : FreshAllocation
      (LinalgOpInstancePromotionOptions.construct linalgOp options).allocationFn)
    (hquiet : QuietDeallocation
      (LinalgOpInstancePromotionOptions.construct linalgOp options).deallocationFn)
    (hip : builder.insertionPoint = .initial) (hcreated : memOps builder.created = [])
    (hext : ∀ v ∈ (LinalgOpInstancePromotionOptions.construct linalgOp options).subViews,
      (Value.root v.2.result).isExternal = true)
    (hop : ∀ m idx, opSem m (Value.root (mapIndex promoted k).fullLocalView, idx) =
      m (Value.root (mapIndex promoted k).fullLocalView, idx))
    (hothers : ∀ j svj,
      mapFind (LinalgOpInstancePromotionOptions.construct linalgOp options).subViews j
        = some svj → k < j →
      (∀ i ∈ indexBox (Value.extents env svj.result),
        ∀ idx ∈ indexBox (Value.extents env sv.result),
          Value.cell env svj.result i ≠ Value.cell env sv.result idx) ∨
      (j ∈ (LinalgOpInstancePromotionOptions.construct linalgOp
          options).operandsNumbersToCopyIn ∧
        ∀ m idx, opSem m (Value.root (mapIndex promoted j).fullLocalView, idx) =
          m (Value.root (mapIndex promoted j).fullLocalView, idx))) :
    ∀ idx ∈ indexBox (Value.extents env sv.result),
      runProgram env opSem
        (promoteSubViews bound builder linalgOp options layout).state.builder.created m0
        (Value.cell env sv.result idx) = m0 (Value.cell env sv.result idx) := by
  unfold promoteSubViews at h ⊢
  have hsorted : ((LinalgOpInstancePromotionOptions.construct linalgOp options).subViews.map
      Prod.fst).Pairwise (· < ·) := by
    rw [construct_subViews]
    exact selectedFrom_pairwise options _ 0
  refine promoteSubViewsOp_round_trip env bound ⟨builder, []⟩ linalgOp
    (LinalgOpInstancePromotionOptions.construct linalgOp options) layout newOp promoted k sv
    opSem m0 hfresh hquiet ?_ ?_ hsorted (writeback_pairs_eq linalgOp options promoted) h hmap
    (mapFind_some_mem _ _ _ hk) (by simpa using hin) hout hip hcreated ?_ hop ?_
  · simp [LinalgOpInstancePromotionOptions.construct, hcopyIn]
  · simp [LinalgOpInstancePromotionOptions.construct, hcopyOut]
  · intro v hv
    exact Root.exists_of_isExternal _ (hext v hv)
  · intro w hw hlt
    have hfind := mapFind_of_mem_pairwise _ w.1 w.2 hw (construct_nodup linalgOp options)
    rcases hothers w.1 w.2 hfind hlt with hd | ⟨hm, hc⟩
    · exact Or.inl hd
    · exact Or.inr ⟨by simpa using hm, hc⟩

/-- An operation that overwrites every element of the buffers that existed before and leaves
the buffers of the transformation as they are. -/
def scribble : Memory → Memory :=
  fun m c =>
    match c.1 with
    | .external _ => 0
    | .allocated _ => m c

/-- A memory in which every element holds the sum of its indices plus one. -/
def sampleMemory : Memory := fun c => c.2.sum + 1

/-- C7, witness: the operation with inputs A, B and output C, all promoted with the default
configuration; the operation overwrites all three original buffers, and after the write-back
each of the 16 elements of C holds its original value again. -/
theorem round_trip_law_witness :
    threeViewsRewrite.result = some threeViewsRewrite.op ∧
    mapFind threeViewsInstance.subViews 2 = some (sampleView 2) ∧
    2 ∈ threeViewsInstance.operandsNumbersToCopyIn ∧
    threeViewsOp.numDpsInputs ≤ 2 ∧
    Value.extents sampleEnv (sampleView 2).result = [4, 4] ∧
    scribble sampleMemory (Value.cell sampleEnv (sampleView 2).result [1, 2]) ≠
      sampleMemory (Value.cell sampleEnv (sampleView 2).result [1, 2]) ∧
    ∀ idx ∈ indexBox (Value.extents sampleEnv (sampleView 2).result),
      runProgram sampleEnv scribble threeViewsRewrite.state.builder.created sampleMemory
        (Value.cell sampleEnv (sampleView 2).result idx) =
      sampleMemory (Value.cell sampleEnv (sampleView 2).result idx) :=
  ⟨rfl, rfl, by decide, by decide, by decide, by decide,
    round_trip_law sampleEnv sampleBound emptyBuilder threeViewsOp sampleOptions sampleLayout
      threeViewsRewrite.op threeViewsPromoted 2 (sampleView 2) scribble sampleMemory rfl rfl rfl
      (by decide) (by decide) rfl rfl
      (defaultAllocBufferCallBack_fresh sampleOptions none)
      (defaultDeallocBufferCallBack_quiet sampleOptions) rfl rfl (by decide)
      (fun _ _ => rfl)
      (fun j svj hj hlt => by
        have hmem := mapFind_some_mem _ _ _ hj
        have hkeys : ∀ v ∈ (LinalgOpInstancePromotionOptions.construct threeViewsOp
            sampleOptions).subViews, v.1 ≤ 2 := by decide
        exact absurd (hkeys _ hmem) (by simpa using hlt))⟩

/-! ## Address-space backends -/

/-- Modelled from the spec: `matchPattern(v, m_ConstantInt(&value))` is declared outside this
file; it succeeds exactly on a compile-time integer constant and yields the literal. -/
def matchConstantInt : Value → Option Int
  | .constant (.integer _ c) => some c
  | _ => none

/-- The loop of `allocateSubviewGPUMemoryInAddressSpace` that collects the shape; `none` is
the early return on a bound that is not a constant. -/
def shapeLoop : List Value → List Int → Option (List Int)
  | [], shape => some shape
  | bound :: rest, shape =>
    match matchConstantInt bound with
    | none => none
    | some value => shapeLoop rest (shape ++ [value])

/-- The function `allocateSubviewGPUMemoryInAddressSpace`.  `hasParentFunc` is whether
`subview->getParentOfType<func::FuncOp>()` finds a function; the `InsertionGuard` restores the
insertion point on every return. -/
def allocateSubviewGPUMemoryInAddressSpace (hasParentFunc : SubViewOp → Bool)
    (builder : OpBuilder) (subview : SubViewOp) (sizeBounds : List Value)
    (addressSpace : AddressSpace) : Option Value × OpBuilder :=
  if !hasParentFunc subview then (none, builder)
  else
    match shapeLoop sizeBounds [] with
    | none => (none, builder)
    | some shape =>
      let b1 : OpBuilder := { builder with insertionPoint := .funcEntry }
      let type : MemRefType := ⟨shape.map some, subview.elementType, some (.gpu addressSpace)⟩
      match addressSpace with
      | .workgroup =>
        let b2 := ({ b1 with nextId := b1.nextId + 1 }).create
          (.value (.alloc b1.nextId type [] none))
        (some (.alloc b1.nextId type [] none),
          { b2 with insertionPoint := builder.insertionPoint })
      | .privateSpace =>
        let b2 := ({ b1 with nextId := b1.nextId + 1 }).create
          (.value (.alloca b1.nextId type [] none))
        (some (.alloca b1.nextId type [] none),
          { b2 with insertionPoint := builder.insertionPoint })
      | .global => (none, { b1 with insertionPoint := builder.insertionPoint })

/-- The function `allocateWorkgroupMemory`. -/
def allocateWorkgroupMemory (hasParentFunc : SubViewOp → Bool) : AllocBufferCallbackFn :=
  fun builder subview sizeBounds _ =>
    allocateSubviewGPUMemoryInAddressSpace hasParentFunc builder subview sizeBounds .workgroup

/-- The function `deallocateWorkgroupMemory`. -/
def deallocateWorkgroupMemory : DeallocBufferCallbackFn :=
  fun b _ => (.success, b)

/-- The function `copyToWorkgroupMemory`. -/
def copyToWorkgroupMemory : CopyCallbackFn :=
  fun b src dst =>
    (.success, ((b.create .gpuBarrier).create (.memrefCopy src dst)).create .gpuBarrier)

/-- The function `copyToGPUPrivateMemory`. -/
def copyToGPUPrivateMemory : CopyCallbackFn :=
  fun b src dst => (.success, b.create (.memrefCopy src dst))

/-- The function `deallocateGPUPrivateMemory`. -/
def deallocateGPUPrivateMemory : DeallocBufferCallbackFn :=
  fun b _ => (.success, b)

/-- C16: for every builder, source and destination, `copyToWorkgroupMemory` emits exactly
three operations at the current insertion point, in this order: a barrier, one copy from the
source to the destination, a barrier, and returns success; `copyToGPUPrivateMemory` emits
exactly one copy from the source to the destination, no barrier, and returns success. -/
theorem gpu_copies (b : OpBuilder) (src dst : Value) :
    copyToWorkgroupMemory b src dst =
      (.success,
        { b with created := b.created ++
            [(b.insertionPoint, .gpuBarrier), (b.insertionPoint, .memrefCopy src dst),
              (b.insertionPoint, .gpuBarrier)] }) ∧
    copyToGPUPrivateMemory b src dst =
      (.success,
        { b with created := b.created ++ [(b.insertionPoint, .memrefCopy src dst)] }) := by
  constructor
  · simp [copyToWorkgroupMemory, OpBuilder.create]
  · simp [copyToGPUPrivateMemory, OpBuilder.create]

theorem shapeLoop_eq (bounds : List Value) (shape : List Int) :
    shapeLoop bounds shape =
      if bounds.all (fun v => (matchConstantInt v).isSome) then
        some (shape ++ bounds.filterMap matchConstantInt)
      else none := by
  induction bounds generalizing shape with
  | nil => simp [shapeLoop]
  | cons v rest ih =>
    rw [shapeLoop]
    cases hv : matchConstantInt v with
    | none => simp [hv]
    | some c =>
      simp only [ih, List.all_cons, hv, Option.isSome_some, Bool.true_and,
        List.filterMap_cons, List.append_assoc, List.singleton_append]

/-- The single literal size `2 ^ 61` with an element width of 4 bytes: the byte size
`4 * 2 ^ 61 = 2 ^ 63` wraps around to `kDynamic`, and the buffer that is allocated has the
type `memref<?xi8>` and no size operand. -/
theorem default_allocation_dynamic_marker :
    wrapInt64 ((sampleLayout.getTypeSize (sampleView 0).elementType : Int) * 2 ^ 61) =
      kDynamic ∧
    (defaultAllocBufferCallBack sampleOptions emptyBuilder (sampleView 0)
        [constantIndex (2 ^ 61)] none sampleLayout).1 =
      some (.view ⟨[none], .float 32, none⟩
        (.alloc 0 ⟨[none], .integer 8, none⟩ [] none) (constantIndex 0)
        [constantIndex (2 ^ 61)]) := by
  refine ⟨by decide, ?_⟩
  decide

/-! ## Views without padding -/

theorem promoteSubviewAsNewBuffer_call (bound : BoundAnalysis) (s : State)
    (subView : SubViewOp) (useOrig : Bool) (allocationFn : AllocBufferCallbackFn)
    (layout : DataLayout) (info : PromotionInfo) (t : State)
    (h : promoteSubviewAsNewBuffer bound s subView useOrig allocationFn layout
      = (some info, t)) :
    ∃ b, (allocationFn b subView (subView.keptSizes.map (resolveFullSize bound useOrig))
      layout).1 = some info.fullLocalView := by
  obtain ⟨h1, -, -⟩ := tileSizesLoop_eq bound subView useOrig
    (SubViewOp.getOrCreateRanges subView.offsets subView.sizes subView.strides) 0 ⟨s, [], [], 0⟩
  simp only [List.nil_append] at h1
  unfold promoteSubviewAsNewBuffer at h
  simp only at h
  split at h
  · simp at h
  · rename_i full hfull
    simp only [Prod.mk.injEq, Option.some.injEq] at h
    refine ⟨(tileSizesLoop bound subView useOrig 0
      (SubViewOp.getOrCreateRanges subView.offsets subView.sizes subView.strides)
      ⟨s, [], [], 0⟩).state.builder, ?_⟩
    rw [← h.1]
    rw [h1] at hfull
    exact hfull

theorem resolveFullSize_eval (env : Env) (bound : BoundAnalysis) (useOrig : Bool)
    (size : OpFoldResult) (h : (size.isAttribute || useOrig) = true) :
    Value.eval env (resolveFullSize bound useOrig size) = OpFoldResult.eval env size := by
  unfold resolveFullSize
  rw [if_pos h]
  cases size with
  | attr c => simp [getValueOrCreateConstantIndexOp, Value.eval_constantIndex, OpFoldResult.eval]
  | value v => simp [getValueOrCreateConstantIndexOp, OpFoldResult.eval]

/-- C17: for every view all of whose non-dropped dimension sizes are static constants, and for
every view at all when `useOriginalSubviewSize` is set, the sizes that
`promoteSubviewAsNewBuffer` requests for the full view are, in every dimension, the run-time
extents of the partial view it produces; hence, with an allocation strategy that returns a view
of the requested sizes (as the default one does), the full view and the partial view have
identical extents. -/
theorem full_view_without_padding (env : Env) (bound : BoundAnalysis) (s : State)
    (subView : SubViewOp) (useOriginalSubviewSize : Bool)
    (allocationFn : AllocBufferCallbackFn) (layout : DataLayout) (info : PromotionInfo)
    (t : State)
    (hstatic : useOriginalSubviewSize = true ∨
      ∀ size ∈ subView.keptSizes, size.isAttribute = true)
    (h : promoteSubviewAsNewBuffer bound s subView useOriginalSubviewSize allocationFn layout
      = (some info, t)) :
    ∃ (l : List Event) (fullSizes : List Value),
      t.log = s.log ++ l ∧
      trace l = [.allocationFn subView fullSizes (some info.fullLocalView)] ∧
      fullSizes.map (Value.eval env) = Value.extents env info.partialLocalView ∧
      Value.extents env info.partialLocalView = Value.extents env subView.result ∧
      ((∀ b sv sizes lay v, (allocationFn b sv sizes lay).1 = some v →
          Value.extents env v = sizes.map (Value.eval env)) →
        Value.extents env info.fullLocalView = Value.extents env info.partialLocalView) := by
  obtain ⟨l, id, hl, ht, hp⟩ := promoteSubviewAsNewBuffer_some bound s subView
    useOriginalSubviewSize allocationFn layout info t h
  obtain ⟨b, hb⟩ := promoteSubviewAsNewBuffer_call bound s subView useOriginalSubviewSize
    allocationFn layout info t h
  have hext := extents_partialLocalView env subView info ⟨id, hp⟩
  have hsizes : (subView.keptSizes.map (resolveFullSize bound useOriginalSubviewSize)).map
      (Value.eval env) = Value.extents env info.partialLocalView := by
    rw [hext, SubViewOp.extents_result, List.map_map]
    apply List.map_congr_left
    intro size hsize
    apply resolveFullSize_eval
    rcases hstatic with hu | hs
    · simp [hu]
    · simp [hs size hsize]
  refine ⟨l, _, hl, ht, hsizes, hext, ?_⟩
  intro halloc
  rw [halloc b subView _ layout _ hb, hsizes]

/-- C17, witness: the static 4x4 view promoted with the default allocation strategy and bound
resolution enabled; both views have the extents 4x4. -/
theorem full_view_without_padding_witness :
    (∀ size ∈ (sampleView 0).keptSizes, size.isAttribute = true) ∧
    Value.extents sampleEnv
      ((promoteSubviewAsNewBuffer sampleBound ⟨emptyBuilder, []⟩ (sampleView 0) false
        sampleAllocationFn sampleLayout).1.getD ⟨.external 0, .external 0⟩).fullLocalView
      = [4, 4] ∧
    Value.extents sampleEnv
      ((promoteSubviewAsNewBuffer sampleBound ⟨emptyBuilder, []⟩ (sampleView 0) false
        sampleAllocationFn sampleLayout).1.getD ⟨.external 0, .external 0⟩).partialLocalView
      = [4, 4] ∧
    ∃ (l : List Event) (fullSizes : List Value),
      (promoteSubviewAsNewBuffer sampleBound ⟨emptyBuilder, []⟩ (sampleView 0) false
        sampleAllocationFn sampleLayout).2.log = [] ++ l ∧
      trace l = [.allocationFn (sampleView 0) fullSizes
        (some ((promoteSubviewAsNewBuffer sampleBound ⟨emptyBuilder, []⟩ (sampleView 0) false
          sampleAllocationFn sampleLayout).1.getD
            ⟨.external 0, .external 0⟩).fullLocalView)] ∧
      fullSizes.map (Value.eval sampleEnv) =
        Value.extents sampleEnv
          ((promoteSubviewAsNewBuffer sampleBound ⟨emptyBuilder, []⟩ (sampleView 0) false
            sampleAllocationFn sampleLayout).1.getD
              ⟨.external 0, .external 0⟩).partialLocalView ∧
      Value.extents sampleEnv
          ((promoteSubviewAsNewBuffer sampleBound ⟨emptyBuilder, []⟩ (sampleView 0) false
            sampleAllocationFn sampleLayout).1.getD
              ⟨.external 0, .external 0⟩).partialLocalView =
        Value.extents sampleEnv (sampleView 0).result ∧
      ((∀ b sv sizes lay v, (sampleAllocationFn b sv sizes lay).1 = some v →
          Value.extents sampleEnv v = sizes.map (Value.eval sampleEnv)) →
        Value.extents sampleEnv
            ((promoteSubviewAsNewBuffer sampleBound ⟨emptyBuilder, []⟩ (sampleView 0) false
              sampleAllocationFn sampleLayout).1.getD
                ⟨.external 0, .external 0⟩).fullLocalView =
          Value.extents sampleEnv
            ((promoteSubviewAsNewBuffer sampleBound ⟨emptyBuilder, []⟩ (sampleView 0) false
              sampleAllocationFn sampleLayout).1.getD
                ⟨.external 0, .external 0⟩).partialLocalView) :=
  ⟨by decide, by decide, by decide,
    full_view_without_padding sampleEnv sampleBound ⟨emptyBuilder, []⟩ (sampleView 0) false
      sampleAllocationFn sampleLayout _ _ (Or.inr (by decide)) rfl⟩

/-! ## The precondition check and the policy resolver -/

theorem construct_subViews_ne_nil_iff (linalgOp : LinalgOp) (options : LinalgPromotionOptions) :
    (LinalgOpInstancePromotionOptions.construct linalgOp options).subViews ≠ [] ↔
      ∃ k, ((linalgOp.operands[k]?).bind Value.getDefiningSubViewOp).isSome = true ∧
        requested options k = true := by
  constructor
  · intro hne
    obtain ⟨e, he⟩ := List.exists_mem_of_ne_nil _ hne
    have hfind := mapFind_of_mem_pairwise _ e.1 e.2 he (construct_nodup linalgOp options)
    rw [construct_mapFind] at hfind
    exact ⟨e.1, by rw [hfind.1]; rfl, hfind.2⟩
  · rintro ⟨k, h1, h2⟩ hnil
    obtain ⟨sv, hsv⟩ := Option.isSome_iff_exists.mp h1
    have hfind := (construct_mapFind linalgOp options k sv).mpr ⟨hsv, h2⟩
    rw [hnil] at hfind
    cases hfind

theorem promoteSubViewsOp_of_no_subViews (bound : BoundAnalysis) (s : State) (op : LinalgOp)
    (options : LinalgOpInstancePromotionOptions) (layout : DataLayout)
    (h : options.subViews = []) :
    promoteSubViewsOp bound s op options layout = ⟨none, op, s⟩ := by
  unfold promoteSubViewsOp promoteSubViewsMap
  simp [h]

/-- C18: for every structured operation with pure buffer semantics and every configuration,
`promoteSubviewsPrecondition` succeeds if and only if the constructor of
`LinalgOpInstancePromotionOptions` selects at least one operand.  So an operation that passes
the precondition never takes the exit of `promoteSubViews` for an empty selection, and an
operation that fails the precondition always takes it: `promoteSubViews` then fails before it
has done anything. -/
theorem precondition_agrees_with_selection (bound : BoundAnalysis) (builder : OpBuilder)
    (linalgOp : LinalgOp) (options : LinalgPromotionOptions) (layout : DataLayout)
    (hpure : linalgOp.hasPureBufferSemantics = true) :
    ((promoteSubviewsPrecondition (.linalg linalgOp) options).1 = .success ↔
      (LinalgOpInstancePromotionOptions.construct linalgOp options).subViews ≠ []) ∧
    ((promoteSubviewsPrecondition (.linalg linalgOp) options).1 = .success →
      (LinalgOpInstancePromotionOptions.construct linalgOp options).subViews.isEmpty
        = false) ∧
    ((promoteSubviewsPrecondition (.linalg linalgOp) options).1 = .failure →
      (LinalgOpInstancePromotionOptions.construct linalgOp options).subViews.isEmpty = true ∧
      (promoteSubViews bound builder linalgOp options layout).result = none ∧
      (promoteSubViews bound builder linalgOp options layout).op = linalgOp ∧
      (promoteSubViews bound builder linalgOp options layout).state = ⟨builder, []⟩) := by
  have hiff : (promoteSubviewsPrecondition (.linalg linalgOp) options).1 = .success ↔
      (LinalgOpInstancePromotionOptions.construct linalgOp options).subViews ≠ [] := by
    rw [construct_subViews_ne_nil_iff]
    simp only [promoteSubviewsPrecondition, hpure, Bool.not_true, Bool.false_eq_true, if_false]
    rw [preconditionLoop_success_iff]
    simp
  refine ⟨hiff, ?_, ?_⟩
  · intro hs
    have hne := hiff.mp hs
    cases hsv : (LinalgOpInstancePromotionOptions.construct linalgOp options).subViews with
    | nil => exact absurd hsv hne
    | cons _ _ => rfl
  · intro hf
    have hnil : (LinalgOpInstancePromotionOptions.construct linalgOp options).subViews = [] := by
      by_contra hne
      rw [hiff.mpr hne] at hf
      cases hf
    refine ⟨by rw [hnil]; rfl, ?_⟩
    unfold promoteSubViews
    rw [promoteSubViewsOp_of_no_subViews _ _ _ _ _ hnil]
    exact ⟨rfl, rfl, rfl⟩

/-- An operation without any subview operand. -/
def noViewOp : LinalgOp := sampleOp [.external 1, .external 2] 1

/-- C18, witness: the three-view operation passes the precondition and has a non-empty
selection; the operation without subview operands fails it and makes `promoteSubViews` fail
before anything is done. -/
theorem precondition_agrees_with_selection_witness :
    threeViewsOp.hasPureBufferSemantics = true ∧
    (promoteSubviewsPrecondition (.linalg threeViewsOp) sampleOptions).1 = .success ∧
    (promoteSubviewsPrecondition (.linalg noViewOp) sampleOptions).1 = .failure ∧
    ((promoteSubviewsPrecondition (.linalg threeViewsOp) sampleOptions).1 = .success ↔
      (LinalgOpInstancePromotionOptions.construct threeViewsOp sampleOptions).subViews ≠ []) ∧
    ((promoteSubviewsPrecondition (.linalg threeViewsOp) sampleOptions).1 = .success →
      (LinalgOpInstancePromotionOptions.construct threeViewsOp sampleOptions).subViews.isEmpty
        = false) ∧
    ((promoteSubviewsPrecondition (.linalg threeViewsOp) sampleOptions).1 = .failure →
      (LinalgOpInstancePromotionOptions.construct threeViewsOp
        sampleOptions).subViews.isEmpty = true ∧
      (promoteSubViews sampleBound emptyBuilder threeViewsOp sampleOptions
        sampleLayout).result = none ∧
      (promoteSubViews sampleBound emptyBuilder threeViewsOp sampleOptions sampleLayout).op
        = threeViewsOp ∧
      (promoteSubViews sampleBound emptyBuilder threeViewsOp sampleOptions
        sampleLayout).state = ⟨emptyBuilder, []⟩) :=
  ⟨rfl, by decide, by decide,
    precondition_agrees_with_selection sampleBound emptyBuilder threeViewsOp sampleOptions
      sampleLayout rfl⟩

/-! ## The deallocation schedule -/

/-- The deallocation invocations recorded in a log: buffer and outcome. -/
def deallocCalls (log : List Event) : List (Value × LogicalResult) :=
  log.filterMap (fun e =>
    match e with
    | .deallocationFn buffer r => some (buffer, r)
    | _ => none)

theorem deallocCalls_append (l1 l2 : List Event) :
    deallocCalls (l1 ++ l2) = deallocCalls l1 ++ deallocCalls l2 := by
  simp [deallocCalls]

theorem mem_trace_or (l : List Event) (e : Event) (he : e ∈ l) :
    e.isValueCreation = true ∨ e ∈ trace l := by
  by_cases hv : e.isValueCreation = true
  · exact Or.inl hv
  · right
    unfold trace
    rw [List.mem_filter]
    exact ⟨he, by simpa using hv⟩

theorem deallocCalls_eq_nil (l : List Event)
    (h : ∀ e ∈ trace l, ∀ b r, e ≠ .deallocationFn b r) : deallocCalls l = [] := by
  unfold deallocCalls
  rw [List.filterMap_eq_nil_iff]
  intro e he
  rcases mem_trace_or l e he with hv | ht
  · cases e with
    | create op => rfl
    | deallocationFn b r => simp [Event.isValueCreation] at hv
    | allocationFn _ _ _ => rfl
    | copyInFn _ _ _ => rfl
    | setOperands _ => rfl
    | setInsertionPointAfter => rfl
    | copyOutFn _ _ _ => rfl
  · cases e with
    | deallocationFn b r => exact absurd rfl (h _ ht b r)
    | create op => rfl
    | allocationFn _ _ _ => rfl
    | copyInFn _ _ _ => rfl
    | setOperands _ => rfl
    | setInsertionPointAfter => rfl
    | copyOutFn _ _ _ => rfl

theorem mem_promotionEvents (bound : BoundAnalysis) (options : LinalgOpInstancePromotionOptions)
    (v : Nat × SubViewOp) (info : PromotionInfo) (e : Event)
    (he : e ∈ promotionEvents bound options v info) :
    (e = .allocationFn v.2
        (v.2.keptSizes.map (resolveFullSize bound options.useOriginalSubviewSize))
        (some info.fullLocalView)) ∨
      (mapGet options.useFullTileBuffers v.2.result = true ∧
        ∃ z, zeroOf v.2.elementType = some z ∧ e = .create (.linalgFill z info.fullLocalView)) := by
  unfold promotionEvents at he
  rcases List.mem_cons.mp he with he | he
  · exact Or.inl he
  · right
    by_cases hf : mapGet options.useFullTileBuffers v.2.result = true
    · cases hz : zeroOf v.2.elementType with
      | none => simp [hf, hz] at he
      | some z =>
        simp only [hf, if_true, hz, List.mem_singleton] at he
        exact ⟨hf, z, rfl, he⟩
    · simp [hf] at he

theorem deallocCalls_zipWith (promoted : List (Nat × PromotionInfo))
    (results : List LogicalResult) :
    deallocCalls
      (List.zipWith (fun pi r => Event.deallocationFn pi.2.fullLocalView r) promoted results)
      = List.zipWith (fun pi r => (pi.2.fullLocalView, r)) promoted results := by
  induction promoted generalizing results with
  | nil => rfl
  | cons pi rest ih =>
    cases results with
    | nil => rfl
    | cons r rs =>
      rw [List.zipWith_cons_cons, show ∀ (e : Event) (l : List Event), e :: l = [e] ++ l from
        fun _ _ => rfl, deallocCalls_append, ih]
      rfl

/-- Log entries that record a strategy invocation that failed: an allocation that returned no
buffer, a copy-in or a copy-out that reported failure. -/
def Event.isFailure : Event → Bool
  | .allocationFn _ _ none => true
  | .copyInFn _ _ .failure => true
  | .copyOutFn _ _ .failure => true
  | _ => false

/-- Log entries that record the allocation of a view that is flagged for full-buffer use and
whose element type has no zero: the promotion fails right after it. -/
def Event.lacksZero (options : LinalgOpInstancePromotionOptions) : Event → Bool
  | .allocationFn sv _ (some _) =>
    mapGet options.useFullTileBuffers sv.result && (zeroOf sv.elementType).isNone
  | _ => false

/-- Log entries at which the rewrite is abandoned. -/
def Event.aborts (options : LinalgOpInstancePromotionOptions) (e : Event) : Bool :=
  e.isFailure || e.lacksZero options

/-- Log entries of the promotion phase: allocations, fills and copy-ins. -/
def Event.isPromotion : Event → Bool
  | .allocationFn _ _ _ => true
  | .create (.linalgFill _ _) => true
  | .copyInFn _ _ _ => true
  | _ => false

theorem promoteSubviewAsNewBuffer_none (bound : BoundAnalysis) (s : State)
    (subView : SubViewOp) (useOrig : Bool) (allocationFn : AllocBufferCallbackFn)
    (layout : DataLayout) (t : State)
    (h : promoteSubviewAsNewBuffer bound s subView useOrig allocationFn layout = (none, t)) :
    ∃ l, t.log = s.log ++ l ∧
      trace l = [.allocationFn subView (subView.keptSizes.map (resolveFullSize bound useOrig))
        none] := by
  obtain ⟨h1, -, l0, h3, h4⟩ := tileSizesLoop_eq bound subView useOrig
    (SubViewOp.getOrCreateRanges subView.offsets subView.sizes subView.strides) 0 ⟨s, [], [], 0⟩
  simp only [List.nil_append] at h1 h3
  unfold promoteSubviewAsNewBuffer at h
  simp only at h
  split at h
  · rename_i hnone
    simp only [Prod.mk.injEq, true_and] at h
    refine ⟨l0 ++ [.allocationFn subView (subView.keptSizes.map (resolveFullSize bound useOrig))
      none], ?_, ?_⟩
    · rw [← h]
      simp only [h3, hnone, List.append_assoc]
      rw [h1]
      rfl
    · rw [trace_append, h4]
      rfl
  · simp at h

theorem aborts_fill (options : LinalgOpInstancePromotionOptions) (z full : Value) :
    Event.aborts options (.create (.linalgFill z full)) = false := rfl

theorem aborts_of_mem_promotionEvents (bound : BoundAnalysis)
    (options : LinalgOpInstancePromotionOptions) (v : Nat × SubViewOp) (info : PromotionInfo)
    (hz : mapGet options.useFullTileBuffers v.2.result = true →
      (zeroOf v.2.elementType).isSome = true)
    (e : Event) (he : e ∈ promotionEvents bound options v info) :
    e.aborts options = false ∧ e.isPromotion = true := by
  rcases mem_promotionEvents bound options v info e he with h1 | ⟨-, z, -, h1⟩
  · subst h1
    refine ⟨?_, rfl⟩
    simp only [Event.aborts, Event.isFailure, Event.lacksZero, Bool.false_or]
    by_cases hf : mapGet options.useFullTileBuffers v.2.result = true
    · obtain ⟨z, hzz⟩ := Option.isSome_iff_exists.mp (hz hf)
      simp [hzz]
    · simp [hf]
  · subst h1
    exact ⟨rfl, rfl⟩

theorem promoteLoop_none (bound : BoundAnalysis) (options : LinalgOpInstancePromotionOptions)
    (layout : DataLayout) (subViews : List (Nat × SubViewOp)) (s : State)
    (m : List (Nat × PromotionInfo)) (s1 : State)
    (h : promoteLoop bound options layout subViews s m = (none, s1)) :
    ∃ l pre e, s1.log = s.log ++ l ∧ trace l = pre ++ [e] ∧
      e.aborts options = true ∧ (∃ sv sizes r, e = .allocationFn sv sizes r) ∧
      ∀ x ∈ pre, x.aborts options = false ∧ x.isPromotion = true := by
  induction subViews generalizing s m with
  | nil =>
    rw [promoteLoop_nil] at h
    simp at h
  | cons v rest ih =>
    rw [promoteLoop_cons] at h
    cases hp : promoteSubviewAsNewBuffer bound s v.2 options.useOriginalSubviewSize
        options.allocationFn layout with
    | mk oinfo sa =>
      rw [hp] at h
      cases oinfo with
      | none =>
        simp only [Prod.mk.injEq, true_and] at h
        subst h
        obtain ⟨l, hl, ht⟩ := promoteSubviewAsNewBuffer_none bound s v.2
          options.useOriginalSubviewSize options.allocationFn layout sa hp
        exact ⟨l, [], .allocationFn v.2
          (v.2.keptSizes.map (resolveFullSize bound options.useOriginalSubviewSize)) none,
          hl, by rw [ht]; rfl, rfl, ⟨_, _, _, rfl⟩, by simp⟩
      | some info =>
        obtain ⟨la, id, hla, hta, -⟩ := promoteSubviewAsNewBuffer_some bound s v.2
          options.useOriginalSubviewSize options.allocationFn layout info sa hp
        simp only at h
        by_cases hflag : mapGet options.useFullTileBuffers v.2.result = true
        · simp only [hflag, Bool.not_true, Bool.false_eq_true, if_false] at h
          obtain ⟨lf, hlf, htf⟩ := fillValue_log sa v.2.elementType
          have hfst := fillValue_fst sa v.2.elementType
          cases hfv : fillValue sa v.2.elementType with
          | mk oz sf =>
            rw [hfv] at h hlf hfst
            simp only at hlf hfst
            cases oz with
            | none =>
              simp only [Prod.mk.injEq, true_and] at h
              subst h
              refine ⟨la ++ lf, [], .allocationFn v.2
                (v.2.keptSizes.map (resolveFullSize bound options.useOriginalSubviewSize))
                (some info.fullLocalView), by rw [hlf, hla, List.append_assoc], ?_, ?_,
                ⟨_, _, _, rfl⟩, by simp⟩
              · rw [trace_append, hta, htf]
                rfl
              · simp [Event.aborts, Event.lacksZero, hflag, ← hfst]
            | some z =>
              simp only at h
              obtain ⟨l, pre, e, hl, ht, ha, hk, hpre⟩ := ih _ _ h
              refine ⟨la ++ lf ++ [.create (.linalgFill z info.fullLocalView)] ++ l,
                [.allocationFn v.2
                  (v.2.keptSizes.map (resolveFullSize bound options.useOriginalSubviewSize))
                  (some info.fullLocalView), .create (.linalgFill z info.fullLocalView)] ++ pre,
                e, ?_, ?_, ha, hk, ?_⟩
              · rw [hl]
                simp [State.create, hlf, hla]
              · rw [trace_append, trace_append, trace_append, hta, htf, ht]
                simp [trace, Event.isValueCreation]
              · intro x hx
                simp only [List.cons_append, List.nil_append, List.mem_cons] at hx
                rcases hx with rfl | rfl | hx
                · refine ⟨?_, rfl⟩
                  simp [Event.aborts, Event.isFailure, Event.lacksZero, ← hfst]
                · exact ⟨rfl, rfl⟩
                · exact hpre x hx
        · have hflag2 : mapGet options.useFullTileBuffers v.2.result = false := by
            simpa using hflag
          simp only [hflag2, Bool.not_false, if_true] at h
          obtain ⟨l, pre, e, hl, ht, ha, hk, hpre⟩ := ih _ _ h
          refine ⟨la ++ l,
            [.allocationFn v.2
              (v.2.keptSizes.map (resolveFullSize bound options.useOriginalSubviewSize))
              (some info.fullLocalView)] ++ pre, e, ?_, ?_, ha, hk, ?_⟩
          · rw [hl, hla, List.append_assoc]
          · rw [trace_append, hta, ht]
            simp
          · intro x hx
            simp only [List.cons_append, List.nil_append, List.mem_cons] at hx
            rcases hx with rfl | hx
            · refine ⟨?_, rfl⟩
              simp [Event.aborts, Event.isFailure, Event.lacksZero, hflag2]
            · exact hpre x hx

theorem abort_is_last {α : Type} (p : α → Bool) (pre1 : List α) (e1 : α) :
    ∀ (pre : List α) (e : α) (post : List α),
      (∀ x ∈ pre1, p x = false) → pre1 ++ [e1] = pre ++ e :: post → p e = true →
      post = [] ∧ pre = pre1 ∧ e = e1 := by
  induction pre1 with
  | nil =>
    intro pre e post _ heq _
    cases pre with
    | nil =>
      simp only [List.nil_append, List.cons.injEq] at heq
      exact ⟨heq.2.symm, rfl, heq.1.symm⟩
    | cons y ys =>
      simp only [List.nil_append, List.cons_append, List.cons.injEq] at heq
      have := heq.2
      simp at this
  | cons x xs ih =>
    intro pre e post hpre heq he
    cases pre with
    | nil =>
      simp only [List.cons_append, List.nil_append, List.cons.injEq] at heq
      have hx := hpre x (List.mem_cons_self _ _)
      rw [heq.1, he] at hx
      cases hx
    | cons y ys =>
      simp only [List.cons_append, List.cons.injEq] at heq
      obtain ⟨h1, h2, h3⟩ := ih ys e post (fun z hz => hpre z (List.mem_cons_of_mem _ hz))
        heq.2 he
      exact ⟨h1, by rw [heq.1, h2], h3⟩

theorem promoteSubViewsMap_none (bound : BoundAnalysis) (s : State)
    (options : LinalgOpInstancePromotionOptions) (layout : DataLayout) (s2 : State)
    (hnd : (options.subViews.map Prod.fst).Nodup)
    (h : promoteSubViewsMap bound s options layout = (none, s2)) :
    (options.subViews = [] ∧ s2 = s) ∨
    (options.subViews ≠ [] ∧ ∃ l pre e, s2.log = s.log ++ l ∧ trace l = pre ++ [e] ∧
      e.aborts options = true ∧ e.isPromotion = true ∧
      ∀ x ∈ pre, x.aborts options = false ∧ x.isPromotion = true) := by
  by_cases hne : options.subViews = []
  · left
    unfold promoteSubViewsMap at h
    simp only [hne, List.isEmpty_nil, if_true, Prod.mk.injEq, true_and] at h
    exact ⟨hne, h.symm⟩
  · right
    refine ⟨hne, ?_⟩
    have hemp : options.subViews.isEmpty = false := by
      cases hs : options.subViews with
      | nil => exact absurd hs hne
      | cons _ _ => rfl
    cases hp : promoteLoop bound options layout options.subViews s [] with
    | mk ores s1 =>
      cases ores with
      | none =>
        unfold promoteSubViewsMap at h
        simp only [hemp, Bool.false_eq_true, if_false, hp, Prod.mk.injEq, true_and] at h
        subst h
        obtain ⟨l, pre, e, hl, ht, ha, ⟨sv, sizes, r, hk⟩, hpre⟩ := promoteLoop_none bound
          options layout options.subViews s [] s1 hp
        exact ⟨l, pre, e, hl, ht, ha, by rw [hk]; rfl, hpre⟩
      | some res =>
        rw [promoteSubViewsMap_of_first_pass bound s options layout res s1 hne hp] at h
        simp only [Prod.mk.injEq] at h
        obtain ⟨hres, hs2⟩ := h
        have hfail : (copyInLoop options res options.subViews s1).1 = .failure := by
          cases hc : (copyInLoop options res options.subViews s1).1 with
          | success => simp [hc] at hres
          | failure => rfl
        obtain ⟨entries, l1, -, -, hlog1, htr1, hall⟩ := promoteLoop_some bound options
          layout options.subViews s [] res s1 hnd (by intro v _; rfl) hp
        obtain ⟨l2, hlog2, -, hf2⟩ := copyInLoop_spec options res options.subViews s1
        obtain ⟨pre, p, post, -, hl2⟩ := hf2 hfail
        refine ⟨l1 ++ l2,
          options.subViews.flatMap (fun v => promotionEvents bound options v (mapIndex res v.1))
            ++ pre.map (fun p => Event.copyInFn p.1 p.2 .success),
          .copyInFn p.1 p.2 .failure, ?_, ?_, rfl, rfl, ?_⟩
        · rw [← hs2, hlog2, hlog1, List.append_assoc]
        · rw [trace_append, htr1, hl2, trace_append, trace_copyIn_events, List.append_assoc]
          rfl
        · intro x hx
          rcases List.mem_append.mp hx with hx | hx
          · obtain ⟨v, hv, hxv⟩ := List.mem_flatMap.mp hx
            exact aborts_of_mem_promotionEvents bound options v _ (hall v hv).2.2 x hxv
          · obtain ⟨q, -, rfl⟩ := List.mem_map.mp hx
            exact ⟨rfl, rfl⟩

theorem promoteSubViewsMap_some_events (bound : BoundAnalysis) (s : State)
    (options : LinalgOpInstancePromotionOptions) (layout : DataLayout)
    (res : List (Nat × PromotionInfo)) (s2 : State)
    (hnd : (options.subViews.map Prod.fst).Nodup)
    (h : promoteSubViewsMap bound s options layout = (some res, s2)) :
    options.subViews ≠ [] ∧ res.length = options.subViews.length ∧
    ∃ l, s2.log = s.log ++ l ∧
      trace l =
        options.subViews.flatMap (fun v => promotionEvents bound options v (mapIndex res v.1)) ++
          (copyInTargets options res options.subViews).map
            (fun p => .copyInFn p.1 p.2 .success) ∧
      ∀ x ∈ trace l, x.aborts options = false ∧ x.isPromotion = true := by
  obtain ⟨hne, hkeys, ⟨l, hl, ht⟩, hall⟩ := promoteSubViewsMap_some bound s options layout res s2
    hnd h
  refine ⟨hne, ?_, l, hl, ht, ?_⟩
  · have := congrArg List.length hkeys
    simpa using this
  · intro x hx
    rw [ht] at hx
    rcases List.mem_append.mp hx with hx | hx
    · obtain ⟨v, hv, hxv⟩ := List.mem_flatMap.mp hx
      exact aborts_of_mem_promotionEvents bound options v _ (hall v hv).2.2 x hxv
    · obtain ⟨q, -, rfl⟩ := List.mem_map.mp hx
      exact ⟨rfl, rfl⟩

theorem promoteSubViewsOp_of_map_none (bound : BoundAnalysis) (s : State) (op : LinalgOp)
    (options : LinalgOpInstancePromotionOptions) (layout : DataLayout) (s1 : State)
    (h : promoteSubViewsMap bound s options layout = (none, s1)) :
    promoteSubViewsOp bound s op options layout = ⟨none, op, s1⟩ := by
  unfold promoteSubViewsOp
  rw [h]

/-- The operands and write-back pairs that the rewriter computes from a promotion map. -/
def rewrittenViews (op : LinalgOp) (options : LinalgOpInstancePromotionOptions)
    (promoted : List (Nat × PromotionInfo)) : NewOperands :=
  operandLoop op options promoted 0 op.operands ⟨[], []⟩

theorem promoteSubViewsOp_of_map_some (bound : BoundAnalysis) (s : State) (op : LinalgOp)
    (options : LinalgOpInstancePromotionOptions) (layout : DataLayout)
    (promoted : List (Nat × PromotionInfo)) (s1 : State)
    (hmap : promoteSubViewsMap bound s options layout = (some promoted, s1))
    (hlen : promoted.length = options.subViews.length) :
    (promoteSubViewsOp bound s op options layout).op =
      { op with operands := (rewrittenViews op options promoted).opViews } ∧
    ∃ l, (promoteSubViewsOp bound s op options layout).state.log =
        s1.log ++ [.setOperands (rewrittenViews op options promoted).opViews,
          .setInsertionPointAfter] ++ l ∧
      (((promoteSubViewsOp bound s op options layout).result =
            some (promoteSubViewsOp bound s op options layout).op ∧
          ∃ results : List LogicalResult, results.length = promoted.length ∧
            l = (rewrittenViews op options promoted).writebackViews.map
                (fun p => Event.copyOutFn p.2 p.1 .success) ++
              List.zipWith (fun pi r => Event.deallocationFn pi.2.fullLocalView r) promoted
                results) ∨
        ((promoteSubViewsOp bound s op options layout).result = none ∧
          ∃ pre p post, (rewrittenViews op options promoted).writebackViews = pre ++ p :: post ∧
            l = pre.map (fun p => Event.copyOutFn p.2 p.1 .success) ++
              [.copyOutFn p.2 p.1 .failure])) := by
  unfold promoteSubViewsOp rewrittenViews
  rw [hmap]
  simp only [hlen, ne_eq, not_true_eq_false, if_false]
  obtain ⟨l, hl, hs, hf⟩ := copyOutLoop_spec options
    (operandLoop op options promoted 0 op.operands ⟨[], []⟩).writebackViews
    { builder := { s1.builder with insertionPoint := .afterOp }
      log := s1.log ++ [.setOperands
        (operandLoop op options promoted 0 op.operands ⟨[], []⟩).opViews] ++
          [.setInsertionPointAfter] }
  cases hc : copyOutLoop options
    (operandLoop op options promoted 0 op.operands ⟨[], []⟩).writebackViews
    { builder := { s1.builder with insertionPoint := .afterOp }
      log := s1.log ++ [.setOperands
        (operandLoop op options promoted 0 op.operands ⟨[], []⟩).opViews] ++
          [.setInsertionPointAfter] } with
  | mk r s4 =>
    rw [hc] at hl hs hf
    simp only at hl hs hf
    cases r with
    | failure =>
      refine ⟨rfl, l, ?_, Or.inr ⟨rfl, hf rfl⟩⟩
      simp only [restoreInsertionPoint]
      rw [hl]
      simp
    | success =>
      obtain ⟨results, hrlen, hrlog⟩ := deallocLoop_spec options promoted s4
      refine ⟨rfl, l ++ List.zipWith (fun pi r => Event.deallocationFn pi.2.fullLocalView r)
        promoted results, ?_, Or.inl ⟨rfl, results, hrlen.trans hlen, by rw [hs rfl]⟩⟩
      simp only [restoreInsertionPoint]
      rw [hrlog, hl]
      simp

theorem trace_copyOut_events (views : List (Value × Value)) (r : LogicalResult) :
    trace (views.map (fun p => Event.copyOutFn p.2 p.1 r)) =
      views.map (fun p => Event.copyOutFn p.2 p.1 r) := by
  apply trace_of_trace_eq_self
  intro e he
  obtain ⟨p, -, rfl⟩ := List.mem_map.mp he
  rfl

theorem mem_zipWith_dealloc (promoted : List (Nat × PromotionInfo))
    (results : List LogicalResult) (e : Event)
    (he : e ∈ List.zipWith (fun pi r => Event.deallocationFn pi.2.fullLocalView r) promoted
      results) : ∃ b r, e = .deallocationFn b r := by
  induction promoted generalizing results with
  | nil => simp at he
  | cons pi rest ih =>
    cases results with
    | nil => simp at he
    | cons r rs =>
      rw [List.zipWith_cons_cons] at he
      rcases List.mem_cons.mp he with he | he
      · exact ⟨_, _, he⟩
      · exact ih rs he

/-- The four ways in which a run of the rewriter ends. -/
theorem promoteSubViewsOp_outcome (bound : BoundAnalysis) (s : State) (op : LinalgOp)
    (options : LinalgOpInstancePromotionOptions) (layout : DataLayout)
    (hnd : (options.subViews.map Prod.fst).Nodup) :
    ∃ l, (promoteSubViewsOp bound s op options layout).state.log = s.log ++ l ∧
      ((options.subViews = [] ∧ promoteSubViewsOp bound s op options layout = ⟨none, op, s⟩ ∧
          l = []) ∨
        (options.subViews ≠ [] ∧ (promoteSubViewsMap bound s options layout).1 = none ∧
          (promoteSubViewsOp bound s op options layout).result = none ∧
          (promoteSubViewsOp bound s op options layout).op = op ∧
          ∃ pre e, trace l = pre ++ [e] ∧ e.aborts options = true ∧ e.isPromotion = true ∧
            ∀ x ∈ pre, x.aborts options = false ∧ x.isPromotion = true) ∨
        (options.subViews ≠ [] ∧
          (∃ promoted, (promoteSubViewsMap bound s options layout).1 = some promoted) ∧
          (promoteSubViewsOp bound s op options layout).result = none ∧
          ∃ pre src dst, trace l = pre ++ [.copyOutFn src dst .failure] ∧
            ∀ x ∈ pre, x.aborts options = false) ∨
        (options.subViews ≠ [] ∧
          (∃ promoted, (promoteSubViewsMap bound s options layout).1 = some promoted) ∧
          (promoteSubViewsOp bound s op options layout).result =
            some (promoteSubViewsOp bound s op options layout).op ∧
          ∀ x ∈ trace l, x.aborts options = false)) := by
  cases hm : promoteSubViewsMap bound s options layout with
  | mk opromoted s1 =>
    cases opromoted with
    | none =>
      rw [promoteSubViewsOp_of_map_none bound s op options layout s1 hm]
      rcases promoteSubViewsMap_none bound s options layout s1 hnd hm with
        ⟨hnil, hs⟩ | ⟨hne, l, pre, e, hl, ht, ha, hp, hpre⟩
      · subst hs
        exact ⟨[], by simp, Or.inl ⟨hnil, rfl, rfl⟩⟩
      · exact ⟨l, hl, Or.inr (Or.inl ⟨hne, rfl, rfl, rfl, pre, e, ht, ha, hp, hpre⟩)⟩
    | some promoted =>
      obtain ⟨hne, hlen, lA, hlA, -, hfree⟩ := promoteSubViewsMap_some_events bound s options
        layout promoted s1 hnd hm
      obtain ⟨-, l, hl, hcase⟩ := promoteSubViewsOp_of_map_some bound s op options layout
        promoted s1 hm hlen
      refine ⟨lA ++ [.setOperands (rewrittenViews op options promoted).opViews,
        .setInsertionPointAfter] ++ l, ?_, ?_⟩
      · rw [hl, hlA]
        simp
      · right
        right
        rcases hcase with ⟨hres, results, -, hlr⟩ | ⟨hres, pre, p, post, -, hlr⟩
        · right
          refine ⟨hne, ⟨promoted, rfl⟩, hres, ?_⟩
          intro x hx
          rw [trace_append, trace_append, hlr, trace_append, trace_copyOut_events,
            trace_dealloc] at hx
          simp only [List.mem_append] at hx
          rcases hx with (hx | hx) | hx | hx
          · exact (hfree x hx).1
          · simp only [trace, Event.isValueCreation, List.mem_filter, List.mem_cons,
              List.mem_singleton] at hx
            rcases hx.1 with rfl | rfl | hx2
            · rfl
            · rfl
            · cases hx2
          · obtain ⟨q, -, rfl⟩ := List.mem_map.mp hx
            rfl
          · obtain ⟨b, r, rfl⟩ := mem_zipWith_dealloc _ _ _ hx
            rfl
        · left
          refine ⟨hne, ⟨promoted, rfl⟩, hres,
            trace lA ++ [.setOperands (rewrittenViews op options promoted).opViews,
              .setInsertionPointAfter] ++ pre.map (fun p => Event.copyOutFn p.2 p.1 .success),
            p.2, p.1, ?_, ?_⟩
          · rw [trace_append, trace_append, hlr, trace_append, trace_copyOut_events]
            simp [trace, Event.isValueCreation]
          · intro x hx
            simp only [List.mem_append] at hx
            rcases hx with (hx | hx) | hx
            · exact (hfree x hx).1
            · simp only [List.mem_cons, List.mem_singleton] at hx
              rcases hx with rfl | rfl | hx2
              · rfl
              · rfl
              · cases hx2
            · obtain ⟨q, -, rfl⟩ := List.mem_map.mp hx
              rfl

theorem promoteSubViewsMap_none_of_no_zero (bound : BoundAnalysis) (s : State)
    (options : LinalgOpInstancePromotionOptions) (layout : DataLayout)
    (hex : ∃ v ∈ options.subViews, mapGet options.useFullTileBuffers v.2.result = true ∧
      zeroOf v.2.elementType = none) :
    (promoteSubViewsMap bound s options layout).1 = none := by
  unfold promoteSubViewsMap
  by_cases hemp : options.subViews.isEmpty = true
  · simp [hemp]
  · have hnone := promoteLoop_none_of_no_zero bound options layout options.subViews s [] hex
    cases hp : promoteLoop bound options layout options.subViews s [] with
    | mk ores s1 =>
      rw [hp] at hnone
      simp only at hnone
      subst hnone
      simp [hemp]

theorem promoteSubViewsOp_result_of_map_none (bound : BoundAnalysis) (s : State)
    (op : LinalgOp) (options : LinalgOpInstancePromotionOptions) (layout : DataLayout)
    (h : (promoteSubViewsMap bound s options layout).1 = none) :
    (promoteSubViewsOp bound s op options layout).result = none ∧
    (promoteSubViewsOp bound s op options layout).op = op ∧
    (promoteSubViewsOp bound s op options layout).state =
      (promoteSubViewsMap bound s options layout).2 := by
  rw [promoteSubViewsOp_of_map_none bound s op options layout
    (promoteSubViewsMap bound s options layout).2 (Prod.ext h rfl)]
  exact ⟨rfl, rfl, rfl⟩

/-- C12: the entry point `promoteSubViews` returns failure, and never the operation, when no
operand is selected (nothing has been done then); when the allocation strategy returns no
buffer for a selected view; when a selected view flagged for full-buffer use has an element
type without a zero; when the copy-in strategy reports failure; and when the copy-out strategy
reports failure.  In the log without value creations, which holds every invocation of a
strategy and every fill, the entry recording such a failure (for a missing zero: the
allocation of that view) is the last one: after it no allocation, fill, copy or deallocation
takes place. -/
theorem failure_aborts_rewrite (bound : BoundAnalysis) (builder : OpBuilder)
    (linalgOp : LinalgOp) (options : LinalgPromotionOptions) (layout : DataLayout) :
    ((LinalgOpInstancePromotionOptions.construct linalgOp options).subViews = [] →
      (promoteSubViews bound builder linalgOp options layout).result = none ∧
      (promoteSubViews bound builder linalgOp options layout).state.log = []) ∧
    (∀ pre e post,
      trace (promoteSubViews bound builder linalgOp options layout).state.log
        = pre ++ e :: post →
      e.aborts (LinalgOpInstancePromotionOptions.construct linalgOp options) = true →
      (promoteSubViews bound builder linalgOp options layout).result = none ∧ post = []) ∧
    ((∃ v ∈ (LinalgOpInstancePromotionOptions.construct linalgOp options).subViews,
        mapGet (LinalgOpInstancePromotionOptions.construct linalgOp options).useFullTileBuffers
          v.2.result = true ∧ zeroOf v.2.elementType = none) →
      (promoteSubViews bound builder linalgOp options layout).result = none) ∧
    (∀ sv sizes, Event.aborts (LinalgOpInstancePromotionOptions.construct linalgOp options)
      (.allocationFn sv sizes none) = true) ∧
    (∀ sv sizes full,
      mapGet (LinalgOpInstancePromotionOptions.construct linalgOp options).useFullTileBuffers
        sv.result = true → zeroOf sv.elementType = none →
      Event.aborts (LinalgOpInstancePromotionOptions.construct linalgOp options)
        (.allocationFn sv sizes (some full)) = true) ∧
    (∀ src dst, Event.aborts (LinalgOpInstancePromotionOptions.construct linalgOp options)
      (.copyInFn src dst .failure) = true) ∧
    (∀ src dst, Event.aborts (LinalgOpInstancePromotionOptions.construct linalgOp options)
      (.copyOutFn src dst .failure) = true) := by
  obtain ⟨l, hl, hcase⟩ := promoteSubViewsOp_outcome bound ⟨builder, []⟩ linalgOp
    (LinalgOpInstancePromotionOptions.construct linalgOp options) layout
    (construct_nodup linalgOp options)
  simp only [List.nil_append] at hl
  refine ⟨?_, ?_, ?_, fun _ _ => rfl, ?_, fun _ _ => rfl, fun _ _ => rfl⟩
  · intro hnil
    unfold promoteSubViews
    rw [promoteSubViewsOp_of_no_subViews _ _ _ _ _ hnil]
    exact ⟨rfl, rfl⟩
  · intro pre e post ht ha
    unfold promoteSubViews at ht ⊢
    rw [hl] at ht
    rcases hcase with ⟨-, -, hnil⟩ | ⟨-, -, hres, -, pre1, e1, ht1, -, -, hpre1⟩ |
      ⟨-, -, hres, pre1, src, dst, ht1, hpre1⟩ | ⟨-, -, -, hfree⟩
    · rw [hnil] at ht
      simp [trace] at ht
    · rw [ht1] at ht
      exact ⟨hres, (abort_is_last _ pre1 e1 pre e post (fun x hx => (hpre1 x hx).1) ht ha).1⟩
    · rw [ht1] at ht
      exact ⟨hres, (abort_is_last _ pre1 _ pre e post hpre1 ht ha).1⟩
    · have := hfree e (by rw [ht]; simp)
      rw [ha] at this
      cases this
  · intro hex
    unfold promoteSubViews
    exact (promoteSubViewsOp_result_of_map_none bound _ linalgOp _ layout
      (promoteSubViewsMap_none_of_no_zero bound _ _ layout hex)).1
  · intro sv sizes full hf hz
    simp [Event.aborts, Event.lacksZero, hf, hz]

theorem not_setOperands_of_trace (l : List Event)
    (h : ∀ x ∈ trace l, x.isPromotion = true) (ops : List Value) :
    Event.setOperands ops ∉ l := by
  intro hmem
  rcases mem_trace_or l _ hmem with hv | ht
  · cases hv
  · have := h _ ht
    cases this

/-- C19: the operand list on failure of the promotion phase.  When `promoteSubViews` fails
because no operand is selected, or at a log entry of the promotion phase (an allocation that
returns no buffer, the allocation of a flagged view without a zero, a failing copy-in), the
operation is exactly what it was before the call and its operands were never replaced.  An
entry replacing the operand list comes only after the complete promotion phase: the promotion
map has been returned, and before that entry the log holds the allocation (and fill) of every
selected view and the successful copy-in of every copy-in operand, and after it no
allocation, fill or copy-in.  Hence a failed run leaves the operation unchanged unless the
log, stripped of value creations, ends with a failing copy-out. -/
theorem operands_unchanged_on_promotion_failure (bound : BoundAnalysis) (builder : OpBuilder)
    (linalgOp : LinalgOp) (options : LinalgPromotionOptions) (layout : DataLayout) :
    ((LinalgOpInstancePromotionOptions.construct linalgOp options).subViews = [] →
      (promoteSubViews bound builder linalgOp options layout).result = none ∧
      (promoteSubViews bound builder linalgOp options layout).op = linalgOp) ∧
    (∀ e ∈ trace (promoteSubViews bound builder linalgOp options layout).state.log,
      e.aborts (LinalgOpInstancePromotionOptions.construct linalgOp options) = true →
      e.isPromotion = true →
      (promoteSubViews bound builder linalgOp options layout).result = none ∧
      (promoteSubViews bound builder linalgOp options layout).op = linalgOp ∧
      ∀ ops, Event.setOperands ops ∉
        (promoteSubViews bound builder linalgOp options layout).state.log) ∧
    ((∃ v ∈ (LinalgOpInstancePromotionOptions.construct linalgOp options).subViews,
        mapGet (LinalgOpInstancePromotionOptions.construct linalgOp options).useFullTileBuffers
          v.2.result = true ∧ zeroOf v.2.elementType = none) →
      (promoteSubViews bound builder linalgOp options layout).result = none ∧
      (promoteSubViews bound builder linalgOp options layout).op = linalgOp) ∧
    ((promoteSubViews bound builder linalgOp options layout).result = none →
      (promoteSubViews bound builder linalgOp options layout).op = linalgOp ∨
      ∃ pre src dst, trace (promoteSubViews bound builder linalgOp options layout).state.log
        = pre ++ [.copyOutFn src dst .failure]) ∧
    (∀ ops, Event.setOperands ops ∈
        (promoteSubViews bound builder linalgOp options layout).state.log →
      ∃ promoted pre post,
        (promoteSubViewsMap bound ⟨builder, []⟩
          (LinalgOpInstancePromotionOptions.construct linalgOp options) layout).1
          = some promoted ∧
        (promoteSubViews bound builder linalgOp options layout).state.log =
          pre ++ .setOperands ops :: post ∧
        (promoteSubViews bound builder linalgOp options layout).op.operands = ops ∧
        trace pre =
          (LinalgOpInstancePromotionOptions.construct linalgOp options).subViews.flatMap
            (fun v => promotionEvents bound
              (LinalgOpInstancePromotionOptions.construct linalgOp options) v
              (mapIndex promoted v.1)) ++
          (copyInTargets (LinalgOpInstancePromotionOptions.construct linalgOp options)
            promoted
            (LinalgOpInstancePromotionOptions.construct linalgOp options).subViews).map
            (fun p => .copyInFn p.1 p.2 .success) ∧
        (∀ x ∈ trace pre,
          x.aborts (LinalgOpInstancePromotionOptions.construct linalgOp options) = false) ∧
        ∀ x ∈ post, x.isPromotion = false) := by
  obtain ⟨l, hl, hcase⟩ := promoteSubViewsOp_outcome bound ⟨builder, []⟩ linalgOp
    (LinalgOpInstancePromotionOptions.construct linalgOp options) layout
    (construct_nodup linalgOp options)
  simp only [List.nil_append] at hl
  unfold promoteSubViews
  refine ⟨?_, ?_, ?_, ?_, ?_⟩
  · intro hnil
    rw [promoteSubViewsOp_of_no_subViews _ _ _ _ _ hnil]
    exact ⟨rfl, rfl⟩
  · intro e he ha hp
    rw [hl] at he
    rcases hcase with ⟨-, -, hnil⟩ | ⟨-, -, hres, hop, pre1, e1, ht1, -, hp1, hpre1⟩ |
      ⟨-, -, hres, pre1, src, dst, ht1, hpre1⟩ | ⟨-, -, -, hfree⟩
    · rw [hnil] at he
      simp [trace] at he
    · refine ⟨hres, hop, ?_⟩
      intro ops
      rw [hl]
      apply not_setOperands_of_trace
      intro x hx
      rw [ht1] at hx
      rcases List.mem_append.mp hx with hx | hx
      · exact (hpre1 x hx).2
      · rw [List.mem_singleton.mp hx]
        exact hp1
    · rw [ht1] at he
      rcases List.mem_append.mp he with he | he
      · rw [hpre1 e he] at ha
        cases ha
      · rw [List.mem_singleton.mp he] at hp
        cases hp
    · rw [hfree e he] at ha
      cases ha
  · intro hex
    have := promoteSubViewsOp_result_of_map_none bound ⟨builder, []⟩ linalgOp _ layout
      (promoteSubViewsMap_none_of_no_zero bound _ _ layout hex)
    exact ⟨this.1, this.2.1⟩
  · intro hnone
    rcases hcase with ⟨-, hrun, -⟩ | ⟨-, -, -, hop, -⟩ |
      ⟨-, -, -, pre1, src, dst, ht1, -⟩ | ⟨-, -, hres, -⟩
    · left
      rw [hrun]
    · exact Or.inl hop
    · right
      rw [hl]
      exact ⟨pre1, src, dst, ht1⟩
    · rw [hnone] at hres
      cases hres
  · intro ops hops
    cases hm : promoteSubViewsMap bound ⟨builder, []⟩
        (LinalgOpInstancePromotionOptions.construct linalgOp options) layout with
    | mk opromoted s1 =>
      cases opromoted with
      | none =>
        exfalso
        rw [promoteSubViewsOp_of_map_none bound _ linalgOp _ layout s1 hm] at hops
        simp only at hops
        rcases promoteSubViewsMap_none bound _ _ layout s1 (construct_nodup linalgOp options)
          hm with ⟨-, hs⟩ | ⟨-, l1, pre1, e1, hl1, ht1, -, hp1, hpre1⟩
        · rw [hs] at hops
          cases hops
        · simp only [List.nil_append] at hl1
          rw [hl1] at hops
          refine not_setOperands_of_trace l1 ?_ ops hops
          intro x hx
          rw [ht1] at hx
          rcases List.mem_append.mp hx with hx | hx
          · exact (hpre1 x hx).2
          · rw [List.mem_singleton.mp hx]
            exact hp1
      | some promoted =>
        obtain ⟨-, hlen, lA, hlA, htA, hfree⟩ := promoteSubViewsMap_some_events bound _ _
          layout promoted s1 (construct_nodup linalgOp options) hm
        simp only [List.nil_append] at hlA
        obtain ⟨hop, l2, hl2, hcase2⟩ := promoteSubViewsOp_of_map_some bound ⟨builder, []⟩
          linalgOp _ layout promoted s1 hm hlen
        have hl2mem : ∀ x ∈ l2, x.isPromotion = false ∧ ∀ o, x ≠ .setOperands o := by
          intro x hx
          rcases hcase2 with ⟨-, results, -, hlr⟩ | ⟨-, pre, p, post, -, hlr⟩
          · rw [hlr] at hx
            rcases List.mem_append.mp hx with hx | hx
            · obtain ⟨q, -, rfl⟩ := List.mem_map.mp hx
              exact ⟨rfl, fun o ho => by cases ho⟩
            · obtain ⟨b, r, rfl⟩ := mem_zipWith_dealloc _ _ _ hx
              exact ⟨rfl, fun o ho => by cases ho⟩
          · rw [hlr] at hx
            rcases List.mem_append.mp hx with hx | hx
            · obtain ⟨q, -, rfl⟩ := List.mem_map.mp hx
              exact ⟨rfl, fun o ho => by cases ho⟩
            · rw [List.mem_singleton.mp hx]
              exact ⟨rfl, fun o ho => by cases ho⟩
        rw [hl2] at hops
        have hops2 : ops = (rewrittenViews linalgOp
            (LinalgOpInstancePromotionOptions.construct linalgOp options) promoted).opViews := by
          rcases List.mem_append.mp hops with hops | hops
          · rcases List.mem_append.mp hops with hops | hops
            · exfalso
              rw [hlA] at hops
              exact not_setOperands_of_trace lA (fun x hx => (hfree x hx).2) ops hops
            · rcases List.mem_cons.mp hops with hops | hops
              · injection hops
              · rcases List.mem_cons.mp hops with hops | hops
                · cases hops
                · cases hops
          · exact absurd rfl ((hl2mem _ hops).2 ops)
        refine ⟨promoted, s1.log, .setInsertionPointAfter :: l2, rfl, ?_, ?_, ?_, ?_, ?_⟩
        · rw [hl2, hops2]
          simp
        · rw [hop, hops2]
        · rw [hlA]
          exact htA
        · intro x hx
          rw [hlA] at hx
          exact (hfree x hx).1
        · intro x hx
          rcases List.mem_cons.mp hx with rfl | hx
          · rfl
          · exact (hl2mem x hx).1

theorem deallocCalls_of_success (bound : BoundAnalysis) (s : State) (op : LinalgOp)
    (options : LinalgOpInstancePromotionOptions) (layout : DataLayout) (newOp : LinalgOp)
    (hnd : (options.subViews.map Prod.fst).Nodup) (hs : s.log = [])
    (h : (promoteSubViewsOp bound s op options layout).result = some newOp) :
    ∃ promoted results,
      (promoteSubViewsMap bound s options layout).1 = some promoted ∧
      results.length = promoted.length ∧
      newOp = { op with operands :=
        op.operands.enum.map (fun p => newOperand options promoted p.1 p.2) } ∧
      deallocCalls (promoteSubViewsOp bound s op options layout).state.log =
        List.zipWith (fun pi r => (pi.2.fullLocalView, r)) promoted results := by
  obtain ⟨promoted, s1, results, hmap, hlen, hnew, hop, hrlen, hlog⟩ :=
    promoteSubViewsOp_some bound s op options layout newOp h
  obtain ⟨-, -, l, hl, -, hfree⟩ := promoteSubViewsMap_some_events bound s options layout
    promoted s1 hnd hmap
  rw [hs, List.nil_append] at hl
  refine ⟨promoted, results, by rw [hmap], hrlen, hnew, ?_⟩
  have hbefore : deallocCalls (s1.log ++ [.setOperands newOp.operands, .setInsertionPointAfter]
      ++ ((op.operands.enum.filter (fun p => needsWriteback op options p.1)).map
        (fun p => Event.copyOutFn (mapIndex promoted p.1).partialLocalView p.2 .success)))
      = [] := by
    apply deallocCalls_eq_nil
    intro e he b r hb
    subst hb
    rw [trace_append, trace_append, hl] at he
    rcases List.mem_append.mp he with he | he
    · rcases List.mem_append.mp he with he | he
      · have := (hfree _ he).2
        cases this
      · simp [trace, Event.isValueCreation] at he
    · unfold trace at he
      rw [List.mem_filter, List.mem_map] at he
      obtain ⟨⟨p, -, hp⟩, -⟩ := he
      cases hp
  rw [hlog, deallocCalls_append, hbefore, List.nil_append, deallocCalls_zipWith]

/-- C20: the result of the deallocation strategy is ignored.  In every run in which at least
one operand is selected and the log holds no allocation without a buffer, no allocation of a
flagged view without a zero, no failing copy-in and no failing copy-out, `promoteSubViews`
returns the rewritten operation, and the deallocation strategy has been invoked once for the
full view of every promoted operand, in order, whatever these invocations reported: a
reported failure neither fails the rewrite nor stops the remaining deallocations. -/
theorem deallocation_result_ignored (bound : BoundAnalysis) (builder : OpBuilder)
    (linalgOp : LinalgOp) (options : LinalgPromotionOptions) (layout : DataLayout)
    (hsel : (LinalgOpInstancePromotionOptions.construct linalgOp options).subViews ≠ [])
    (hok : ∀ e ∈ (promoteSubViews bound builder linalgOp options layout).state.log,
      e.aborts (LinalgOpInstancePromotionOptions.construct linalgOp options) = false) :
    ∃ promoted results,
      (promoteSubViewsMap bound ⟨builder, []⟩
        (LinalgOpInstancePromotionOptions.construct linalgOp options) layout).1
        = some promoted ∧
      (promoteSubViews bound builder linalgOp options layout).result =
        some (promoteSubViews bound builder linalgOp options layout).op ∧
      (promoteSubViews bound builder linalgOp options layout).op =
        { linalgOp with operands := linalgOp.operands.enum.map (fun p =>
            newOperand (LinalgOpInstancePromotionOptions.construct linalgOp options) promoted
              p.1 p.2) } ∧
      results.length = promoted.length ∧
      deallocCalls (promoteSubViews bound builder linalgOp options layout).state.log =
        List.zipWith (fun pi r => (pi.2.fullLocalView, r)) promoted results := by
  obtain ⟨l, hl, hcase⟩ := promoteSubViewsOp_outcome bound ⟨builder, []⟩ linalgOp
    (LinalgOpInstancePromotionOptions.construct linalgOp options) layout
    (construct_nodup linalgOp options)
  simp only [List.nil_append] at hl
  unfold promoteSubViews at hok ⊢
  have hmem : ∀ e ∈ trace l, e.aborts
      (LinalgOpInstancePromotionOptions.construct linalgOp options) = false := by
    intro e he
    apply hok
    rw [hl]
    exact List.mem_of_mem_filter he
  rcases hcase with ⟨hnil, -, -⟩ | ⟨-, -, -, -, pre1, e1, ht1, ha, -, -⟩ |
    ⟨-, -, -, pre1, src, dst, ht1, -⟩ | ⟨-, -, hres, -⟩
  · exact absurd hnil hsel
  · have := hmem e1 (by rw [ht1]; simp)
    rw [ha] at this
    cases this
  · have := hmem (.copyOutFn src dst .failure) (by rw [ht1]; simp)
    cases this
  · obtain ⟨promoted, results, h1, h2, h3, h4⟩ := deallocCalls_of_success bound
      ⟨builder, []⟩ linalgOp _ layout _ (construct_nodup linalgOp options) rfl hres
    exact ⟨promoted, results, h1, hres, h3, h2, h4⟩

/-- A configuration whose deallocation strategy reports failure on every buffer. -/
def failingDeallocOptions : LinalgPromotionOptions :=
  { sampleOptions with deallocationFn := some (fun b _ => (.failure, b)) }

/-- The rewrite of `threeViewsOp` with the failing deallocation strategy. -/
def failingDeallocRewrite : RewriteResult :=
  promoteSubViews sampleBound emptyBuilder threeViewsOp failingDeallocOptions sampleLayout

/-- The promotion map computed for `threeViewsOp` with the failing deallocation strategy. -/
def failingDeallocPromoted : List (Nat × PromotionInfo) :=
  (promoteSubViewsMap sampleBound ⟨emptyBuilder, []⟩
    (LinalgOpInstancePromotionOptions.construct threeViewsOp failingDeallocOptions)
    sampleLayout).1.getD []

/-- C20, witness: the three-view operation with a deallocation strategy that always reports
failure; the rewrite succeeds and all three buffers are passed to the strategy. -/
theorem deallocation_result_ignored_witness :
    (LinalgOpInstancePromotionOptions.construct threeViewsOp failingDeallocOptions).subViews
      ≠ [] ∧
    (∀ e ∈ failingDeallocRewrite.state.log,
      e.aborts (LinalgOpInstancePromotionOptions.construct threeViewsOp failingDeallocOptions)
        = false) ∧
    failingDeallocRewrite.result = some failingDeallocRewrite.op ∧
    deallocCalls failingDeallocRewrite.state.log =
      [((mapIndex failingDeallocPromoted 0).fullLocalView, .failure),
        ((mapIndex failingDeallocPromoted 1).fullLocalView, .failure),
        ((mapIndex failingDeallocPromoted 2).fullLocalView, .failure)] ∧
    ∃ promoted results,
      (promoteSubViewsMap sampleBound ⟨emptyBuilder, []⟩
        (LinalgOpInstancePromotionOptions.construct threeViewsOp failingDeallocOptions)
        sampleLayout).1 = some promoted ∧
      (promoteSubViews sampleBound emptyBuilder threeViewsOp failingDeallocOptions
        sampleLayout).result =
        some (promoteSubViews sampleBound emptyBuilder threeViewsOp failingDeallocOptions
          sampleLayout).op ∧
      (promoteSubViews sampleBound emptyBuilder threeViewsOp failingDeallocOptions
        sampleLayout).op =
        { threeViewsOp with operands := threeViewsOp.operands.enum.map (fun p =>
            newOperand
              (LinalgOpInstancePromotionOptions.construct threeViewsOp failingDeallocOptions)
              promoted p.1 p.2) } ∧
      results.length = promoted.length ∧
      deallocCalls (promoteSubViews sampleBound emptyBuilder threeViewsOp
          failingDeallocOptions sampleLayout).state.log =
        List.zipWith (fun pi r => (pi.2.fullLocalView, r)) promoted results :=
  ⟨by decide, by decide, rfl, rfl,
    deallocation_result_ignored sampleBound emptyBuilder threeViewsOp failingDeallocOptions
      sampleLayout (by decide) (by decide)⟩

/-! ## The shared-memory backend and dynamic sizes -/

/-- The buffers allocated by the created operations, in creation order. -/
def allocations (created : List (InsertionPoint × Op)) : List Value :=
  created.filterMap (fun p =>
    match p.2 with
    | .value (.alloc id type dynamicSizes alignment) =>
      some (.alloc id type dynamicSizes alignment)
    | .value (.alloca id type dynamicSizes alignment) =>
      some (.alloca id type dynamicSizes alignment)
    | _ => none)

/-- The sizes that `promoteSubviewAsNewBuffer` requests from the allocation strategy for a
view. -/
def resolvedSizes (bound : BoundAnalysis) (useOriginalSubviewSize : Bool) (sv : SubViewOp) :
    List Value :=
  sv.keptSizes.map (resolveFullSize bound useOriginalSubviewSize)

/-- The buffer that the workgroup backend allocates for a view whose resolved sizes are all
constants. -/
def workgroupBuffer (bound : BoundAnalysis) (useOriginalSubviewSize : Bool)
    (sv : SubViewOp) (id : Nat) : Value :=
  .alloc id
    ⟨((resolvedSizes bound useOriginalSubviewSize sv).filterMap matchConstantInt).map some,
      sv.elementType, some (.gpu .workgroup)⟩ [] none

/-- The builder `c` is reached from `b` without an allocation. -/
def NoAllocation (b c : OpBuilder) : Prop :=
  allocations c.created = allocations b.created

theorem noAllocation_refl (b : OpBuilder) : NoAllocation b b := rfl

theorem noAllocation_trans {b c d : OpBuilder} (h1 : NoAllocation b c) (h2 : NoAllocation c d) :
    NoAllocation b d := h2.trans h1

theorem allocations_append (l1 l2 : List (InsertionPoint × Op)) :
    allocations (l1 ++ l2) = allocations l1 ++ allocations l2 := by
  simp [allocations]

theorem noAllocation_create (b : OpBuilder) (op : Op)
    (h : allocations [(b.insertionPoint, op)] = []) : NoAllocation b (b.create op) := by
  unfold NoAllocation OpBuilder.create
  rw [allocations_append, h, List.append_nil]

theorem noAllocation_getValueOrCreateConstantIndexOp (s : State) (size : OpFoldResult) :
    NoAllocation s.builder (getValueOrCreateConstantIndexOp s size).2.builder := by
  cases size with
  | attr c => exact (by apply noAllocation_create; rfl)
  | value v => exact noAllocation_refl s.builder

theorem noAllocation_resolvedSize (bound : BoundAnalysis) (useOrig : Bool) (s : State)
    (size : OpFoldResult) :
    NoAllocation s.builder (resolvedSize bound useOrig s size).2.builder := by
  unfold resolvedSize
  split
  · exact noAllocation_getValueOrCreateConstantIndexOp s size
  · split
    · exact noAllocation_getValueOrCreateConstantIndexOp s size
    · exact (by apply noAllocation_create; rfl)

theorem noAllocation_tileSizesLoop (bound : BoundAnalysis) (subView : SubViewOp)
    (useOrig : Bool) (ranges : List Range) (index : Nat) (acc : TileSizes) :
    NoAllocation acc.state.builder
      (tileSizesLoop bound subView useOrig index ranges acc).state.builder := by
  induction ranges generalizing index acc with
  | nil => exact noAllocation_refl _
  | cons r rest ih =>
    rw [tileSizesLoop_cons]
    split
    · exact ih (index + 1) acc
    · exact noAllocation_trans
        (noAllocation_trans (noAllocation_resolvedSize bound useOrig acc.state r.size)
          (by apply noAllocation_create; rfl))
        (ih (index + 1) _)

theorem noAllocation_fillValue (s : State) (t : MType) :
    NoAllocation s.builder (fillValue s t).2.builder := by
  cases t with
  | index => exact noAllocation_refl _
  | float w => exact (by apply noAllocation_create; rfl)
  | integer w => exact (by apply noAllocation_create; rfl)
  | complexOfFloat w =>
    have h1 : NoAllocation s.builder
        (s.builder.create (.value (.constant (.float (.float w) 0)))) := by
      apply noAllocation_create
      rfl
    exact noAllocation_trans h1 (by apply noAllocation_create; rfl)
  | complexOfInteger w =>
    have h1 : NoAllocation s.builder
        (s.builder.create (.value (.constant (.integer (.integer w) 0)))) := by
      apply noAllocation_create
      rfl
    exact noAllocation_trans h1 (by apply noAllocation_create; rfl)
  | other id => exact noAllocation_refl _

theorem allocateWorkgroupMemory_spec (hasParentFunc : SubViewOp → Bool) (b : OpBuilder)
    (sv : SubViewOp) (sizes : List Value) (layout : DataLayout) :
    ((∃ z ∈ sizes, matchConstantInt z = none) →
      allocateWorkgroupMemory hasParentFunc b sv sizes layout = (none, b)) ∧
    (allocateWorkgroupMemory hasParentFunc b sv sizes layout = (none, b) ∨
      allocateWorkgroupMemory hasParentFunc b sv sizes layout =
        (some (.alloc b.nextId
            ⟨(sizes.filterMap matchConstantInt).map some, sv.elementType,
              some (.gpu .workgroup)⟩ [] none),
          { insertionPoint := b.insertionPoint
            created := b.created ++
              [(.funcEntry, .value (.alloc b.nextId
                ⟨(sizes.filterMap matchConstantInt).map some, sv.elementType,
                  some (.gpu .workgroup)⟩ [] none))]
            nextId := b.nextId + 1 })) := by
  unfold allocateWorkgroupMemory allocateSubviewGPUMemoryInAddressSpace
  rw [shapeLoop_eq]
  constructor
  · rintro ⟨z, hz, hnone⟩
    have hall : sizes.all (fun v => (matchConstantInt v).isSome) = false := by
      rw [List.all_eq_false]
      exact ⟨z, hz, by simp [hnone]⟩
    rw [hall]
    split <;> rfl
  · by_cases hf : hasParentFunc sv = true
    · by_cases hall : sizes.all (fun v => (matchConstantInt v).isSome) = true
      · right
        simp [hf, hall, OpBuilder.create]
      · left
        simp [hf, hall]
    · left
      simp [hf]

theorem promoteSubviewAsNewBuffer_workgroup (bound : BoundAnalysis) (s : State)
    (sv : SubViewOp) (useOrig : Bool) (hasParentFunc : SubViewOp → Bool)
    (layout : DataLayout) :
    ((∃ z ∈ resolvedSizes bound useOrig sv, matchConstantInt z = none) →
      (promoteSubviewAsNewBuffer bound s sv useOrig (allocateWorkgroupMemory hasParentFunc)
        layout).1 = none) ∧
    ((promoteSubviewAsNewBuffer bound s sv useOrig (allocateWorkgroupMemory hasParentFunc)
        layout).1 = none →
      allocations (promoteSubviewAsNewBuffer bound s sv useOrig
        (allocateWorkgroupMemory hasParentFunc) layout).2.builder.created
        = allocations s.builder.created) ∧
    ((promoteSubviewAsNewBuffer bound s sv useOrig (allocateWorkgroupMemory hasParentFunc)
        layout).1.isSome = true →
      ∃ id, allocations (promoteSubviewAsNewBuffer bound s sv useOrig
        (allocateWorkgroupMemory hasParentFunc) layout).2.builder.created
        = allocations s.builder.created ++ [workgroupBuffer bound useOrig sv id]) := by
  obtain ⟨h1, -, -⟩ := tileSizesLoop_eq bound sv useOrig
    (SubViewOp.getOrCreateRanges sv.offsets sv.sizes sv.strides) 0 ⟨s, [], [], 0⟩
  have hq := noAllocation_tileSizesLoop bound sv useOrig
    (SubViewOp.getOrCreateRanges sv.offsets sv.sizes sv.strides) 0 ⟨s, [], [], 0⟩
  simp only [List.nil_append] at h1
  have h1b : (tileSizesLoop bound sv useOrig 0
      (SubViewOp.getOrCreateRanges sv.offsets sv.sizes sv.strides) ⟨s, [], [], 0⟩).fullSizes
      = resolvedSizes bound useOrig sv := h1
  unfold promoteSubviewAsNewBuffer
  simp only at hq ⊢
  generalize tileSizesLoop bound sv useOrig 0
    (SubViewOp.getOrCreateRanges sv.offsets sv.sizes sv.strides) ⟨s, [], [], 0⟩ = sizes
    at hq h1b ⊢
  obtain ⟨ha, hb⟩ := allocateWorkgroupMemory_spec hasParentFunc sizes.state.builder sv
    sizes.fullSizes layout
  rw [h1b] at ha hb
  rw [h1b]
  unfold NoAllocation at hq
  rcases hb with hb | hb
  · rw [hb]
    exact ⟨fun _ => rfl, fun _ => hq, fun h => by cases h⟩
  · refine ⟨?_, ?_, ?_⟩
    · intro hex
      rw [ha hex]
    · intro hnone
      rw [hb] at hnone
      cases hnone
    · intro _
      rw [hb]
      refine ⟨sizes.state.builder.nextId, ?_⟩
      simp only [State.create, OpBuilder.create, allocations_append, hq]
      simp [allocations, workgroupBuffer]

theorem promoteLoop_workgroup (bound : BoundAnalysis)
    (options : LinalgOpInstancePromotionOptions) (layout : DataLayout)
    (hasParentFunc : SubViewOp → Bool)
    (halloc : options.allocationFn = allocateWorkgroupMemory hasParentFunc)
    (pre : List (Nat × SubViewOp)) (v : Nat × SubViewOp) (post : List (Nat × SubViewOp))
    (s : State) (m : List (Nat × PromotionInfo))
    (hv : ∃ z ∈ resolvedSizes bound options.useOriginalSubviewSize v.2,
      matchConstantInt z = none) :
    (promoteLoop bound options layout (pre ++ v :: post) s m).1 = none ∧
    ∃ ids : List Nat, ids.length ≤ pre.length ∧
      allocations (promoteLoop bound options layout (pre ++ v :: post) s m).2.builder.created =
        allocations s.builder.created ++
          List.zipWith
            (fun u id => workgroupBuffer bound options.useOriginalSubviewSize u.2 id) pre
            ids := by
  induction pre generalizing s m with
  | nil =>
    rw [List.nil_append, promoteLoop_cons, halloc]
    obtain ⟨b1, b2, -⟩ := promoteSubviewAsNewBuffer_workgroup bound s v.2
      options.useOriginalSubviewSize hasParentFunc layout
    have hnone := b1 hv
    cases hp : promoteSubviewAsNewBuffer bound s v.2 options.useOriginalSubviewSize
        (allocateWorkgroupMemory hasParentFunc) layout with
    | mk oinfo sa =>
      rw [hp] at hnone b2
      simp only at hnone
      subst hnone
      exact ⟨rfl, [], Nat.le_refl _, by simpa using b2 rfl⟩
  | cons u rest ih =>
    rw [List.cons_append, promoteLoop_cons, halloc]
    obtain ⟨-, b2, b3⟩ := promoteSubviewAsNewBuffer_workgroup bound s u.2
      options.useOriginalSubviewSize hasParentFunc layout
    cases hp : promoteSubviewAsNewBuffer bound s u.2 options.useOriginalSubviewSize
        (allocateWorkgroupMemory hasParentFunc) layout with
    | mk oinfo sa =>
      rw [hp] at b2 b3
      cases oinfo with
      | none => exact ⟨rfl, [], Nat.zero_le _, by simpa using b2 rfl⟩
      | some info =>
        obtain ⟨id, hid⟩ := b3 rfl
        simp only at hid ⊢
        by_cases hflag : mapGet options.useFullTileBuffers u.2.result = true
        · simp only [hflag, Bool.not_true, Bool.false_eq_true, if_false]
          have hfill := noAllocation_fillValue sa u.2.elementType
          cases hfv : fillValue sa u.2.elementType with
          | mk oz sf =>
            rw [hfv] at hfill
            unfold NoAllocation at hfill
            simp only at hfill
            cases oz with
            | none =>
              refine ⟨rfl, [id], by simp, ?_⟩
              simp only [hfill, hid]
              simp
            | some z =>
              simp only
              obtain ⟨i1, ids, i2, i3⟩ := ih
                (sf.create (.linalgFill z info.fullLocalView)) (mapSet m u.1 info)
              refine ⟨i1, id :: ids, by simpa using i2, ?_⟩
              rw [i3]
              have hcr : allocations
                  (sf.create (.linalgFill z info.fullLocalView)).builder.created =
                  allocations sf.builder.created := by
                simp only [State.create, OpBuilder.create, allocations_append]
                simp [allocations]
              rw [hcr, hfill, hid]
              simp
        · have hflag2 : mapGet options.useFullTileBuffers u.2.result = false := by
            simpa using hflag
          simp only [hflag2, Bool.not_false, if_true]
          obtain ⟨i1, ids, i2, i3⟩ := ih sa (mapSet m u.1 info)
          refine ⟨i1, id :: ids, by simpa using i2, ?_⟩
          rw [i3, hid]
          simp

/-- C15 (as amended): for every promotion that uses the shared-memory (workgroup) allocation
backend and in which some selected view has a resolved dimension size that is not a
compile-time constant, `promoteSubViews` fails and leaves the operation as it was (the
outcome is a function of the inputs, so it is the same on every run), and no allocation is
emitted for that view nor for any selected view after it: the allocations emitted by the call
are buffers of selected views in front of it, in order, one for each such view that was
reached, and they are not rolled back.  In particular nothing is allocated when the view is
the first selected one. -/
theorem shared_memory_dynamic_size_fails (bound : BoundAnalysis) (builder : OpBuilder)
    (linalgOp : LinalgOp) (options : LinalgPromotionOptions) (layout : DataLayout)
    (hasParentFunc : SubViewOp → Bool)
    (pre : List (Nat × SubViewOp)) (v : Nat × SubViewOp) (post : List (Nat × SubViewOp))
    (halloc : options.allocationFn = some (allocateWorkgroupMemory hasParentFunc))
    (hsplit : (LinalgOpInstancePromotionOptions.construct linalgOp options).subViews
      = pre ++ v :: post)
    (hv : ∃ z ∈ resolvedSizes bound options.useOriginalSubviewSize v.2,
      matchConstantInt z = none) :
    (promoteSubViews bound builder linalgOp options layout).result = none ∧
    (promoteSubViews bound builder linalgOp options layout).op = linalgOp ∧
    ∃ ids : List Nat, ids.length ≤ pre.length ∧
      allocations (promoteSubViews bound builder linalgOp options layout).state.builder.created
        = allocations builder.created ++
          List.zipWith
            (fun u id => workgroupBuffer bound options.useOriginalSubviewSize u.2 id) pre
            ids := by
  have hfn : (LinalgOpInstancePromotionOptions.construct linalgOp options).allocationFn =
      allocateWorkgroupMemory hasParentFunc := by
    simp [LinalgOpInstancePromotionOptions.construct, halloc]
  obtain ⟨hnone, ids, hlen, hallocs⟩ := promoteLoop_workgroup bound
    (LinalgOpInstancePromotionOptions.construct linalgOp options) layout hasParentFunc hfn
    pre v post ⟨builder, []⟩ [] hv
  have hmap : promoteSubViewsMap bound ⟨builder, []⟩
      (LinalgOpInstancePromotionOptions.construct linalgOp options) layout =
      (none, (promoteLoop bound (LinalgOpInstancePromotionOptions.construct linalgOp options)
        layout (pre ++ v :: post) ⟨builder, []⟩ []).2) := by
    unfold promoteSubViewsMap
    rw [hsplit]
    have hemp : (pre ++ v :: post).isEmpty = false := by
      cases pre <;> rfl
    simp only [hemp, Bool.false_eq_true, if_false]
    cases hp : promoteLoop bound (LinalgOpInstancePromotionOptions.construct linalgOp options)
        layout (pre ++ v :: post) ⟨builder, []⟩ [] with
    | mk ores s1 =>
      rw [hp] at hnone
      simp only at hnone
      subst hnone
      rfl
  unfold promoteSubViews
  rw [promoteSubViewsOp_of_map_none bound _ linalgOp _ layout _ hmap]
  exact ⟨rfl, rfl, ids, hlen, hallocs⟩

/-- An operation whose input is a static 4x4 view and whose output has a dynamic
dimension. -/
def dynamicSizeOp : LinalgOp :=
  sampleOp [(sampleView 0).result, (dynamicView 1).result] 1

/-- The shared-memory backend as allocation strategy, every view being inside a function. -/
def workgroupOptions : LinalgPromotionOptions :=
  { sampleOptions with allocationFn := some (allocateWorkgroupMemory (fun _ => true)) }

/-- A bound analysis that derives no bound. -/
def noBound : BoundAnalysis := fun _ => none

/-- C15 (as stated) fails: with the shared-memory backend, the static view of operand 0 and
the view of operand 1 whose dimension 0 has a size without a constant bound, the promotion
fails, but the buffer of operand 0 has been allocated by then and stays in the program. -/
theorem shared_memory_partial_allocation :
    (∃ z ∈ resolvedSizes noBound workgroupOptions.useOriginalSubviewSize (dynamicView 1),
      matchConstantInt z = none) ∧
    (LinalgOpInstancePromotionOptions.construct dynamicSizeOp workgroupOptions).subViews =
      [(0, sampleView 0), (1, dynamicView 1)] ∧
    (promoteSubViews noBound emptyBuilder dynamicSizeOp workgroupOptions sampleLayout).result
      = none ∧
    allocations emptyBuilder.created = [] ∧
    allocations (promoteSubViews noBound emptyBuilder dynamicSizeOp workgroupOptions
        sampleLayout).state.builder.created =
      [.alloc 0 ⟨[some 4, some 4], .float 32, some (.gpu .workgroup)⟩ [] none] ∧
    (InsertionPoint.funcEntry,
        Op.value (.alloc 0 ⟨[some 4, some 4], .float 32, some (.gpu .workgroup)⟩ [] none)) ∈
      (promoteSubViews noBound emptyBuilder dynamicSizeOp workgroupOptions
        sampleLayout).state.builder.created := by
  refine ⟨by decide, by decide, rfl, by decide, by decide, by decide⟩

/-- C15, witness: the same promotion; the only allocation is the buffer of operand 0, which
precedes the view with the dynamic size. -/
theorem shared_memory_dynamic_size_fails_witness :
    workgroupOptions.allocationFn = some (allocateWorkgroupMemory (fun _ => true)) ∧
    (LinalgOpInstancePromotionOptions.construct dynamicSizeOp workgroupOptions).subViews
      = [(0, sampleView 0)] ++ (1, dynamicView 1) :: [] ∧
    (∃ z ∈ resolvedSizes noBound workgroupOptions.useOriginalSubviewSize (dynamicView 1),
      matchConstantInt z = none) ∧
    (promoteSubViews noBound emptyBuilder dynamicSizeOp workgroupOptions sampleLayout).result
      = none ∧
    (promoteSubViews noBound emptyBuilder dynamicSizeOp workgroupOptions sampleLayout).op
      = dynamicSizeOp ∧
    ∃ ids : List Nat, ids.length ≤ [(0, sampleView 0)].length ∧
      allocations (promoteSubViews noBound emptyBuilder dynamicSizeOp workgroupOptions
          sampleLayout).state.builder.created
        = allocations emptyBuilder.created ++
          List.zipWith
            (fun u id => workgroupBuffer noBound workgroupOptions.useOriginalSubviewSize u.2 id)
            [(0, sampleView 0)] ids :=
  ⟨rfl, by decide, by decide,
    shared_memory_dynamic_size_fails noBound emptyBuilder dynamicSizeOp workgroupOptions
      sampleLayout (fun _ => true) [(0, sampleView 0)] (1, dynamicView 1) [] rfl (by decide)
      (by decide)⟩

/-! ## The promotion map and the selection -/

/-- C21: whenever the tile promoter succeeds on instance options whose selected-view map has
one entry per operand number (the invariant of a `MapVector`, which the constructor
establishes), the returned map has the same keys in the same order as the selected-view map:
exactly one `PromotionInfo` for each selected operand number and none for any other.  So the
two maps have the same size, and the rewriter does not take its size-mismatch exit: for every
operation it goes on to replace the operand list. -/
theorem promotion_map_matches_selection (bound : BoundAnalysis) (s : State)
    (options : LinalgOpInstancePromotionOptions) (layout : DataLayout)
    (promoted : List (Nat × PromotionInfo)) (s1 : State)
    (hnd : (options.subViews.map Prod.fst).Nodup)
    (h : promoteSubViewsMap bound s options layout = (some promoted, s1)) :
    promoted.map Prod.fst = options.subViews.map Prod.fst ∧
    (promoted.map Prod.fst).Nodup ∧
    promoted.length = options.subViews.length ∧
    (∀ v ∈ options.subViews, ∃ info, mapFind promoted v.1 = some info ∧
      (v.1, info) ∈ promoted) ∧
    (∀ e ∈ promoted, ∃ sv, (e.1, sv) ∈ options.subViews) ∧
    ∀ op : LinalgOp,
      (promoteSubViewsOp bound s op options layout).op =
        { op with operands := (rewrittenViews op options promoted).opViews } ∧
      ∃ l, (promoteSubViewsOp bound s op options layout).state.log =
        s1.log ++ [.setOperands (rewrittenViews op options promoted).opViews,
          .setInsertionPointAfter] ++ l := by
  obtain ⟨-, hkeys, -, hall⟩ := promoteSubViewsMap_some bound s options layout promoted s1
    hnd h
  have hlen : promoted.length = options.subViews.length := by
    have := congrArg List.length hkeys
    simpa using this
  refine ⟨hkeys, by rw [hkeys]; exact hnd, hlen, ?_, ?_, ?_⟩
  · intro v hv
    obtain ⟨info, hinfo⟩ := Option.isSome_iff_exists.mp (hall v hv).2.1
    exact ⟨info, hinfo, mapFind_some_mem _ _ _ hinfo⟩
  · intro e he
    have hk : e.1 ∈ options.subViews.map Prod.fst := by
      rw [← hkeys]
      exact List.mem_map_of_mem Prod.fst he
    obtain ⟨v, hv, hve⟩ := List.mem_map.mp hk
    exact ⟨v.2, by rw [← hve]; exact hv⟩
  · intro op
    obtain ⟨hop, l, hl, -⟩ := promoteSubViewsOp_of_map_some bound s op options layout promoted
      s1 h hlen
    exact ⟨hop, l, hl⟩

/-- C21, witness: the three views of `threeViewsOp` are selected under the operand numbers
0, 1, 2, and the promotion map has exactly these keys in this order. -/
theorem promotion_map_matches_selection_witness :
    (threeViewsInstance.subViews.map Prod.fst).Nodup ∧
    threeViewsInstance.subViews.map Prod.fst = [0, 1, 2] ∧
    threeViewsPromoted.map Prod.fst = [0, 1, 2] ∧
    threeViewsPromoted.map Prod.fst = threeViewsInstance.subViews.map Prod.fst ∧
    (threeViewsPromoted.map Prod.fst).Nodup ∧
    threeViewsPromoted.length = threeViewsInstance.subViews.length ∧
    (∀ v ∈ threeViewsInstance.subViews, ∃ info, mapFind threeViewsPromoted v.1 = some info ∧
      (v.1, info) ∈ threeViewsPromoted) ∧
    (∀ e ∈ threeViewsPromoted, ∃ sv, (e.1, sv) ∈ threeViewsInstance.subViews) ∧
    ∀ op : LinalgOp,
      (promoteSubViewsOp sampleBound ⟨emptyBuilder, []⟩ op threeViewsInstance sampleLayout).op =
        { op with operands :=
          (rewrittenViews op threeViewsInstance threeViewsPromoted).opViews } ∧
      ∃ l, (promoteSubViewsOp sampleBound ⟨emptyBuilder, []⟩ op threeViewsInstance
          sampleLayout).state.log =
        (promoteSubViewsMap sampleBound ⟨emptyBuilder, []⟩ threeViewsInstance
          sampleLayout).2.log ++
          [.setOperands (rewrittenViews op threeViewsInstance threeViewsPromoted).opViews,
            .setInsertionPointAfter] ++ l :=
  ⟨construct_nodup threeViewsOp sampleOptions, by decide, by decide,
    promotion_map_matches_selection sampleBound ⟨emptyBuilder, []⟩ threeViewsInstance
      sampleLayout threeViewsPromoted
      (promoteSubViewsMap sampleBound ⟨emptyBuilder, []⟩ threeViewsInstance sampleLayout).2
      (construct_nodup threeViewsOp sampleOptions) rfl⟩

end Linalg
